import Mathlib

/-!
# The routing engine of `dr_api.c`

A shallow embedding of the distance-vector routing engine in `src/dr_api.c`.

* The routing table (the linked list behind `head_rt`) is a `List route_t`, head first.
  An empty list is `head_rt == NULL`.
* A C function that would dereference `NULL` returns `none`.
* `uint32_t` values are natural numbers; the one addition of the engine
  (`here_u->cost + received->metric`) is taken modulo `2^32`.
* The host callbacks `dr_interface_count` and `dr_get_interface` are a list of interface
  records; `dr_send_payload` is the list of datagrams a call hands to it, in order.
* The clock is read as one value per invocation of `handle_packet`, `interface_changed` and
  `dr_init` (`now`); the periodic sweep calls `get_time()` once for every record, and the
  host gives the value of each of these readings (`clock`).
* The host has a byte order; `htonl` and the datagram buffer depend on it.
* Memory that `malloc` hands out and the code never writes holds what the host says it
  holds: `uninit` for the entry of the notice of each call of `broadcast_intf_down`,
  `uninit_route` for the record `dr_init` allocates first.
* A datagram is kept as the header and the entry copied into its buffer; `encode` and
  `decode` give the bytes of the buffer and the two `memcpy` calls that read it back.
* `remove` unlinks the record at a position of the list. The walks read the `next` field of
  the record they have just removed, exactly as the source does; the removed record keeps
  its fields, so a walk with removals visits every record of the table it started from.
-/

namespace RIP

/-! ## Data model -/

/-- The `struct timeval` of the C library: seconds and microseconds. -/
structure timeval where
  tv_sec : Int
  tv_usec : Int
deriving DecidableEq, Repr

/-- The entry of a RIP datagram (`rip_entry_t`). -/
structure rip_entry_t where
  addr_family : Nat
  pad : Nat
  ip : Nat
  subnet_mask : Nat
  next_hop : Nat
  metric : Nat
  learned_from : Nat
deriving DecidableEq, Repr

/-- The header of a RIP datagram (`rip_header_t`, without the flexible array member). -/
structure rip_header_t where
  command : Nat
  version : Nat
  pad : Nat
deriving DecidableEq, Repr

/-- A record of the routing table (`route_t`); the `next` pointer is the list structure. -/
structure route_t where
  subnet : Nat
  mask : Nat
  next_hop_ip : Nat
  outgoing_intf : Nat
  cost : Nat
  learned_from : Nat
  last_updated : timeval
  is_garbage : Int
deriving DecidableEq, Repr

/-- Modelled from the spec: the interface record of `dr_api.h` (not under `src/`), with the
fields the engine reads: `ip`, `subnet_mask`, `enabled`, `cost`. -/
structure lvns_interface_t where
  ip : Nat
  subnet_mask : Nat
  enabled : Nat
  cost : Nat
deriving DecidableEq, Repr

/-- Modelled from the spec: the result type of `dr_get_next_hop` declared in `dr_api.h`
(not under `src/`): an interface index and the IP of the next hop. -/
structure next_hop_t where
  interface : Nat
  dst_ip : Nat
deriving DecidableEq, Repr

/-- One call of `dr_send_payload(dst_ip, next_hop_ip, outgoing_intf, buf, len)`; the buffer is
kept as the header and the entry that were copied into it. -/
structure payload_t where
  dst_ip : Nat
  next_hop_ip : Nat
  outgoing_intf : Nat
  header : rip_header_t
  entry : rip_entry_t
  len : Nat
deriving DecidableEq, Repr

/-- The host as one entry point invocation sees it: the interfaces behind
`dr_interface_count` / `dr_get_interface`; the clock value `now` that `get_struct_timeval`
reads; `clock k`, the value `gettimeofday` gives when `get_time()` is called for the record
number `k` of the periodic sweep; the byte order of the machine; `uninit k`, the contents of
the memory that `malloc` hands out for the entry of the notice in the call of
`broadcast_intf_down` that the invocation makes at index `k` of its loop (each call
allocates its own block, so each can hold something else); and `uninit_route`, the contents
of the memory that `malloc` hands out for the record `dr_init` allocates first. -/
structure host_t where
  ifs : List lvns_interface_t
  now : timeval
  clock : Nat → timeval
  big_endian : Bool
  uninit : Nat → rip_entry_t
  uninit_route : route_t

/-! ## Constants -/

/-- The constant `INFINITY`, defined as 16. -/
def INFINITY : Nat := 16

/-- The library function `htonl` on a host of the given byte order: the `uint32_t` whose four
bytes in the memory of the host are the bytes of `x`, most significant first. On a
big-endian host that is `x` itself, on a little-endian host `x` with its bytes reversed. -/
def htonl (big : Bool) (x : Nat) : Nat :=
  if big then x
  else x % 256 * 16777216 + x / 256 % 256 * 65536 + x / 65536 % 256 * 256 + x / 16777216 % 256

/-- The constant `RIP_IP`, `htonl(0xE0000009)`: `0xE0000009` on a big-endian host and
`0x090000E0` on a little-endian one. -/
def RIP_IP (big : Bool) : Nat := htonl big 0xE0000009

/-- The constant `RIP_COMMAND_RESPONSE`, defined as 2. -/
def RIP_COMMAND_RESPONSE : Nat := 2

/-- The constant `RIP_VERSION`, defined as 2. -/
def RIP_VERSION : Nat := 2

/-- The constant `RIP_TIMEOUT_SEC`, defined as 20. -/
def RIP_TIMEOUT_SEC : Int := 20

/-- The constant `IPV4_ADDR_FAM`, defined as 1. -/
def IPV4_ADDR_FAM : Nat := 1

/-- The number of values of a `uint32_t`. -/
def UINT32 : Nat := 2 ^ 32

/-- The value of `sizeof(rip_header_t) + sizeof(rip_entry_t)` for the packed structures: a
header of 4 bytes (two `char`, one `uint16_t`) and an entry of 24 bytes (two `uint16_t`,
five `uint32_t`). -/
def PAYLOAD_LEN : Nat := 4 + 24

/-! ## Host callbacks -/

/-- The callback `dr_interface_count()`. -/
def dr_interface_count (h : host_t) : Nat := h.ifs.length

/-- The callback `dr_get_interface(index)`: a copy of the interface, all fields zero for an
invalid index. -/
def dr_get_interface (h : host_t) (index : Nat) : lvns_interface_t :=
  h.ifs.getD index ⟨0, 0, 0, 0⟩

/-! ## The routing table: `append` and `get_next_hop` -/

/-- The seven field assignments `append` performs on a record whose subnet equals that of
`new_entry` (the subnet itself and the `next` pointer stay). -/
def overwrite (current new_entry : route_t) : route_t :=
  { current with
    mask := new_entry.mask
    next_hop_ip := new_entry.next_hop_ip
    outgoing_intf := new_entry.outgoing_intf
    cost := new_entry.cost
    last_updated := new_entry.last_updated
    learned_from := new_entry.learned_from
    is_garbage := new_entry.is_garbage }

/-- The walk of `append` from a non-null `current`: the first record with the subnet of
`new_entry` is overwritten, otherwise the new record is linked behind the last one. -/
def append_from (current : route_t) (new_entry : route_t) : List route_t → List route_t
  | [] =>
    if current.subnet = new_entry.subnet then [overwrite current new_entry]
    else [current, new_entry]
  | nxt :: rest =>
    if current.subnet = new_entry.subnet then overwrite current new_entry :: nxt :: rest
    else current :: append_from nxt new_entry rest

/-- The function `append(head, new_entry)`. It reads `head->next` first, so a null head is a
crash (`none`). -/
def append : List route_t → route_t → Option (List route_t)
  | [], _ => none
  | current :: rest, new_entry => some (append_from current new_entry rest)

/-- The function `safe_dr_get_next_hop(ip)`: the first record whose masked subnet matches,
otherwise interface 0 and next hop `0xFFFFFFFF`. -/
def safe_dr_get_next_hop : List route_t → Nat → next_hop_t
  | [], _ => { interface := 0, dst_ip := 0xFFFFFFFF }
  | current :: rest, ip =>
    if ip &&& current.mask = current.subnet then
      { interface := current.outgoing_intf, dst_ip := current.next_hop_ip }
    else safe_dr_get_next_hop rest ip

/-! ## Broadcast helpers -/

/-- The header every outgoing datagram carries: command RESPONSE, version 2, pad 0. -/
def response_header : rip_header_t :=
  { command := RIP_COMMAND_RESPONSE, version := RIP_VERSION, pad := 0 }

/-- The entry `broadcast_single_entry` and `advertise_routing_table` fill from a record: the
metric is `INFINITY` for a record marked garbage, the cost otherwise. -/
def entry_of_route (r : route_t) : rip_entry_t :=
  { addr_family := IPV4_ADDR_FAM
    pad := 0
    ip := r.subnet
    subnet_mask := r.mask
    next_hop := r.next_hop_ip
    metric := if r.is_garbage = 1 then INFINITY else r.cost
    learned_from := r.learned_from }

/-- The entry of `broadcast_intf_down` in the call made at loop index `k`: only
`addr_family`, `pad`, `ip` and `next_hop` are written, the other fields keep what the memory
allocated in that call held. -/
def entry_of_intf_down (h : host_t) (k : Nat) (intf_ip : Nat) : rip_entry_t :=
  { h.uninit k with
    addr_family := IPV4_ADDR_FAM
    pad := 0
    ip := intf_ip
    next_hop := intf_ip }

/-- The call `dr_send_payload(RIP_IP, RIP_IP, i, buf, sizeof(buf))` on the host `h`. -/
def dr_send_payload (h : host_t) (i : Nat) (e : rip_entry_t) : payload_t :=
  { dst_ip := RIP_IP h.big_endian
    next_hop_ip := RIP_IP h.big_endian
    outgoing_intf := i
    header := response_header
    entry := e
    len := PAYLOAD_LEN }

/-- The loop `for i < dr_interface_count(): if (dr_get_interface(i).enabled) send` shared by
the two broadcast functions. -/
def broadcast (h : host_t) (e : rip_entry_t) : List payload_t :=
  (List.range (dr_interface_count h)).filterMap fun i =>
    if (dr_get_interface h i).enabled ≠ 0 then some (dr_send_payload h i e) else none

/-- The function `broadcast_single_entry(to_broadcast)`. -/
def broadcast_single_entry (h : host_t) (to_broadcast : route_t) : List payload_t :=
  broadcast h (entry_of_route to_broadcast)

/-- The function `broadcast_intf_down(intf_ip)`, called at loop index `k` of the invocation:
one entry is allocated and filled, and the same buffer is sent on every enabled interface. -/
def broadcast_intf_down (h : host_t) (k : Nat) (intf_ip : Nat) : List payload_t :=
  broadcast h (entry_of_intf_down h k intf_ip)

/-- The function `advertise_routing_table()`: on every enabled interface one datagram per
record, and for every disabled interface a down notice. -/
def advertise_routing_table (h : host_t) (tbl : List route_t) : List payload_t :=
  (List.range (dr_interface_count h)).flatMap fun i =>
    if (dr_get_interface h i).enabled ≠ 0 then
      tbl.map fun current => dr_send_payload h i (entry_of_route current)
    else broadcast_intf_down h i (dr_get_interface h i).ip

/-! ## `remove` and the walks that remove records -/

/-- The function `remove(to_remove)` for the record at position `pos` of the table: when it
is the head, `head_rt` moves to the second record (or becomes null); otherwise the
predecessor is linked to the successor of the record. The removed record itself keeps its
fields, its `next` pointer included. -/
def remove : List route_t → Nat → List route_t
  | [], _ => []
  | _ :: rest, 0 => rest
  | r :: rest, pos + 1 => r :: remove rest pos

/-- The loop `while (current != NULL) { if (c) { mark; broadcast; remove(current); }
current = current->next; }` from a cursor: `tbl` is the table behind `head_rt`, `pos` the
position of `current` in it, `k` the number of records the loop has visited, and the last
argument the records from `current` on, in the order the `next` pointers give. `c k` is the
test made at the record number `k`, `mark` is the assignment made to the record before it
is broadcast, `extra k` what is sent after the record number `k` itself. -/
def sweep_from (h : host_t) (c : Nat → route_t → Bool) (mark : route_t → route_t)
    (extra : Nat → List payload_t) :
    List route_t → Nat → Nat → List route_t → List route_t × List payload_t
  | tbl, _, _, [] => (tbl, [])
  | tbl, pos, k, current :: rest =>
    if c k current then
      ((sweep_from h c mark extra (remove (tbl.set pos (mark current)) pos) pos (k + 1) rest).1,
        broadcast_single_entry h (mark current) ++ extra k
          ++ (sweep_from h c mark extra (remove (tbl.set pos (mark current)) pos) pos (k + 1)
              rest).2)
    else sweep_from h c mark extra tbl (pos + 1) (k + 1) rest

/-- The loop started at `current = head_rt`. -/
def sweep (h : host_t) (c : Nat → route_t → Bool) (mark : route_t → route_t)
    (extra : Nat → List payload_t) (tbl : List route_t) : List route_t × List payload_t :=
  sweep_from h c mark extra tbl 0 0 tbl

/-- The loop of the disable branch, `while (current->next != NULL) { ... }`, from a cursor
at a non-null `current`: the last record of the table is never examined. -/
def sweep_but_last_from (h : host_t) (c : route_t → Bool) (mark : route_t → route_t) :
    List route_t → Nat → route_t → List route_t → List route_t × List payload_t
  | tbl, _, _, [] => (tbl, [])
  | tbl, pos, current, nxt :: rest =>
    if c current then
      ((sweep_but_last_from h c mark (remove (tbl.set pos (mark current)) pos) pos nxt rest).1,
        broadcast_single_entry h (mark current)
          ++ (sweep_but_last_from h c mark (remove (tbl.set pos (mark current)) pos) pos nxt
              rest).2)
    else sweep_but_last_from h c mark tbl (pos + 1) nxt rest

/-- The loop of the disable branch started at `current = head_rt`, for the table
`current :: rest`. -/
def sweep_but_last (h : host_t) (c : route_t → Bool) (mark : route_t → route_t)
    (current : route_t) (rest : List route_t) : List route_t × List payload_t :=
  sweep_but_last_from h c mark (current :: rest) 0 current rest

/-! ## `safe_dr_handle_packet` -/

/-- The local variables of `safe_dr_handle_packet` that the table walk sets.
`u_interface_index` is `none` for the initial `-1` (interface indices are taken to be
below `2^31`, so no index converts to `-1`). `here_u` holds the fields of the record
the pointer designates: the code only reads `cost`, `subnet` and `mask` through it, and no
statement writes one of these before it is read. `here_v` is the position of the designated
record in the table. -/
structure locals_t where
  here_u_exists : Bool
  here_v_exists : Bool
  u_interface_index : Option Nat
  here_u : Option route_t
  here_v : Option Nat
deriving DecidableEq, Repr

/-- The values of the locals at their declaration. -/
def locals_init : locals_t :=
  { here_u_exists := false, here_v_exists := false, u_interface_index := none,
    here_u := none, here_v := none }

/-- The outcome of the table walk: either the function returned from inside the loop, with
the table and the datagrams sent, or the loop ran to the end. -/
inductive walk_t where
  | returned (tbl : List route_t) (out : List payload_t)
  | done (tbl : List route_t) (st : locals_t)
deriving Repr

/-- Rule A, lines 255-261: the metric is forced to `INFINITY` when `learned_from` is the IP
of a local interface. -/
def split_horizon (h : host_t) (received : rip_entry_t) : rip_entry_t :=
  (List.range (dr_interface_count h)).foldl
    (fun rcv i =>
      if rcv.learned_from = (dr_get_interface h i).ip then { rcv with metric := INFINITY }
      else rcv)
    received

/-- Lines 289-294: whether `v` is the IP of a local interface. -/
def v_same_as_here (h : host_t) (v : Nat) : Bool :=
  (List.range (dr_interface_count h)).foldl
    (fun same i => if v = (dr_get_interface h i).ip then true else same)
    false

/-- The interface test of lines 306 and 334,
`(tmp.ip & tmp.subnet_mask) == (s & tmp.subnet_mask) && tmp.enabled`, for interface `i`. -/
def on_subnet (h : host_t) (s i : Nat) : Prop :=
  (dr_get_interface h i).ip &&& (dr_get_interface h i).subnet_mask
      = s &&& (dr_get_interface h i).subnet_mask
    ∧ (dr_get_interface h i).enabled ≠ 0

instance (h : host_t) (s i : Nat) : Decidable (on_subnet h s i) := by
  unfold on_subnet; infer_instance

/-- Lines 304-309: the search for the interface of `here_u`; every enabled interface on the
subnet overwrites the index, so the last one stays. -/
def search_intf (h : host_t) (subnet : Nat) (idx : Option Nat) : Option Nat :=
  (List.range (dr_interface_count h)).foldl
    (fun found i => if on_subnet h subnet i then some i else found)
    idx

/-- The walk of lines 296-327 over the records from `current` on; `visited` are the records
before `current`, already processed, so the table is `visited ++ current :: rest`. -/
def walk (h : host_t) (ip v metric : Nat) :
    List route_t → List route_t → locals_t → walk_t
  | visited, [], st => .done visited st
  | visited, current :: rest, st =>
    let c1 : route_t :=
      if current.subnet = ip then { current with last_updated := h.now } else current
    let st1 : locals_t :=
      if current.subnet = ip then
        { st with
          here_u_exists := true
          here_u := some c1
          u_interface_index := search_intf h c1.subnet st.u_interface_index }
      else st
    if current.subnet = v then
      let c2 : route_t := { c1 with last_updated := h.now }
      if c2.next_hop_ip = ip ∧ metric > 15 then
        .returned (remove (visited ++ { c2 with is_garbage := 1 } :: rest) visited.length)
          (broadcast_single_entry h { c2 with is_garbage := 1 })
      else
        walk h ip v metric (visited ++ [c2]) rest
          { st1 with here_v_exists := true, here_v := some visited.length }
    else walk h ip v metric (visited ++ [c1]) rest st1

/-- The record lines 329-343 build for the sender on interface `i`. -/
def new_here_u (h : host_t) (ip i : Nat) : route_t :=
  { subnet := ip
    mask := (dr_get_interface h i).subnet_mask
    next_hop_ip := 0
    outgoing_intf := i
    cost := (dr_get_interface h i).cost
    learned_from := 0
    last_updated := h.now
    is_garbage := 0 }

/-- Lines 328-355: when the sender has no record and `v` is not local, the first enabled
interface on the subnet of the sender gives a record, appended when its cost is at most 15. -/
def synthesize (h : host_t) (tbl : List route_t) (ip : Nat) (same : Bool) (st : locals_t) :
    Option (List route_t × List payload_t × locals_t) :=
  if ¬ st.here_u_exists ∧ ¬ same then
    match (List.range (dr_interface_count h)).find? (fun i => decide (on_subnet h ip i)) with
    | none => some (tbl, [], st)
    | some i =>
      let st1 : locals_t :=
        { st with u_interface_index := some i, here_u := some (new_here_u h ip i) }
      if (new_here_u h ip i).cost ≤ 15 then
        match append tbl (new_here_u h ip i) with
        | none => none
        | some tbl1 =>
          some (tbl1, broadcast_single_entry h (new_here_u h ip i),
            { st1 with here_u_exists := true })
      else some (tbl, [], st1)
  else some (tbl, [], st)

/-- The record lines 357-366 build for the destination. -/
def new_here_v (h : host_t) (ip : Nat) (received : rip_entry_t) (here_u : route_t)
    (u_interface_index : Nat) : route_t :=
  { subnet := received.ip
    mask := received.subnet_mask
    next_hop_ip := ip
    outgoing_intf := u_interface_index
    cost := (here_u.cost + received.metric) % UINT32
    learned_from := ip
    last_updated := h.now
    is_garbage := 0 }

/-- The assignments of lines 379-383 to the record `here_v`. -/
def relax (ip : Nat) (received : rip_entry_t) (here_u : route_t) (u_interface_index : Nat)
    (here_v : route_t) : route_t :=
  { here_v with
    cost := (here_u.cost + received.metric) % UINT32
    outgoing_intf := u_interface_index
    next_hop_ip := here_u.subnet
    mask := here_u.mask
    learned_from := ip }

/-- Lines 356-388: insertion of a new destination, or the Bellman-Ford update. A pointer
that was never set is not read on any path; the model returns `none` there. -/
def update (h : host_t) (tbl : List route_t) (ip : Nat) (received : rip_entry_t)
    (same : Bool) (st : locals_t) (out : List payload_t) :
    Option (List route_t × List payload_t) :=
  if ¬ st.here_v_exists ∧ ¬ same ∧ st.u_interface_index ≠ none then
    match st.here_u, st.u_interface_index with
    | some here_u, some idx =>
      if (new_here_v h ip received here_u idx).cost ≤ 15 then
        match append tbl (new_here_v h ip received here_u idx) with
        | none => none
        | some tbl1 =>
          some (tbl1, out ++ broadcast_single_entry h (new_here_v h ip received here_u idx))
      else some (tbl, out)
    | _, _ => none
  else if ¬ same ∧ st.u_interface_index ≠ none ∧ st.here_u_exists then
    match st.here_u, st.u_interface_index, st.here_v with
    | some here_u, some idx, some pos =>
      match tbl[pos]? with
      | some here_v =>
        if here_v.cost > (here_u.cost + received.metric) % UINT32 then
          some (tbl.set pos (relax ip received here_u idx here_v),
            out ++ broadcast_single_entry h (relax ip received here_u idx here_v))
        else some (tbl, out)
      | none => none
    | _, _, _ => none
  else some (tbl, out)

/-- The function `safe_dr_handle_packet(ip, intf, buf, len)`. The buffer is given by the
header and the entry the two `memcpy` calls read from it; `intf`, `len` and the header are
not read by the code. The result is the new table and the datagrams sent. -/
def safe_dr_handle_packet (h : host_t) (tbl : List route_t) (ip : Nat) (_intf : Nat)
    (_header : rip_header_t) (entry : rip_entry_t) (_len : Nat) :
    Option (List route_t × List payload_t) :=
  let received := split_horizon h entry
  if received.ip = received.next_hop then
    some (sweep h
      (fun _ current =>
        decide (current.next_hop_ip = received.ip ∨ current.subnet = received.ip))
      (fun current => { current with cost := INFINITY })
      (fun k => broadcast_intf_down h k received.ip) tbl)
  else
    match walk h ip received.ip received.metric [] tbl locals_init with
    | .returned tbl1 out => some (tbl1, out)
    | .done tbl1 st =>
      match synthesize h tbl1 ip (v_same_as_here h received.ip) st with
      | none => none
      | some (tbl2, out, st1) =>
        update h tbl2 ip received (v_same_as_here h received.ip) st1 out

/-! ## `safe_dr_handle_periodic`, `safe_dr_interface_changed`, `dr_init` -/

/-- The value a `long` of 64 bits holds for the arithmetic result `x`: the machine keeps the
low 64 bits, read in two's complement. -/
def wrap_long (x : Int) : Int :=
  (x + 9223372036854775808) % 18446744073709551616 - 9223372036854775808

/-- The value `tv_sec * 1000 + tv_usec / 1000` that `get_time` returns for the clock value
`t`, and that the sweep computes from `last_updated` (lines 400-401, 579), in milliseconds:
`long` arithmetic, and C division truncates. -/
def get_time (t : timeval) : Int :=
  wrap_long (wrap_long (t.tv_sec * 1000) + Int.tdiv t.tv_usec 1000)

/-- The test `(current_time - time_entry)/1000.f > RIP_TIMEOUT_SEC` of the periodic sweep at
the record number `k`, for which `get_time()` reads the clock value `clock k`. The
difference is a `long`; it is converted to `float` and divided by `1000.f`, and the
quotient exceeds 20 exactly when the difference exceeds 20000: the conversion and the
division round to nearest and are monotone, 20000 gives exactly 20, and 20001 gives a
`float` above 20. -/
def timed_out (h : host_t) (k : Nat) (current : route_t) : Bool :=
  decide (wrap_long (get_time (h.clock k) - get_time current.last_updated)
    > RIP_TIMEOUT_SEC * 1000)

/-- The function `safe_dr_handle_periodic()`: the whole table is advertised, then every
record that timed out is marked garbage, broadcast and removed. -/
def safe_dr_handle_periodic (h : host_t) (tbl : List route_t) :
    List route_t × List payload_t :=
  ((sweep h (timed_out h) (fun current => { current with is_garbage := 1 }) (fun _ => [])
      tbl).1,
    advertise_routing_table h tbl
      ++ (sweep h (timed_out h) (fun current => { current with is_garbage := 1 })
          (fun _ => []) tbl).2)

/-- The record `safe_dr_interface_changed` builds for the interface `intf`
(lines 433-442 and 465-474). -/
def new_entry_of_intf (h : host_t) (intf : Nat) : route_t :=
  { subnet := (dr_get_interface h intf).ip &&& (dr_get_interface h intf).subnet_mask
    mask := (dr_get_interface h intf).subnet_mask
    next_hop_ip := 0
    outgoing_intf := intf
    cost := (dr_get_interface h intf).cost
    learned_from := 0
    last_updated := h.now
    is_garbage := 0 }

/-- The function `safe_dr_interface_changed(intf, state_changed, cost_changed)`. -/
def safe_dr_interface_changed (h : host_t) (tbl : List route_t) (intf : Nat)
    (state_changed cost_changed : Int) : Option (List route_t × List payload_t) :=
  if state_changed ≠ 0 then
    if (dr_get_interface h intf).enabled ≠ 0 then
      match append tbl (new_entry_of_intf h intf) with
      | none => none
      | some tbl1 => some (tbl1, broadcast_single_entry h (new_entry_of_intf h intf))
    else
      match tbl with
      | [] => none
      | current :: rest =>
        some ((sweep_but_last h (fun c => decide (c.outgoing_intf = intf))
            (fun c => { c with cost := INFINITY }) current rest).1,
          broadcast_intf_down h 0 (dr_get_interface h intf).ip
            ++ (sweep_but_last h (fun c => decide (c.outgoing_intf = intf))
              (fun c => { c with cost := INFINITY }) current rest).2)
  else if cost_changed ≠ 0 then
    match append
        (sweep h (fun _ c => decide (c.outgoing_intf = intf))
          (fun c => { c with is_garbage := 1 }) (fun _ => []) tbl).1
        (new_entry_of_intf h intf) with
    | none => none
    | some tbl1 =>
      some (tbl1,
        (sweep h (fun _ c => decide (c.outgoing_intf = intf))
          (fun c => { c with is_garbage := 1 }) (fun _ => []) tbl).2
          ++ broadcast_single_entry h (new_entry_of_intf h intf))
  else some (tbl, [])

/-- The record `dr_init` builds for interface `i` (lines 194-203). -/
def new_entry_init (h : host_t) (i : Nat) : route_t :=
  { subnet := (dr_get_interface h i).subnet_mask &&& (dr_get_interface h i).ip
    mask := (dr_get_interface h i).subnet_mask
    next_hop_ip := 0
    outgoing_intf := i
    cost := (dr_get_interface h i).cost
    learned_from := 0
    last_updated := h.now
    is_garbage := 0 }

/-- The table `dr_init` builds (lines 188-211): `head_rt` is first set to an allocated record
that is not written; interface 0 replaces it, every further interface is appended, enabled
or not. With no interface at all the call returns with `head_rt` on the never-written
record, whose fields are what the allocated memory held; its `next` pointer is taken to be
null, as in memory the allocator hands out for the first time. -/
def dr_init (h : host_t) : Option (List route_t) :=
  (List.range (dr_interface_count h)).foldl
    (fun head_rt i =>
      if i = 0 then some [new_entry_init h i]
      else head_rt.bind fun tbl => append tbl (new_entry_init h i))
    (some [h.uninit_route])

/-! ## Vocabulary of the statements -/

/-- A record matches an address when the masked address is its subnet. -/
def route_matches (ip : Nat) (r : route_t) : Prop := ip &&& r.mask = r.subnet

instance (ip : Nat) (r : route_t) : Decidable (route_matches ip r) := by
  unfold route_matches; infer_instance

/-- The indices of the enabled interfaces, in increasing order. -/
def enabled_intfs (h : host_t) : List Nat :=
  (List.range (dr_interface_count h)).filter fun i => decide ((dr_get_interface h i).enabled ≠ 0)

/-- The selection of the interface-down notice for `v`: next hop `v` or subnet `v`. -/
def via_or_to (v : Nat) (r : route_t) : Bool := decide (r.next_hop_ip = v ∨ r.subnet = v)

/-! ## Concrete hosts, tables and datagrams used in the examples -/

/-- A clock value. -/
def t0 : timeval := { tv_sec := 100, tv_usec := 0 }

/-- Memory for a datagram entry in which every byte is zero. -/
def zero_entry : rip_entry_t :=
  { addr_family := 0, pad := 0, ip := 0, subnet_mask := 0, next_hop := 0, metric := 0,
    learned_from := 0 }

/-- Memory for a record of the table in which every byte is zero. -/
def zero_route : route_t :=
  { subnet := 0, mask := 0, next_hop_ip := 0, outgoing_intf := 0, cost := 0, learned_from := 0,
    last_updated := { tv_sec := 0, tv_usec := 0 }, is_garbage := 0 }

/-- A host with one enabled interface 10.0.0.1/24 of cost 1. -/
def host1 : host_t :=
  { ifs := [{ ip := 0x0A000001, subnet_mask := 0xFFFFFF00, enabled := 1, cost := 1 }]
    now := t0
    clock := fun _ => t0
    big_endian := false
    uninit := fun _ => zero_entry
    uninit_route := zero_route }

/-- A default route on interface 1 via 5. -/
def route_default : route_t :=
  { subnet := 0, mask := 0, next_hop_ip := 5, outgoing_intf := 1, cost := 1,
    learned_from := 5, last_updated := t0, is_garbage := 0 }

/-- A route to 10.0.0.0/24 on interface 2 via 7. -/
def route_net24 : route_t :=
  { subnet := 0x0A000000, mask := 0xFFFFFF00, next_hop_ip := 7, outgoing_intf := 2, cost := 1,
    learned_from := 7, last_updated := t0, is_garbage := 0 }

/-- A route to 10.0.2.0/24 whose next hop is the neighbor 10.0.0.2. -/
def route_via_u : route_t :=
  { subnet := 0x0A000200, mask := 0xFFFFFF00, next_hop_ip := 0x0A000002, outgoing_intf := 0,
    cost := 2, learned_from := 0x0A000002, last_updated := t0, is_garbage := 0 }

/-- A header as the engine sends it. -/
def hdr0 : rip_header_t := { command := 2, version := 2, pad := 0 }

/-- An interface-down notice for 10.0.9.9 (`ip == next_hop`). -/
def notice_w : rip_entry_t :=
  { addr_family := 1, pad := 0, ip := 0x0A000909, subnet_mask := 0, next_hop := 0x0A000909,
    metric := 16, learned_from := 0 }

/-- An interface-down notice for 10.0.0.2 (`ip == next_hop`). -/
def notice_u : rip_entry_t :=
  { addr_family := 1, pad := 0, ip := 0x0A000002, subnet_mask := 0, next_hop := 0x0A000002,
    metric := 16, learned_from := 0 }

/-- The metric `safe_dr_handle_packet` works with after rule A: 16 when `learned_from` is the
IP of a local interface, the received metric otherwise. -/
def effective_metric (h : host_t) (entry : rip_entry_t) : Nat :=
  if ∃ t ∈ h.ifs, t.ip = entry.learned_from then INFINITY else entry.metric

/-- The timestamp refresh of the table walk: a record whose subnet is the sender `ip` or the
destination `v` gets `last_updated := now`, every other record is left as it is. -/
def refresh (h : host_t) (ip v : Nat) (r : route_t) : route_t :=
  if r.subnet = ip ∨ r.subnet = v then { r with last_updated := h.now } else r

/-- The record a walk leaves in a pointer that it sets at every record with subnet `s`: the
last such record of the table. -/
def last_route (s : Nat) : List route_t → Option route_t
  | [] => none
  | r :: rest =>
    match last_route s rest with
    | some x => some x
    | none => if r.subnet = s then some r else none

/-- The position of the last record with subnet `s`. -/
def last_pos (s : Nat) : List route_t → Option Nat
  | [] => none
  | r :: rest =>
    match last_pos s rest with
    | some k => some (k + 1)
    | none => if r.subnet = s then some 0 else none

/-- What one iteration of the table walk does to the locals at the record `r` in position
`pos`, when the function does not return there. -/
def visit (h : host_t) (ip v pos : Nat) (st : locals_t) (r : route_t) : locals_t :=
  if r.subnet = v then
    { (if r.subnet = ip then
        { st with
          here_u_exists := true
          here_u := some { r with last_updated := h.now }
          u_interface_index := search_intf h r.subnet st.u_interface_index }
      else st) with
      here_v_exists := true
      here_v := some pos }
  else if r.subnet = ip then
    { st with
      here_u_exists := true
      here_u := some { r with last_updated := h.now }
      u_interface_index := search_intf h r.subnet st.u_interface_index }
  else st

/-- The test of rule D at a record: it is the record for `v`, its next hop is the sender,
and the metric exceeds 15. -/
def dead (ip v m : Nat) (r : route_t) : Prop := r.subnet = v ∧ r.next_hop_ip = ip ∧ m > 15

instance (ip v m : Nat) (r : route_t) : Decidable (dead ip v m r) := by
  unfold dead; infer_instance

/-- The uniqueness property of a routing table: no two records share the same subnet. -/
def unique_subnets (tbl : List route_t) : Prop := (tbl.map fun r => r.subnet).Nodup

instance (tbl : List route_t) : Decidable (unique_subnets tbl) := by
  unfold unique_subnets; infer_instance

/-- The bounded-metric property of a record: `1 ≤ cost ≤ 16`. -/
def bounded_cost (r : route_t) : Prop := 1 ≤ r.cost ∧ r.cost ≤ 16

instance (r : route_t) : Decidable (bounded_cost r) := by
  unfold bounded_cost; infer_instance

/-- The tables reachable from `dr_init` by calls of the three entry points, when the host
state at `dr_init` satisfies `H0`, the host state of every later call satisfies `H`, every
received entry satisfies `E`, and every interface index passed to `interface_changed`
satisfies `I` for the host state of that call. -/
inductive reachable (H0 H : host_t → Prop) (E : rip_entry_t → Prop) (I : host_t → Nat → Prop) :
    List route_t → Prop where
  | init (h : host_t) (tbl : List route_t) :
      H0 h → dr_init h = some tbl → reachable H0 H E I tbl
  | packet (h : host_t) (tbl : List route_t) (ip intf : Nat) (header : rip_header_t)
      (entry : rip_entry_t) (len : Nat) (tbl1 : List route_t) (out : List payload_t) :
      reachable H0 H E I tbl → H h → E entry →
      safe_dr_handle_packet h tbl ip intf header entry len = some (tbl1, out) →
      reachable H0 H E I tbl1
  | periodic (h : host_t) (tbl : List route_t) :
      reachable H0 H E I tbl → H h → reachable H0 H E I (safe_dr_handle_periodic h tbl).1
  | changed (h : host_t) (tbl : List route_t) (intf : Nat) (state_changed cost_changed : Int)
      (tbl1 : List route_t) (out : List payload_t) :
      reachable H0 H E I tbl → H h → I h intf →
      safe_dr_interface_changed h tbl intf state_changed cost_changed = some (tbl1, out) →
      reachable H0 H E I tbl1

/-- Every interface the host reports has a cost between 1 and 16. -/
def host_costs_bounded (h : host_t) : Prop := ∀ t ∈ h.ifs, 1 ≤ t.cost ∧ t.cost ≤ 16

/-- The received metric is small enough for `cost + metric` not to wrap around `2^32` for
any cost up to 16. -/
def metric_no_wrap (entry : rip_entry_t) : Prop := entry.metric + 16 < UINT32

/-- The interface index exists on the host. -/
def intf_valid (h : host_t) (intf : Nat) : Prop := intf < h.ifs.length

/-- No restriction on the host. -/
def any_host (_h : host_t) : Prop := True

/-- No restriction on the received entry. -/
def any_entry (_e : rip_entry_t) : Prop := True

/-- No restriction on the interface index. -/
def any_intf (_h : host_t) (_intf : Nat) : Prop := True

/-- A host with one enabled interface 10.0.0.1/24 of cost 20. -/
def host_cost20 : host_t :=
  { ifs := [{ ip := 0x0A000001, subnet_mask := 0xFFFFFF00, enabled := 1, cost := 20 }]
    now := t0
    clock := fun _ => t0
    big_endian := false
    uninit := fun _ => zero_entry
    uninit_route := zero_route }

/-- A host with one enabled interface 10.0.0.1/24 of cost 0. -/
def host_cost0 : host_t :=
  { ifs := [{ ip := 0x0A000001, subnet_mask := 0xFFFFFF00, enabled := 1, cost := 0 }]
    now := t0
    clock := fun _ => t0
    big_endian := false
    uninit := fun _ => zero_entry
    uninit_route := zero_route }

/-- The origin record of the interface 10.0.0.1/24 of cost 1, index 0. -/
def route_origin : route_t :=
  { subnet := 0x0A000000, mask := 0xFFFFFF00, next_hop_ip := 0, outgoing_intf := 0, cost := 1,
    learned_from := 0, last_updated := t0, is_garbage := 0 }

/-- The record synthesized for the neighbor 10.0.0.2 on interface 0 of `host1`. -/
def route_neighbor : route_t :=
  { subnet := 0x0A000002, mask := 0xFFFFFF00, next_hop_ip := 0, outgoing_intf := 0, cost := 1,
    learned_from := 0, last_updated := t0, is_garbage := 0 }

/-- An advertisement for 10.0.2.0/24 with metric 1. -/
def adv_metric1 : rip_entry_t :=
  { addr_family := 1, pad := 0, ip := 0x0A000200, subnet_mask := 0xFFFFFF00, next_hop := 0,
    metric := 1, learned_from := 0 }

/-- An advertisement for 10.0.2.0/24 with metric `2^32 - 1`. -/
def adv_metric_max : rip_entry_t :=
  { addr_family := 1, pad := 0, ip := 0x0A000200, subnet_mask := 0xFFFFFF00, next_hop := 0,
    metric := 0xFFFFFFFF, learned_from := 0 }

/-- The record for 10.0.2.0/24 learned from 10.0.0.2 with cost `c`. -/
def route_learned (c : Nat) : route_t :=
  { subnet := 0x0A000200, mask := 0xFFFFFF00, next_hop_ip := 0x0A000002, outgoing_intf := 0,
    cost := c, learned_from := 0x0A000002, last_updated := t0, is_garbage := 0 }

/-- The record `interface_changed` builds for an interface index the host does not have. -/
def route_zero (intf : Nat) : route_t :=
  { subnet := 0, mask := 0, next_hop_ip := 0, outgoing_intf := intf, cost := 0,
    learned_from := 0, last_updated := t0, is_garbage := 0 }

instance (entry : rip_entry_t) : Decidable (metric_no_wrap entry) := by
  unfold metric_no_wrap; infer_instance

/-- The locals as the table walk leaves them when it runs to the end of the table `tbl`:
the closed form of the loop of lines 296-327. -/
def walk_locals (h : host_t) (ip v : Nat) (tbl : List route_t) : locals_t :=
  { here_u_exists := (last_route ip tbl).isSome
    here_v_exists := (last_pos v tbl).isSome
    u_interface_index := if (last_route ip tbl).isSome then search_intf h ip none else none
    here_u := (last_route ip tbl).map fun x => { x with last_updated := h.now }
    here_v := last_pos v tbl }

/-- A record with its timestamp set aside, to compare records in every other field. -/
def untimed (r : route_t) : route_t := { r with last_updated := { tv_sec := 0, tv_usec := 0 } }

/-- The records of a table for the destination `v`, timestamps set aside. -/
def routes_to (v : Nat) (tbl : List route_t) : List route_t :=
  (tbl.filter fun r => decide (r.subnet = v)).map untimed

/-- A host with one enabled interface 10.0.0.1/24 of cost `2^32 - 16`. -/
def host_huge : host_t :=
  { ifs := [{ ip := 0x0A000001, subnet_mask := 0xFFFFFF00, enabled := 1, cost := 0xFFFFFFF0 }]
    now := t0
    clock := fun _ => t0
    big_endian := false
    uninit := fun _ => zero_entry
    uninit_route := zero_route }

/-- An advertisement for 10.0.2.0/24 with metric 1 that names the local address 10.0.0.1 as
the address the route was learned from. -/
def adv_poisoned : rip_entry_t :=
  { addr_family := 1, pad := 0, ip := 0x0A000200, subnet_mask := 0xFFFFFF00, next_hop := 0,
    metric := 1, learned_from := 0x0A000001 }

/-- An advertisement by which a sender announces its own address 10.0.0.2, with metric 1
and `learned_from` the local address 10.0.0.1. -/
def adv_poisoned_self : rip_entry_t :=
  { addr_family := 1, pad := 0, ip := 0x0A000002, subnet_mask := 0xFFFFFF00, next_hop := 0,
    metric := 1, learned_from := 0x0A000001 }

/-- A record for 10.0.2.0/24 with cost 5 via the neighbor 10.0.0.3. -/
def route_other5 : route_t :=
  { subnet := 0x0A000200, mask := 0xFFFFFF00, next_hop_ip := 0x0A000003, outgoing_intf := 0,
    cost := 5, learned_from := 0x0A000003, last_updated := t0, is_garbage := 0 }

/-- A host with two enabled interfaces on 10.0.0.0/24: 10.0.0.1 (index 0) and 10.0.0.5
(index 1), both of cost 1. -/
def host_two : host_t :=
  { ifs := [{ ip := 0x0A000001, subnet_mask := 0xFFFFFF00, enabled := 1, cost := 1 },
            { ip := 0x0A000005, subnet_mask := 0xFFFFFF00, enabled := 1, cost := 1 }]
    now := t0
    clock := fun _ => t0
    big_endian := false
    uninit := fun _ => zero_entry
    uninit_route := zero_route }

/-- A host whose only interface, 10.0.0.1/24 of cost 1, is disabled. -/
def host_off : host_t :=
  { ifs := [{ ip := 0x0A000001, subnet_mask := 0xFFFFFF00, enabled := 0, cost := 1 }]
    now := t0
    clock := fun _ => t0
    big_endian := false
    uninit := fun _ => zero_entry
    uninit_route := zero_route }

/-- An advertisement for 10.0.2.0/24 with metric 16. -/
def adv_metric16 : rip_entry_t :=
  { addr_family := 1, pad := 0, ip := 0x0A000200, subnet_mask := 0xFFFFFF00, next_hop := 0,
    metric := 16, learned_from := 0 }

/-- A host with two interfaces: 10.0.0.1/24 (index 0), disabled, and 10.0.1.1/24 (index 1),
enabled, both of cost 1. -/
def host_down0 : host_t :=
  { ifs := [{ ip := 0x0A000001, subnet_mask := 0xFFFFFF00, enabled := 0, cost := 1 },
            { ip := 0x0A000101, subnet_mask := 0xFFFFFF00, enabled := 1, cost := 1 }]
    now := t0
    clock := fun _ => t0
    big_endian := false
    uninit := fun _ => zero_entry
    uninit_route := zero_route }

/-- The origin record of the interface 10.0.1.1/24 of cost 1, index 1. -/
def route_origin1 : route_t :=
  { subnet := 0x0A000100, mask := 0xFFFFFF00, next_hop_ip := 0, outgoing_intf := 1, cost := 1,
    learned_from := 0, last_updated := t0, is_garbage := 0 }

/-- A header with command 9, version 1 and a non-zero pad. -/
def hdr_bad : rip_header_t := { command := 9, version := 1, pad := 7 }

/-- An advertisement for 10.0.2.0/24 with metric 1 whose address family is 7. -/
def adv_bad_family : rip_entry_t :=
  { addr_family := 7, pad := 3, ip := 0x0A000200, subnet_mask := 0xFFFFFF00, next_hop := 0,
    metric := 1, learned_from := 0 }

/-! ## The datagram buffer -/

/-- The two bytes of a `uint16_t` in the memory of the host: least significant byte first on
a little-endian machine, most significant first on a big-endian one. -/
def u16_bytes (big : Bool) (x : Nat) : List Nat :=
  if big then [x / 256 % 256, x % 256] else [x % 256, x / 256 % 256]

/-- The four bytes of a `uint32_t` in the memory of the host. -/
def u32_bytes (big : Bool) (x : Nat) : List Nat :=
  if big then [x / 16777216 % 256, x / 65536 % 256, x / 256 % 256, x % 256]
  else [x % 256, x / 256 % 256, x / 65536 % 256, x / 16777216 % 256]

/-- The `uint16_t` that two bytes of memory hold. -/
def u16_of (big : Bool) (b0 b1 : Nat) : Nat :=
  if big then 256 * b0 + b1 else b0 + 256 * b1

/-- The `uint32_t` that four bytes of memory hold. -/
def u32_of (big : Bool) (b0 b1 b2 b3 : Nat) : Nat :=
  if big then 16777216 * b0 + 65536 * b1 + 256 * b2 + b3
  else b0 + 256 * b1 + 65536 * b2 + 16777216 * b3

/-- The buffer `broadcast_single_entry` builds (lines 524-526): the packed header is copied
to offset 0 and the packed entry to offset 4, every field in the byte order of the host.
The two `char` fields of the header are one byte each. -/
def encode (big : Bool) (header : rip_header_t) (packet : rip_entry_t) : List Nat :=
  [header.command % 256, header.version % 256] ++ u16_bytes big header.pad
    ++ (u16_bytes big packet.addr_family ++ u16_bytes big packet.pad
      ++ u32_bytes big packet.ip ++ u32_bytes big packet.subnet_mask
      ++ u32_bytes big packet.next_hop ++ u32_bytes big packet.metric
      ++ u32_bytes big packet.learned_from)

/-- The header and the entry `safe_dr_handle_packet` copies out of the buffer
(lines 242-243): 4 bytes from offset 0 and 24 bytes from offset 4. Bytes behind the 28th are
not read. For a shorter buffer the C code reads the memory behind it, which is not part of
this model; the result is then all zero. -/
def decode (big : Bool) : List Nat → rip_header_t × rip_entry_t
  | c :: v :: p0 :: p1 :: a0 :: a1 :: q0 :: q1 :: i0 :: i1 :: i2 :: i3 :: s0 :: s1 :: s2 :: s3
      :: n0 :: n1 :: n2 :: n3 :: m0 :: m1 :: m2 :: m3 :: l0 :: l1 :: l2 :: l3 :: _ =>
    ({ command := c, version := v, pad := u16_of big p0 p1 },
      { addr_family := u16_of big a0 a1
        pad := u16_of big q0 q1
        ip := u32_of big i0 i1 i2 i3
        subnet_mask := u32_of big s0 s1 s2 s3
        next_hop := u32_of big n0 n1 n2 n3
        metric := u32_of big m0 m1 m2 m3
        learned_from := u32_of big l0 l1 l2 l3 })
  | _ =>
    ({ command := 0, version := 0, pad := 0 },
      { addr_family := 0, pad := 0, ip := 0, subnet_mask := 0, next_hop := 0, metric := 0,
        learned_from := 0 })

/-- The values a `rip_header_t` can hold: two bytes and a `uint16_t`. -/
def header_in_range (header : rip_header_t) : Prop :=
  header.command < 256 ∧ header.version < 256 ∧ header.pad < 65536

/-- The values a `rip_entry_t` can hold: two `uint16_t` and five `uint32_t`. -/
def entry_in_range (e : rip_entry_t) : Prop :=
  e.addr_family < 65536 ∧ e.pad < 65536 ∧ e.ip < 4294967296 ∧ e.subnet_mask < 4294967296
    ∧ e.next_hop < 4294967296 ∧ e.metric < 4294967296 ∧ e.learned_from < 4294967296

instance (header : rip_header_t) : Decidable (header_in_range header) := by
  unfold header_in_range; infer_instance

instance (e : rip_entry_t) : Decidable (entry_in_range e) := by
  unfold entry_in_range; infer_instance

/-- The origin-consistency property of a record: `learned_from == 0` implies
`next_hop_ip == 0`. -/
def origin_ok (r : route_t) : Prop := r.learned_from = 0 → r.next_hop_ip = 0

instance (r : route_t) : Decidable (origin_ok r) := by
  unfold origin_ok; infer_instance

/-- The host at another reading of the clock. -/
def at_time (h : host_t) (n : timeval) : host_t := { h with now := n }

/-- The clock value that `untimed` writes into a record. -/
def time_zero : timeval := { tv_sec := 0, tv_usec := 0 }

/-- The locals with the timestamp of `here_u` set aside. -/
def untimed_locals (st : locals_t) : locals_t := { st with here_u := st.here_u.map untimed }

/-- The outcome of a walk with the timestamps of its table and of `here_u` set aside. -/
def untimed_walk : walk_t → walk_t
  | .returned tbl out => .returned (tbl.map untimed) out
  | .done tbl st => .done (tbl.map untimed) (untimed_locals st)

/-- The result of an entry point with the timestamps of its table set aside. -/
def untimed_result (p : List route_t × List payload_t) : List route_t × List payload_t :=
  (p.1.map untimed, p.2)

/-! ## Vocabulary of the periodic advertisement -/

/-- The indices of the disabled interfaces, in increasing order. -/
def disabled_intfs (h : host_t) : List Nat :=
  (List.range (dr_interface_count h)).filter fun i => decide ((dr_get_interface h i).enabled = 0)

/-- What the specification says of a route datagram: the interface it is sent on, the four
bytes of its destination and of its next hop, and the five values its entry carries. -/
structure route_fields_t where
  outgoing_intf : Nat
  dst_ip : List Nat
  next_hop_ip : List Nat
  subnet : Nat
  mask : Nat
  next_hop : Nat
  learned_from : Nat
  metric : Nat
deriving DecidableEq, Repr

/-- The values of a datagram sent by the host `h` that the specification of a route datagram
speaks of; the destination and the next hop are the four bytes the `uint32_t` arguments of
`dr_send_payload` hold in the memory of the host, in the order of the memory, which is the
order they have on the network. -/
def route_fields (h : host_t) (p : payload_t) : route_fields_t :=
  { outgoing_intf := p.outgoing_intf
    dst_ip := u32_bytes h.big_endian p.dst_ip
    next_hop_ip := u32_bytes h.big_endian p.next_hop_ip
    subnet := p.entry.ip
    mask := p.entry.subnet_mask
    next_hop := p.entry.next_hop
    learned_from := p.entry.learned_from
    metric := p.entry.metric }

/-- The route datagram the specification asks for the record `r` on the interface `i`: sent
on `i` to destination and next hop 224.0.0.9, carrying the subnet, mask, next hop and
`learned_from` of the record, and the metric 16 when the record is marked garbage (the flag
is 1), its cost otherwise. -/
def route_datagram_spec (i : Nat) (r : route_t) : route_fields_t :=
  { outgoing_intf := i
    dst_ip := [224, 0, 0, 9]
    next_hop_ip := [224, 0, 0, 9]
    subnet := r.subnet
    mask := r.mask
    next_hop := r.next_hop_ip
    learned_from := r.learned_from
    metric := if r.is_garbage = 1 then 16 else r.cost }

/-- What the specification says of an interface-down notice: the interface it is sent on, the
four bytes of its destination and of its next hop, and the `ip` and `next_hop` of its
entry. -/
structure notice_fields_t where
  outgoing_intf : Nat
  dst_ip : List Nat
  next_hop_ip : List Nat
  ip : Nat
  next_hop : Nat
deriving DecidableEq, Repr

/-- The values of a datagram sent by the host `h` that the specification of a notice speaks
of. -/
def notice_fields (h : host_t) (p : payload_t) : notice_fields_t :=
  { outgoing_intf := p.outgoing_intf
    dst_ip := u32_bytes h.big_endian p.dst_ip
    next_hop_ip := u32_bytes h.big_endian p.next_hop_ip
    ip := p.entry.ip
    next_hop := p.entry.next_hop }

/-- The notice the specification asks for the disabled interface `d` on the enabled interface
`i`: sent on `i` to destination and next hop 224.0.0.9, with `ip` and `next_hop` both the IP
of `d`. -/
def notice_datagram_spec (h : host_t) (d i : Nat) : notice_fields_t :=
  { outgoing_intf := i
    dst_ip := [224, 0, 0, 9]
    next_hop_ip := [224, 0, 0, 9]
    ip := (dr_get_interface h d).ip
    next_hop := (dr_get_interface h d).ip }

/-- A table of two records: the origin record of 10.0.1.0/24 and a record marked garbage. -/
def table_two : List route_t :=
  [route_origin1, { route_learned 2 with is_garbage := 1 }]

/-- The size of a datagram the specification states: a header of 4 bytes and an entry of
20 bytes. -/
def SPEC_PAYLOAD_LEN : Nat := 4 + 20

/-- The sender `u` is on the subnet of no enabled local interface: no enabled interface `i`
satisfies `(i.ip & i.mask) == (u & i.mask)`. -/
def unknown_sender (h : host_t) (u : Nat) : Prop :=
  ∀ t ∈ h.ifs, t.enabled ≠ 0 → t.ip &&& t.subnet_mask ≠ u &&& t.subnet_mask

instance (h : host_t) (u : Nat) : Decidable (unknown_sender h u) := by
  unfold unknown_sender; infer_instance

/-- A later clock value. -/
def t1 : timeval := { tv_sec := 200, tv_usec := 0 }

/-! ## Vocabulary of the invariants and of the periodic sweep -/

/-- The host has at least one interface. -/
def has_interface (h : host_t) : Prop := h.ifs ≠ []

instance (h : host_t) : Decidable (has_interface h) := by
  unfold has_interface; infer_instance

/-- The host has at least one interface, and every interface it reports has a cost between
1 and 16. -/
def init_host_bounded (h : host_t) : Prop := h.ifs ≠ [] ∧ host_costs_bounded h

/-- A host with no interface; the memory it hands out is zero. -/
def host_none : host_t :=
  { ifs := []
    now := t0
    clock := fun _ => t0
    big_endian := false
    uninit := fun _ => zero_entry
    uninit_route := zero_route }

/-- Memory for a record of the table that is zero but for the field `next_hop_ip`. -/
def junk_route : route_t := { zero_route with next_hop_ip := 5 }

/-- A host with no interface whose memory for the first record holds `junk_route`. -/
def host_junk : host_t := { host_none with uninit_route := junk_route }

/-- The time of a clock value in whole milliseconds, the microseconds below a millisecond
cut off: the unit in which the specification measures the age of a record. -/
def ms_of (t : timeval) : Int := t.tv_sec * 1000 + t.tv_usec / 1000

/-- A value the clock delivers: seconds from 0 to below `2^50`, microseconds from 0 to
999999. -/
def clock_value (t : timeval) : Prop :=
  0 ≤ t.tv_sec ∧ t.tv_sec < 1125899906842624 ∧ 0 ≤ t.tv_usec ∧ t.tv_usec < 1000000

instance (t : timeval) : Decidable (clock_value t) := by
  unfold clock_value; infer_instance

/-- The clock value 121.0005 s. -/
def t_late : timeval := { tv_sec := 121, tv_usec := 500 }

/-- The host `host1` during a periodic sweep in which every reading of the clock gives
`t_late`. -/
def host_late : host_t := { host1 with clock := fun _ => t_late }

/-- A record for the subnet `s` last updated at `sec` seconds and `usec` microseconds. -/
def route_aged (s : Nat) (sec usec : Int) : route_t :=
  { subnet := s, mask := 0xFFFFFF00, next_hop_ip := 0, outgoing_intf := 0, cost := 1,
    learned_from := 0, last_updated := { tv_sec := sec, tv_usec := usec }, is_garbage := 0 }

/-- The host `host1` during a periodic sweep in which the clock moves: the reading made for
the first record gives 120.000 s, every later reading 120.001 s. -/
def host_tick : host_t :=
  { host1 with
    clock := fun k =>
      if k = 0 then { tv_sec := 120, tv_usec := 0 } else { tv_sec := 120, tv_usec := 1000 } }

/-- The host `host1` during a periodic sweep in which every reading of the clock gives a
number of seconds whose product with 1000 does not fit a `long` of 64 bits. -/
def host_far : host_t :=
  { host1 with clock := fun _ => { tv_sec := 9223372036854776, tv_usec := 0 } }

/-- A table of five records whose ages at `t_late` are 20001 ms, 71000 ms, 20000 ms, 0 ms and
21000 ms: two stale records at the head, two records that are not stale, and a stale record
at the tail. -/
def table_aged : List route_t :=
  [route_aged 1 100 999999, route_aged 2 50 0, route_aged 3 101 0, route_aged 4 121 0,
    route_aged 5 100 0]

/-! # Theorems -/

/-! ## Lookup -/

/-- C1: when no record of the table matches the address, `get_next_hop` returns interface 0
and next hop `0xFFFFFFFF`; the empty table is included. -/
theorem get_next_hop_unmatched (tbl : List route_t) (ip : Nat)
    (hno : ∀ r ∈ tbl, ¬ route_matches ip r) :
    safe_dr_get_next_hop tbl ip = { interface := 0, dst_ip := 0xFFFFFFFF } := by
  induction tbl with
  | nil => rfl
  | cons r rest ih =>
    have hr : ¬ (ip &&& r.mask = r.subnet) := hno r (List.mem_cons_self r rest)
    have hrest : ∀ x ∈ rest, ¬ route_matches ip x :=
      fun x hx => hno x (List.mem_cons_of_mem r hx)
    simp only [safe_dr_get_next_hop, if_neg hr]
    exact ih hrest

/-- C1, at a table with one record for 10.0.0.0/24 and the address 10.0.1.1. -/
theorem get_next_hop_unmatched_witness :
    (∀ r ∈ [route_net24], ¬ route_matches 0x0A000101 r)
      ∧ safe_dr_get_next_hop [route_net24] 0x0A000101
          = { interface := 0, dst_ip := 0xFFFFFFFF } :=
  ⟨by decide, get_next_hop_unmatched [route_net24] 0x0A000101 (by decide)⟩

/-- C2 as stated fails: with a default route before a /24 route, the address 10.0.0.1 is
matched by both, and the result is not the interface and next hop of any matching record
with the greatest mask. -/
theorem get_next_hop_not_longest :
    ¬ ∃ r ∈ [route_default, route_net24],
        route_matches 0x0A000001 r
          ∧ (∀ x ∈ [route_default, route_net24], route_matches 0x0A000001 x → x.mask ≤ r.mask)
          ∧ safe_dr_get_next_hop [route_default, route_net24] 0x0A000001
              = { interface := r.outgoing_intf, dst_ip := r.next_hop_ip } := by
  decide

/-- C2, amended: for an address matched by a record, `get_next_hop` returns the outgoing
interface and next hop of the first matching record in table order. -/
theorem get_next_hop_first_match (front : List route_t) (r : route_t) (back : List route_t)
    (ip : Nat) (hfront : ∀ x ∈ front, ¬ route_matches ip x) (hr : route_matches ip r) :
    safe_dr_get_next_hop (front ++ r :: back) ip
      = { interface := r.outgoing_intf, dst_ip := r.next_hop_ip } := by
  induction front with
  | nil =>
    have hr1 : ip &&& r.mask = r.subnet := hr
    simp [safe_dr_get_next_hop, hr1]
  | cons x rest ih =>
    have hx : ¬ (ip &&& x.mask = x.subnet) := hfront x (List.mem_cons_self x rest)
    have hrest : ∀ y ∈ rest, ¬ route_matches ip y :=
      fun y hy => hfront y (List.mem_cons_of_mem x hy)
    simp only [List.cons_append, safe_dr_get_next_hop, if_neg hx]
    exact ih hrest

/-- C2 amended, at the table with a route for 10.0.2.0/24, which does not match, before
the default route and the /24 route: the default route is the first match for 10.0.0.1. -/
theorem get_next_hop_first_match_witness :
    safe_dr_get_next_hop ([route_via_u] ++ route_default :: [route_net24]) 0x0A000001
      = { interface := 1, dst_ip := 5 } :=
  get_next_hop_first_match [route_via_u] route_default [route_net24] 0x0A000001
    (by decide) (by decide)

/-! ## Broadcasts, rule A, and the removing walks -/

theorem filterMap_ite_eq_map_filter {α β : Type} (p : α → Prop) [DecidablePred p] (f : α → β)
    (l : List α) :
    l.filterMap (fun a => if p a then some (f a) else none)
      = (l.filter fun a => decide (p a)).map f := by
  induction l with
  | nil => rfl
  | cons a l ih =>
    by_cases ha : p a
    · simp [List.filterMap_cons, ha, ih]
    · simp [List.filterMap_cons, ha, ih]

/-- A broadcast is one datagram on every enabled interface, in index order. -/
theorem broadcast_eq (h : host_t) (e : rip_entry_t) :
    broadcast h e = (enabled_intfs h).map fun i => dr_send_payload h i e := by
  unfold broadcast enabled_intfs
  exact filterMap_ite_eq_map_filter (fun i => (dr_get_interface h i).enabled ≠ 0)
    (fun i => dr_send_payload h i e) _

theorem foldl_metric_only (h : host_t) (l : List Nat) (e : rip_entry_t) :
    (l.foldl (fun rcv i =>
        if rcv.learned_from = (dr_get_interface h i).ip then { rcv with metric := INFINITY }
        else rcv) e)
      = e ∨
    (l.foldl (fun rcv i =>
        if rcv.learned_from = (dr_get_interface h i).ip then { rcv with metric := INFINITY }
        else rcv) e)
      = { e with metric := INFINITY } := by
  induction l generalizing e with
  | nil => exact Or.inl rfl
  | cons i l ih =>
    simp only [List.foldl_cons]
    by_cases hi : e.learned_from = (dr_get_interface h i).ip
    · rw [if_pos hi]
      rcases ih { e with metric := INFINITY } with h1 | h1
      · exact Or.inr h1
      · exact Or.inr h1
    · rw [if_neg hi]
      exact ih e

/-- Rule A leaves the entry alone or sets its metric to 16. -/
theorem split_horizon_cases (h : host_t) (e : rip_entry_t) :
    split_horizon h e = e ∨ split_horizon h e = { e with metric := INFINITY } :=
  foldl_metric_only h _ e

theorem split_horizon_ip (h : host_t) (e : rip_entry_t) : (split_horizon h e).ip = e.ip := by
  rcases split_horizon_cases h e with h1 | h1 <;> rw [h1]

theorem split_horizon_next_hop (h : host_t) (e : rip_entry_t) :
    (split_horizon h e).next_hop = e.next_hop := by
  rcases split_horizon_cases h e with h1 | h1 <;> rw [h1]

theorem split_horizon_subnet_mask (h : host_t) (e : rip_entry_t) :
    (split_horizon h e).subnet_mask = e.subnet_mask := by
  rcases split_horizon_cases h e with h1 | h1 <;> rw [h1]

theorem remove_split (front : List route_t) (x : route_t) (back : List route_t) :
    remove (front ++ x :: back) front.length = front ++ back := by
  induction front with
  | nil => rfl
  | cons a front ih => simp [remove, ih]

theorem remove_set_split (front : List route_t) (x y : route_t) (back : List route_t) :
    remove ((front ++ x :: back).set front.length y) front.length = front ++ back := by
  have hset : (front ++ x :: back).set front.length y = front ++ y :: back := by
    induction front with
    | nil => rfl
    | cons a front ih => simp [ih]
  rw [hset, remove_split]

theorem enumFrom_filter_snd {α : Type} (c : α → Bool) (l : List α) (k : Nat) :
    ((l.enumFrom k).filter fun p => c p.2).map Prod.snd = l.filter c := by
  induction l generalizing k with
  | nil => rfl
  | cons a l ih =>
    simp only [List.enumFrom_cons, List.filter_cons]
    split
    · simp only [List.map_cons, ih]
    · exact ih (k + 1)

theorem enumFrom_filter_flatMap {α β : Type} (c : α → Bool) (g : α → List β) (l : List α)
    (k : Nat) :
    ((l.enumFrom k).filter fun p => c p.2).flatMap (fun p => g p.2) = (l.filter c).flatMap g := by
  induction l generalizing k with
  | nil => rfl
  | cons a l ih =>
    simp only [List.enumFrom_cons, List.filter_cons]
    split
    · simp only [List.flatMap_cons, ih]
    · exact ih (k + 1)

theorem enum_filter_snd {α : Type} (c : α → Bool) (l : List α) :
    (l.enum.filter fun p => c p.2).map Prod.snd = l.filter c :=
  enumFrom_filter_snd c l 0

theorem enum_filter_flatMap {α β : Type} (c : α → Bool) (g : α → List β) (l : List α) :
    (l.enum.filter fun p => c p.2).flatMap (fun p => g p.2) = (l.filter c).flatMap g :=
  enumFrom_filter_flatMap c g l 0

theorem sweep_from_fst (h : host_t) (c : Nat → route_t → Bool) (mark : route_t → route_t)
    (extra : Nat → List payload_t) (todo front : List route_t) (k : Nat) :
    (sweep_from h c mark extra (front ++ todo) front.length k todo).1
      = front ++ ((todo.enumFrom k).filter fun p => !c p.1 p.2).map Prod.snd := by
  induction todo generalizing front k with
  | nil => simp [sweep_from]
  | cons r rest ih =>
    by_cases hc : c k r = true
    · simp only [sweep_from, hc, if_true, remove_set_split, ih front, List.enumFrom_cons,
        List.filter_cons, Bool.not_true, Bool.false_eq_true, if_false]
    · have h1 := ih (front ++ [r]) (k + 1)
      simp only [List.append_assoc, List.singleton_append, List.length_append,
        List.length_singleton] at h1
      simp only [sweep_from, hc, if_false, List.enumFrom_cons, List.filter_cons,
        Bool.not_false, if_true, List.map_cons]
      exact h1

theorem sweep_from_snd (h : host_t) (c : Nat → route_t → Bool) (mark : route_t → route_t)
    (extra : Nat → List payload_t) (todo front : List route_t) (k : Nat) :
    (sweep_from h c mark extra (front ++ todo) front.length k todo).2
      = ((todo.enumFrom k).filter fun p => c p.1 p.2).flatMap
          fun p => broadcast_single_entry h (mark p.2) ++ extra p.1 := by
  induction todo generalizing front k with
  | nil => simp [sweep_from]
  | cons r rest ih =>
    by_cases hc : c k r = true
    · simp only [sweep_from, hc, if_true, remove_set_split, ih front, List.enumFrom_cons,
        List.filter_cons, List.flatMap_cons]
    · have h1 := ih (front ++ [r]) (k + 1)
      simp only [List.append_assoc, List.singleton_append, List.length_append,
        List.length_singleton] at h1
      simp only [sweep_from, hc, if_false, List.enumFrom_cons, List.filter_cons]
      exact h1

/-- The table a removing walk leaves: the records whose test fails, in order, untouched; the
test at the record number `k` is `c k`. -/
theorem sweep_fst_keyed (h : host_t) (c : Nat → route_t → Bool) (mark : route_t → route_t)
    (extra : Nat → List payload_t) (tbl : List route_t) :
    (sweep h c mark extra tbl).1 = (tbl.enum.filter fun p => !c p.1 p.2).map Prod.snd :=
  sweep_from_fst h c mark extra tbl [] 0

/-- The datagrams a removing walk sends: for every selected record, in order, the broadcast
of the marked record followed by the extra datagrams of that record. -/
theorem sweep_snd_keyed (h : host_t) (c : Nat → route_t → Bool) (mark : route_t → route_t)
    (extra : Nat → List payload_t) (tbl : List route_t) :
    (sweep h c mark extra tbl).2
      = (tbl.enum.filter fun p => c p.1 p.2).flatMap
          fun p => broadcast_single_entry h (mark p.2) ++ extra p.1 :=
  sweep_from_snd h c mark extra tbl [] 0

/-- The table a removing walk leaves when the test does not depend on the position. -/
theorem sweep_fst (h : host_t) (c : route_t → Bool) (mark : route_t → route_t)
    (extra : Nat → List payload_t) (tbl : List route_t) :
    (sweep h (fun _ => c) mark extra tbl).1 = tbl.filter fun r => !c r := by
  rw [sweep_fst_keyed]
  exact enum_filter_snd (fun r => !c r) tbl

/-- The datagrams a removing walk sends when neither the test nor the extra datagrams depend
on the position. -/
theorem sweep_snd (h : host_t) (c : route_t → Bool) (mark : route_t → route_t)
    (extra : List payload_t) (tbl : List route_t) :
    (sweep h (fun _ => c) mark (fun _ => extra) tbl).2
      = (tbl.filter c).flatMap fun r => broadcast_single_entry h (mark r) ++ extra := by
  rw [sweep_snd_keyed]
  exact enum_filter_flatMap c (fun r => broadcast_single_entry h (mark r) ++ extra) tbl

/-- A removing walk leaves a sublist of the table. -/
theorem sweep_sublist (h : host_t) (c : Nat → route_t → Bool) (mark : route_t → route_t)
    (extra : Nat → List payload_t) (tbl : List route_t) :
    (sweep h c mark extra tbl).1.Sublist tbl := by
  rw [sweep_fst_keyed]
  have h1 : ((tbl.enum.filter fun p => !c p.1 p.2).map Prod.snd).Sublist
      (tbl.enum.map Prod.snd) := (List.filter_sublist _).map Prod.snd
  rw [List.enum_map_snd] at h1
  exact h1

/-- The notice branch of `safe_dr_handle_packet`. -/
theorem handle_packet_notice (h : host_t) (tbl : List route_t) (ip intf : Nat)
    (header : rip_header_t) (entry : rip_entry_t) (len : Nat)
    (hnotice : entry.ip = entry.next_hop) :
    safe_dr_handle_packet h tbl ip intf header entry len
      = some (sweep h (fun _ => via_or_to entry.ip)
          (fun current => { current with cost := INFINITY })
          (fun k => broadcast_intf_down h k entry.ip) tbl) := by
  simp only [safe_dr_handle_packet, split_horizon_ip, split_horizon_next_hop, if_pos hnotice]
  rfl

/-! ## Interface-down notices -/

/-- C9 as stated fails: a notice for 10.0.9.9 received from the neighbor 10.0.0.2 leaves the
route whose next hop is 10.0.0.2 in the table. -/
theorem notice_keeps_routes_via_sender :
    ∃ tbl1 out,
      safe_dr_handle_packet host1 [route_via_u] 0x0A000002 0 hdr0 notice_w 28
        = some (tbl1, out)
      ∧ ∃ r ∈ tbl1, r.next_hop_ip = 0x0A000002 :=
  ⟨[route_via_u], [], by decide, route_via_u, by decide, by decide⟩

/-- C9, amended: after a datagram with `entry.ip == entry.next_hop`, whatever its sender,
the table holds no record whose next hop is `entry.ip` and no record whose subnet is
`entry.ip`. -/
theorem notice_removes_routes_of_reported_ip (h : host_t) (tbl : List route_t)
    (ip intf : Nat) (header : rip_header_t) (entry : rip_entry_t) (len : Nat)
    (hnotice : entry.ip = entry.next_hop) :
    ∃ tbl1 out,
      safe_dr_handle_packet h tbl ip intf header entry len = some (tbl1, out)
      ∧ ∀ r ∈ tbl1, r.next_hop_ip ≠ entry.ip ∧ r.subnet ≠ entry.ip := by
  refine ⟨_, _, handle_packet_notice h tbl ip intf header entry len hnotice, ?_⟩
  intro r hr
  change r ∈ (sweep h _ _ _ tbl).1 at hr
  rw [sweep_fst] at hr
  have hsel := (List.mem_filter.mp hr).2
  simp only [via_or_to, Bool.not_eq_true', decide_eq_false_iff_not, not_or] at hsel
  exact hsel

/-- C9 amended, at the notice for 10.0.0.2 and a table holding a route via 10.0.0.2. -/
theorem notice_removes_routes_of_reported_ip_witness :
    notice_u.ip = notice_u.next_hop
      ∧ ∃ tbl1 out,
        safe_dr_handle_packet host1 [route_via_u, route_net24] 0x0A000009 0 hdr0 notice_u 28
          = some (tbl1, out)
        ∧ ∀ r ∈ tbl1, r.next_hop_ip ≠ notice_u.ip ∧ r.subnet ≠ notice_u.ip :=
  ⟨rfl, notice_removes_routes_of_reported_ip host1 [route_via_u, route_net24] 0x0A000009 0
    hdr0 notice_u 28 rfl⟩

/-! ## Loops over the interfaces -/

theorem foldl_range_last (P : Nat → Prop) [DecidablePred P] (idx : Option Nat) (i n : Nat)
    (hi : P i) (hin : i < n) (hlast : ∀ j, i < j → j < n → ¬ P j) :
    (List.range n).foldl (fun found j => if P j then some j else found) idx = some i := by
  induction n with
  | zero => omega
  | succ n ih =>
    rw [List.range_succ, List.foldl_append]
    simp only [List.foldl_cons, List.foldl_nil]
    by_cases hn : i = n
    · subst hn
      rw [if_pos hi]
    · have hlt : i < n := by omega
      rw [if_neg (hlast n hlt (Nat.lt_succ_self n))]
      exact ih hlt (fun j hj hjn => hlast j hj (Nat.lt_succ_of_lt hjn))

theorem foldl_range_none (P : Nat → Prop) [DecidablePred P] (idx : Option Nat) (n : Nat)
    (hno : ∀ j, j < n → ¬ P j) :
    (List.range n).foldl (fun found j => if P j then some j else found) idx = idx := by
  induction n with
  | zero => rfl
  | succ n ih =>
    rw [List.range_succ, List.foldl_append]
    simp only [List.foldl_cons, List.foldl_nil]
    rw [if_neg (hno n (Nat.lt_succ_self n))]
    exact ih (fun j hj => hno j (Nat.lt_succ_of_lt hj))

theorem foldl_range_some_or (P : Nat → Prop) [DecidablePred P] (idx : Option Nat) (n : Nat) :
    (List.range n).foldl (fun found j => if P j then some j else found) idx = idx
      ∨ ∃ i, i < n ∧ P i
          ∧ (List.range n).foldl (fun found j => if P j then some j else found) idx = some i := by
  induction n with
  | zero => exact Or.inl rfl
  | succ n ih =>
    rw [List.range_succ, List.foldl_append]
    simp only [List.foldl_cons, List.foldl_nil]
    by_cases hn : P n
    · rw [if_pos hn]
      exact Or.inr ⟨n, Nat.lt_succ_self n, hn, rfl⟩
    · rw [if_neg hn]
      rcases ih with h1 | ⟨i, hi, hp, h1⟩
      · exact Or.inl h1
      · exact Or.inr ⟨i, Nat.lt_succ_of_lt hi, hp, h1⟩

theorem search_intf_last (h : host_t) (s : Nat) (idx : Option Nat) (i : Nat)
    (hi : on_subnet h s i) (hin : i < h.ifs.length)
    (hlast : ∀ j, i < j → j < h.ifs.length → ¬ on_subnet h s j) :
    search_intf h s idx = some i :=
  foldl_range_last (on_subnet h s) idx i h.ifs.length hi hin hlast

theorem search_intf_none (h : host_t) (s : Nat) (idx : Option Nat)
    (hno : ∀ j, j < h.ifs.length → ¬ on_subnet h s j) :
    search_intf h s idx = idx :=
  foldl_range_none (on_subnet h s) idx h.ifs.length hno

theorem search_intf_cases (h : host_t) (s : Nat) (idx : Option Nat) :
    search_intf h s idx = idx
      ∨ ∃ i, i < h.ifs.length ∧ on_subnet h s i ∧ search_intf h s idx = some i :=
  foldl_range_some_or (on_subnet h s) idx h.ifs.length

theorem getD_mem_of_lt (h : host_t) (i : Nat) (hi : i < h.ifs.length) :
    dr_get_interface h i ∈ h.ifs := by
  unfold dr_get_interface
  rw [List.getD_eq_getElem _ _ hi]
  exact List.getElem_mem hi

theorem exists_index_of_mem (h : host_t) (t : lvns_interface_t) (ht : t ∈ h.ifs) :
    ∃ i, i < h.ifs.length ∧ dr_get_interface h i = t := by
  obtain ⟨i, hi, hget⟩ := List.getElem_of_mem ht
  refine ⟨i, hi, ?_⟩
  unfold dr_get_interface
  rw [List.getD_eq_getElem _ _ hi]
  exact hget

theorem foldl_range_flag (P : Nat → Prop) [DecidablePred P] (n : Nat) :
    (List.range n).foldl (fun same j => if P j then true else same) false = true
      ↔ ∃ j, j < n ∧ P j := by
  induction n with
  | zero => simp
  | succ n ih =>
    rw [List.range_succ, List.foldl_append]
    simp only [List.foldl_cons, List.foldl_nil]
    by_cases hn : P n
    · rw [if_pos hn]
      exact ⟨fun _ => ⟨n, Nat.lt_succ_self n, hn⟩, fun _ => rfl⟩
    · rw [if_neg hn, ih]
      constructor
      · rintro ⟨j, hj, hp⟩
        exact ⟨j, Nat.lt_succ_of_lt hj, hp⟩
      · rintro ⟨j, hj, hp⟩
        have hne : j ≠ n := fun e => hn (e ▸ hp)
        exact ⟨j, by omega, hp⟩

/-- The flag `v_same_as_here` is set exactly when `v` is the IP of a local interface. -/
theorem v_same_as_here_iff (h : host_t) (v : Nat) :
    v_same_as_here h v = true ↔ ∃ t ∈ h.ifs, t.ip = v := by
  unfold v_same_as_here dr_interface_count
  rw [foldl_range_flag (fun i => v = (dr_get_interface h i).ip)]
  constructor
  · rintro ⟨j, hj, hp⟩
    exact ⟨dr_get_interface h j, getD_mem_of_lt h j hj, hp.symm⟩
  · rintro ⟨t, ht, hp⟩
    obtain ⟨i, hi, hget⟩ := exists_index_of_mem h t ht
    exact ⟨i, hi, by rw [hget]; exact hp.symm⟩

theorem split_horizon_range (h : host_t) (e : rip_entry_t) (n : Nat) :
    (List.range n).foldl
        (fun rcv i =>
          if rcv.learned_from = (dr_get_interface h i).ip then { rcv with metric := INFINITY }
          else rcv) e
      = if ∃ j, j < n ∧ (dr_get_interface h j).ip = e.learned_from then
          { e with metric := INFINITY }
        else e := by
  induction n with
  | zero => simp
  | succ n ih =>
    rw [List.range_succ, List.foldl_append, ih]
    simp only [List.foldl_cons, List.foldl_nil]
    by_cases hn : (dr_get_interface h n).ip = e.learned_from
    · have hex : ∃ j, j < n + 1 ∧ (dr_get_interface h j).ip = e.learned_from :=
        ⟨n, Nat.lt_succ_self n, hn⟩
      rw [if_pos hex]
      by_cases hprev : ∃ j, j < n ∧ (dr_get_interface h j).ip = e.learned_from
      · rw [if_pos hprev]; simp [hn]
      · rw [if_neg hprev]; simp [hn]
    · by_cases hprev : ∃ j, j < n ∧ (dr_get_interface h j).ip = e.learned_from
      · have hex : ∃ j, j < n + 1 ∧ (dr_get_interface h j).ip = e.learned_from := by
          obtain ⟨j, hj, hp⟩ := hprev
          exact ⟨j, Nat.lt_succ_of_lt hj, hp⟩
        rw [if_pos hprev, if_pos hex]
        have hn2 : ¬ (e.learned_from = (dr_get_interface h n).ip) := fun e1 => hn e1.symm
        simp [hn2]
      · have hex : ¬ ∃ j, j < n + 1 ∧ (dr_get_interface h j).ip = e.learned_from := by
          rintro ⟨j, hj, hp⟩
          by_cases hjn : j = n
          · exact hn (hjn ▸ hp)
          · exact hprev ⟨j, by omega, hp⟩
        rw [if_neg hprev, if_neg hex]
        have hn2 : ¬ (e.learned_from = (dr_get_interface h n).ip) := fun e1 => hn e1.symm
        simp [hn2]

/-- Rule A in closed form: only the metric changes, to the effective metric. -/
theorem split_horizon_eq (h : host_t) (e : rip_entry_t) :
    split_horizon h e = { e with metric := effective_metric h e } := by
  unfold split_horizon dr_interface_count effective_metric
  rw [split_horizon_range]
  by_cases hex : ∃ t ∈ h.ifs, t.ip = e.learned_from
  · have hex2 : ∃ j, j < h.ifs.length ∧ (dr_get_interface h j).ip = e.learned_from := by
      obtain ⟨t, ht, hp⟩ := hex
      obtain ⟨i, hi, hget⟩ := exists_index_of_mem h t ht
      exact ⟨i, hi, by rw [hget]; exact hp⟩
    rw [if_pos hex, if_pos hex2]
  · have hex2 : ¬ ∃ j, j < h.ifs.length ∧ (dr_get_interface h j).ip = e.learned_from := by
      rintro ⟨j, hj, hp⟩
      exact hex ⟨dr_get_interface h j, getD_mem_of_lt h j hj, hp⟩
    rw [if_neg hex, if_neg hex2]

theorem split_horizon_metric (h : host_t) (e : rip_entry_t) :
    (split_horizon h e).metric = effective_metric h e := by
  rw [split_horizon_eq]

/-! ## `append` -/

theorem append_from_of_new (c e : route_t) (rest : List route_t)
    (hnew : ∀ x ∈ c :: rest, x.subnet ≠ e.subnet) :
    append_from c e rest = (c :: rest) ++ [e] := by
  induction rest generalizing c with
  | nil =>
    have hc : c.subnet ≠ e.subnet := hnew c (List.mem_cons_self c [])
    simp [append_from, hc]
  | cons n rest ih =>
    have hc : c.subnet ≠ e.subnet := hnew c (List.mem_cons_self c _)
    have hrest : ∀ x ∈ n :: rest, x.subnet ≠ e.subnet :=
      fun x hx => hnew x (List.mem_cons_of_mem c hx)
    simp [append_from, hc, ih n hrest]

/-- The subnets after `append`: unchanged when the subnet was present, with the new subnet at
the end otherwise. -/
theorem append_from_subnets (c e : route_t) (rest : List route_t) :
    ((append_from c e rest).map (fun r => r.subnet) = (c :: rest).map (fun r => r.subnet)
        ∧ e.subnet ∈ (c :: rest).map (fun r => r.subnet))
      ∨ ((append_from c e rest).map (fun r => r.subnet)
            = (c :: rest).map (fun r => r.subnet) ++ [e.subnet]
          ∧ e.subnet ∉ (c :: rest).map (fun r => r.subnet)) := by
  induction rest generalizing c with
  | nil =>
    by_cases hc : c.subnet = e.subnet
    · left; simp [append_from, hc, overwrite]
    · right
      have hc2 : ¬ (e.subnet = c.subnet) := fun x => hc x.symm
      simp [append_from, hc, hc2]
  | cons n rest ih =>
    by_cases hc : c.subnet = e.subnet
    · left; simp [append_from, hc, overwrite]
    · have hc2 : ¬ (e.subnet = c.subnet) := fun x => hc x.symm
      rcases ih n with ⟨h1, h2⟩ | ⟨h1, h2⟩
      · left
        refine ⟨?_, List.mem_cons_of_mem _ h2⟩
        simp only [append_from, if_neg hc, List.map_cons, h1]
      · right
        refine ⟨?_, ?_⟩
        · simp only [append_from, if_neg hc, List.map_cons, h1, List.cons_append]
        · intro hmem
          rcases List.mem_cons.mp hmem with h3 | h3
          · exact hc2 h3
          · exact h2 h3

/-- A record of the table after `append` is an old record, the new record, or an old record
with the subnet of the new one, overwritten. -/
theorem mem_append_from (c e : route_t) (rest : List route_t) (r : route_t)
    (hr : r ∈ append_from c e rest) :
    r ∈ c :: rest ∨ r = e ∨ ∃ x ∈ c :: rest, x.subnet = e.subnet ∧ r = overwrite x e := by
  induction rest generalizing c with
  | nil =>
    by_cases hc : c.subnet = e.subnet
    · simp only [append_from, if_pos hc, List.mem_singleton] at hr
      exact Or.inr (Or.inr ⟨c, List.mem_cons_self c [], hc, hr⟩)
    · simp only [append_from, if_neg hc, List.mem_cons, List.mem_singleton] at hr
      rcases hr with h1 | h1 | h1
      · exact Or.inl (h1 ▸ List.mem_cons_self c [])
      · exact Or.inr (Or.inl h1)
      · exact absurd h1 (List.not_mem_nil r)
  | cons n rest ih =>
    by_cases hc : c.subnet = e.subnet
    · simp only [append_from, if_pos hc] at hr
      rcases List.mem_cons.mp hr with h1 | h1
      · exact Or.inr (Or.inr ⟨c, List.mem_cons_self c _, hc, h1⟩)
      · exact Or.inl (List.mem_cons_of_mem c h1)
    · simp only [append_from, if_neg hc] at hr
      rcases List.mem_cons.mp hr with h1 | h1
      · exact Or.inl (h1 ▸ List.mem_cons_self c _)
      · rcases ih n h1 with h2 | h2 | ⟨x, hx, hs, h2⟩
        · exact Or.inl (List.mem_cons_of_mem c h2)
        · exact Or.inr (Or.inl h2)
        · exact Or.inr (Or.inr ⟨x, List.mem_cons_of_mem c hx, hs, h2⟩)

theorem append_eq_some (tbl : List route_t) (e : route_t) (hne : tbl ≠ []) :
    ∃ c rest, tbl = c :: rest ∧ append tbl e = some (append_from c e rest) := by
  cases tbl with
  | nil => exact absurd rfl hne
  | cons c rest => exact ⟨c, rest, rfl, rfl⟩

theorem append_some_inv (tbl tbl1 : List route_t) (e : route_t)
    (ha : append tbl e = some tbl1) :
    ∃ c rest, tbl = c :: rest ∧ tbl1 = append_from c e rest := by
  cases tbl with
  | nil => simp [append] at ha
  | cons c rest =>
    simp only [append, Option.some.injEq] at ha
    exact ⟨c, rest, rfl, ha.symm⟩

/-- The function `append` keeps the subnets of a table pairwise different. -/
theorem append_nodup (tbl tbl1 : List route_t) (e : route_t)
    (ha : append tbl e = some tbl1) (hnd : (tbl.map fun r => r.subnet).Nodup) :
    (tbl1.map fun r => r.subnet).Nodup := by
  obtain ⟨c, rest, rfl, rfl⟩ := append_some_inv tbl tbl1 e ha
  rcases append_from_subnets c e rest with ⟨h1, _⟩ | ⟨h1, h2⟩
  · rw [h1]; exact hnd
  · rw [h1]
    exact List.Nodup.append hnd (List.nodup_singleton _)
      (by
        intro a ha1 ha2
        rw [List.mem_singleton] at ha2
        exact h2 (ha2 ▸ ha1))

/-- A property of records that holds for the table, for the new record, and for every
overwritten record, holds for the table after `append`. -/
theorem append_forall (P : route_t → Prop) (tbl tbl1 : List route_t) (e : route_t)
    (ha : append tbl e = some tbl1) (htbl : ∀ r ∈ tbl, P r) (he : P e)
    (hover : ∀ x ∈ tbl, x.subnet = e.subnet → P (overwrite x e)) :
    ∀ r ∈ tbl1, P r := by
  obtain ⟨c, rest, rfl, rfl⟩ := append_some_inv tbl tbl1 e ha
  intro r hr
  rcases mem_append_from c e rest r hr with h1 | h1 | ⟨x, hx, hs, h1⟩
  · exact htbl r h1
  · exact h1 ▸ he
  · exact h1 ▸ hover x hx hs

theorem append_of_new (tbl : List route_t) (e : route_t) (hne : tbl ≠ [])
    (hnew : ∀ x ∈ tbl, x.subnet ≠ e.subnet) :
    append tbl e = some (tbl ++ [e]) := by
  obtain ⟨c, rest, rfl, h1⟩ := append_eq_some tbl e hne
  rw [h1, append_from_of_new c e rest hnew]

/-! ## The table walk of `safe_dr_handle_packet` -/

theorem last_route_mem (s : Nat) (l : List route_t) (x : route_t)
    (hl : last_route s l = some x) : x ∈ l ∧ x.subnet = s := by
  induction l with
  | nil => simp [last_route] at hl
  | cons r rest ih =>
    simp only [last_route] at hl
    cases hrest : last_route s rest with
    | some y =>
      rw [hrest] at hl
      simp only [Option.some.injEq] at hl
      subst hl
      exact ⟨List.mem_cons_of_mem r (ih hrest).1, (ih hrest).2⟩
    | none =>
      rw [hrest] at hl
      by_cases hr : r.subnet = s
      · simp only [if_pos hr, Option.some.injEq] at hl
        subst hl
        exact ⟨List.mem_cons_self _ rest, hr⟩
      · simp [hr] at hl

theorem last_route_none (s : Nat) (l : List route_t) :
    last_route s l = none ↔ ∀ r ∈ l, r.subnet ≠ s := by
  induction l with
  | nil => simp [last_route]
  | cons r rest ih =>
    simp only [last_route]
    cases hrest : last_route s rest with
    | some y =>
      simp only [false_iff, reduceCtorEq]
      intro hall
      exact (hall y (List.mem_cons_of_mem r (last_route_mem s rest y hrest).1))
        (last_route_mem s rest y hrest).2
    | none =>
      have hno := ih.mp hrest
      by_cases hr : r.subnet = s
      · simp only [if_pos hr, false_iff, reduceCtorEq]
        intro hall
        exact hall r (List.mem_cons_self r rest) hr
      · simp only [if_neg hr, true_iff]
        intro x hx
        rcases List.mem_cons.mp hx with h1 | h1
        · exact h1 ▸ hr
        · exact hno x h1

/-- In a table split at a record with subnet `s` that no later record shares, that record is
the one `last_route` gives. -/
theorem last_route_split (s : Nat) (front : List route_t) (x : route_t) (back : List route_t)
    (hx : x.subnet = s) (hback : ∀ r ∈ back, r.subnet ≠ s) :
    last_route s (front ++ x :: back) = some x := by
  induction front with
  | nil =>
    simp only [List.nil_append, last_route, (last_route_none s back).mpr hback, if_pos hx]
  | cons r rest ih =>
    rw [List.cons_append, last_route, ih]

theorem last_pos_split (s : Nat) (front : List route_t) (x : route_t) (back : List route_t)
    (hx : x.subnet = s) (hback : ∀ r ∈ back, r.subnet ≠ s) :
    last_pos s (front ++ x :: back) = some front.length := by
  have hnone : ∀ l : List route_t, (∀ r ∈ l, r.subnet ≠ s) → last_pos s l = none := by
    intro l
    induction l with
    | nil => intro _; rfl
    | cons r rest ih =>
      intro hall
      have hr : r.subnet ≠ s := hall r (List.mem_cons_self r rest)
      simp only [last_pos, ih (fun y hy => hall y (List.mem_cons_of_mem r hy)), if_neg hr]
  induction front with
  | nil =>
    simp only [List.nil_append, last_pos, hnone back hback, if_pos hx, List.length_nil]
  | cons r rest ih =>
    rw [List.cons_append, last_pos, ih, List.length_cons]

theorem last_pos_none (s : Nat) (l : List route_t) :
    last_pos s l = none ↔ last_route s l = none := by
  induction l with
  | nil => simp [last_pos, last_route]
  | cons r rest ih =>
    simp only [last_pos, last_route]
    cases hp : last_pos s rest with
    | some k =>
      cases hq : last_route s rest with
      | some y => simp
      | none => rw [ih.mpr hq] at hp; cases hp
    | none =>
      rw [ih.mp hp]
      by_cases hr : r.subnet = s
      · simp [hr]
      · simp [hr]

/-- The position `last_pos` gives holds the record `last_route` gives. -/
theorem last_pos_get (s : Nat) (l : List route_t) (k : Nat) (hk : last_pos s l = some k) :
    ∃ x, l[k]? = some x ∧ last_route s l = some x := by
  induction l generalizing k with
  | nil => simp [last_pos] at hk
  | cons r rest ih =>
    simp only [last_pos] at hk
    cases hp : last_pos s rest with
    | some j =>
      rw [hp] at hk
      simp only [Option.some.injEq] at hk
      subst hk
      obtain ⟨x, hx1, hx2⟩ := ih j hp
      exact ⟨x, by simpa using hx1, by simp only [last_route, hx2]⟩
    | none =>
      rw [hp] at hk
      by_cases hr : r.subnet = s
      · simp only [if_pos hr, Option.some.injEq] at hk
        subst hk
        refine ⟨r, by simp, ?_⟩
        simp only [last_route, (last_pos_none s rest).mp hp, if_pos hr]
      · simp [hr] at hk

theorem refresh_subnet (h : host_t) (ip v : Nat) (r : route_t) :
    (refresh h ip v r).subnet = r.subnet := by
  unfold refresh; split <;> rfl

theorem refresh_cases (h : host_t) (ip v : Nat) (r : route_t) :
    refresh h ip v r = r ∨ refresh h ip v r = { r with last_updated := h.now } := by
  unfold refresh; split
  · exact Or.inr rfl
  · exact Or.inl rfl

theorem walk_cons_dead (h : host_t) (ip v m : Nat) (visited rest : List route_t)
    (st : locals_t) (r : route_t) (hd : dead ip v m r) :
    walk h ip v m visited (r :: rest) st
      = .returned (visited ++ rest)
          (broadcast_single_entry h { r with last_updated := h.now, is_garbage := 1 }) := by
  obtain ⟨hv, hn, hm⟩ := hd
  by_cases hu : r.subnet = ip
  · simp only [walk, if_pos hu, if_pos hv, hn, hm, and_self, if_true, remove_split]
  · simp only [walk, if_neg hu, if_pos hv, hn, hm, and_self, if_true, remove_split]

theorem walk_cons_alive (h : host_t) (ip v m : Nat) (visited rest : List route_t)
    (st : locals_t) (r : route_t) (hd : ¬ dead ip v m r) :
    walk h ip v m visited (r :: rest) st
      = walk h ip v m (visited ++ [refresh h ip v r]) rest (visit h ip v visited.length st r) := by
  by_cases hu : r.subnet = ip <;> by_cases hv : r.subnet = v
  · have hd2 : ¬ (r.next_hop_ip = ip ∧ m > 15) := fun x => hd ⟨hv, x.1, x.2⟩
    have hor : r.subnet = ip ∨ r.subnet = v := Or.inl hu
    simp only [walk, visit, refresh, if_pos hu, if_pos hv, if_neg hd2, if_pos hor]
  · have hor : r.subnet = ip ∨ r.subnet = v := Or.inl hu
    simp only [walk, visit, refresh, if_pos hu, if_neg hv, if_pos hor]
  · have hd2 : ¬ (r.next_hop_ip = ip ∧ m > 15) := fun x => hd ⟨hv, x.1, x.2⟩
    have hor : r.subnet = ip ∨ r.subnet = v := Or.inr hv
    simp only [walk, visit, refresh, if_neg hu, if_pos hv, if_neg hd2, if_pos hor]
  · have hor : ¬ (r.subnet = ip ∨ r.subnet = v) := fun x => x.elim hu hv
    simp only [walk, visit, refresh, if_neg hu, if_neg hv, if_neg hor]

/-- The walk that runs to the end leaves the table with the timestamps of the records for
`ip` and `v` refreshed, and nothing else changed. -/
theorem walk_done_tbl (h : host_t) (ip v m : Nat) (rest visited : List route_t)
    (st : locals_t) (t : List route_t) (st1 : locals_t)
    (hw : walk h ip v m visited rest st = .done t st1) :
    t = visited ++ rest.map (refresh h ip v) := by
  induction rest generalizing visited st with
  | nil =>
    simp only [walk, walk_t.done.injEq] at hw
    simp [hw.1]
  | cons r rest ih =>
    by_cases hd : dead ip v m r
    · rw [walk_cons_dead h ip v m visited rest st r hd] at hw
      cases hw
    · rw [walk_cons_alive h ip v m visited rest st r hd] at hw
      rw [ih _ _ hw]
      simp

/-- A walk over records none of which is a dead dependency runs to the end. -/
theorem walk_alive (h : host_t) (ip v m : Nat) (rest visited : List route_t) (st : locals_t)
    (hno : ∀ r ∈ rest, ¬ dead ip v m r) :
    ∃ st1, walk h ip v m visited rest st = .done (visited ++ rest.map (refresh h ip v)) st1 := by
  induction rest generalizing visited st with
  | nil => exact ⟨st, by simp [walk]⟩
  | cons r rest ih =>
    rw [walk_cons_alive h ip v m visited rest st r (hno r (List.mem_cons_self r rest))]
    obtain ⟨st1, h1⟩ := ih (visited ++ [refresh h ip v r])
      (visit h ip v visited.length st r) (fun x hx => hno x (List.mem_cons_of_mem r hx))
    exact ⟨st1, by rw [h1]; simp⟩

/-- A walk that returns early stopped at a dead dependency: the records before it were
refreshed, the record itself is removed and broadcast as garbage, the records behind it are
untouched. -/
theorem walk_returned (h : host_t) (ip v m : Nat) (rest visited : List route_t)
    (st : locals_t) (t : List route_t) (out : List payload_t)
    (hw : walk h ip v m visited rest st = .returned t out) :
    ∃ front r back, rest = front ++ r :: back ∧ dead ip v m r
      ∧ (∀ x ∈ front, ¬ dead ip v m x)
      ∧ t = visited ++ front.map (refresh h ip v) ++ back
      ∧ out = broadcast_single_entry h { r with last_updated := h.now, is_garbage := 1 } := by
  induction rest generalizing visited st with
  | nil => simp [walk] at hw
  | cons r rest ih =>
    by_cases hd : dead ip v m r
    · rw [walk_cons_dead h ip v m visited rest st r hd] at hw
      simp only [walk_t.returned.injEq] at hw
      exact ⟨[], r, rest, rfl, hd, by simp, by simp [hw.1], hw.2.symm⟩
    · rw [walk_cons_alive h ip v m visited rest st r hd] at hw
      obtain ⟨front, x, back, h1, h2, h3, h4, h5⟩ := ih _ _ hw
      refine ⟨r :: front, x, back, by simp [h1], h2, ?_, by simp [h4], h5⟩
      intro y hy
      rcases List.mem_cons.mp hy with h6 | h6
      · exact h6 ▸ hd
      · exact h3 y h6

theorem foldl_range_idem (P : Nat → Prop) [DecidablePred P] (idx : Option Nat) (n : Nat) :
    (List.range n).foldl (fun found j => if P j then some j else found)
        ((List.range n).foldl (fun found j => if P j then some j else found) idx)
      = (List.range n).foldl (fun found j => if P j then some j else found) idx := by
  by_cases hex : ∃ j, j < n ∧ P j
  · have hlast : ∃ i, i < n ∧ P i ∧ ∀ j, i < j → j < n → ¬ P j := by
      obtain ⟨j, hj, hp⟩ := hex
      have hfind := Nat.findGreatest_spec (P := fun k => k < n ∧ P k) (Nat.le_of_lt hj) ⟨hj, hp⟩
      refine ⟨Nat.findGreatest (fun k => k < n ∧ P k) n, hfind.1, hfind.2, ?_⟩
      intro k hk hkn hpk
      exact Nat.findGreatest_is_greatest (P := fun k => k < n ∧ P k) hk (Nat.le_of_lt hkn)
        ⟨hkn, hpk⟩
    obtain ⟨i, hi, hp, hl⟩ := hlast
    rw [foldl_range_last P idx i n hp hi hl, foldl_range_last P (some i) i n hp hi hl]
  · have hno : ∀ j, j < n → ¬ P j := fun j hj hp => hex ⟨j, hj, hp⟩
    rw [foldl_range_none P idx n hno, foldl_range_none P idx n hno]

theorem search_intf_idem (h : host_t) (s : Nat) (idx : Option Nat) :
    search_intf h s (search_intf h s idx) = search_intf h s idx :=
  foldl_range_idem (on_subnet h s) idx h.ifs.length

theorem visit_here_u (h : host_t) (ip v pos : Nat) (st : locals_t) (r : route_t) :
    (visit h ip v pos st r).here_u
      = if r.subnet = ip then some { r with last_updated := h.now } else st.here_u := by
  unfold visit; split_ifs <;> rfl

theorem visit_here_u_exists (h : host_t) (ip v pos : Nat) (st : locals_t) (r : route_t) :
    (visit h ip v pos st r).here_u_exists
      = if r.subnet = ip then true else st.here_u_exists := by
  unfold visit; split_ifs <;> rfl

theorem visit_u_interface_index (h : host_t) (ip v pos : Nat) (st : locals_t) (r : route_t) :
    (visit h ip v pos st r).u_interface_index
      = if r.subnet = ip then search_intf h r.subnet st.u_interface_index
        else st.u_interface_index := by
  unfold visit; split_ifs <;> rfl

theorem visit_here_v_exists (h : host_t) (ip v pos : Nat) (st : locals_t) (r : route_t) :
    (visit h ip v pos st r).here_v_exists
      = if r.subnet = v then true else st.here_v_exists := by
  unfold visit; split_ifs <;> rfl

theorem visit_here_v (h : host_t) (ip v pos : Nat) (st : locals_t) (r : route_t) :
    (visit h ip v pos st r).here_v = if r.subnet = v then some pos else st.here_v := by
  unfold visit; split_ifs <;> rfl

/-- The locals after a walk that ran to the end: `here_u` is the refreshed last record for
the sender, `here_v` the position of the last record for `v`, and the interface index was
searched when a record for the sender exists. -/
theorem walk_done_locals (h : host_t) (ip v m : Nat) (rest visited : List route_t)
    (st : locals_t) (t : List route_t) (st1 : locals_t)
    (hw : walk h ip v m visited rest st = .done t st1) :
    st1.here_u
        = (match last_route ip rest with
          | some x => some { x with last_updated := h.now }
          | none => st.here_u)
      ∧ st1.here_u_exists
        = (match last_route ip rest with
          | some _ => true
          | none => st.here_u_exists)
      ∧ st1.u_interface_index
        = (match last_route ip rest with
          | some _ => search_intf h ip st.u_interface_index
          | none => st.u_interface_index)
      ∧ st1.here_v_exists
        = (match last_pos v rest with
          | some _ => true
          | none => st.here_v_exists)
      ∧ st1.here_v
        = (match last_pos v rest with
          | some k => some (visited.length + k)
          | none => st.here_v) := by
  induction rest generalizing visited st with
  | nil =>
    simp only [walk, walk_t.done.injEq] at hw
    simp [last_route, last_pos, hw.2]
  | cons r rest ih =>
    by_cases hd : dead ip v m r
    · rw [walk_cons_dead h ip v m visited rest st r hd] at hw
      cases hw
    · rw [walk_cons_alive h ip v m visited rest st r hd] at hw
      obtain ⟨h1, h2, h3, h4, h5⟩ := ih _ _ hw
      rw [h1, h2, h3, h4, h5, visit_here_u, visit_here_u_exists, visit_u_interface_index,
        visit_here_v_exists, visit_here_v]
      simp only [last_route, last_pos]
      refine ⟨?_, ?_, ?_, ?_, ?_⟩
      · cases last_route ip rest with
        | some x => rfl
        | none => by_cases hu : r.subnet = ip <;> simp only [if_pos, if_neg, hu, if_true, if_false]
      · cases last_route ip rest with
        | some x => rfl
        | none => by_cases hu : r.subnet = ip <;> simp only [if_pos, if_neg, hu, if_true, if_false]
      · cases last_route ip rest with
        | some x =>
          by_cases hu : r.subnet = ip
          · simp only [if_pos hu]
            rw [hu, search_intf_idem]
          · simp only [if_neg hu]
        | none =>
          by_cases hu : r.subnet = ip
          · simp only [if_pos hu]
            rw [hu]
          · simp only [if_neg hu]
      · cases last_pos v rest with
        | some k => rfl
        | none => by_cases hv : r.subnet = v <;> simp only [if_pos, if_neg, hv, if_true, if_false]
      · cases last_pos v rest with
        | some k => simp [Nat.add_assoc, Nat.add_comm 1 k]
        | none =>
          by_cases hv : r.subnet = v
          · simp only [if_pos hv, Nat.add_zero]
          · simp only [if_neg hv]

/-! ## Uniqueness of subnets -/

theorem set_subnets (t : List route_t) (pos : Nat) (hv x : route_t)
    (hget : t[pos]? = some hv) (hx : x.subnet = hv.subnet) :
    (t.set pos x).map (fun r => r.subnet) = t.map (fun r => r.subnet) := by
  induction t generalizing pos with
  | nil => simp
  | cons a t ih =>
    cases pos with
    | zero =>
      simp only [List.getElem?_cons_zero, Option.some.injEq] at hget
      simp [hx, hget]
    | succ n =>
      simp only [List.getElem?_cons_succ] at hget
      simp [ih n hget]

theorem map_refresh_subnets (h : host_t) (ip v : Nat) (t : List route_t) :
    (t.map (refresh h ip v)).map (fun r => r.subnet) = t.map (fun r => r.subnet) := by
  rw [List.map_map]
  exact List.map_congr_left (fun r _ => refresh_subnet h ip v r)

theorem synthesize_nodup (h : host_t) (t : List route_t) (ip : Nat) (same : Bool)
    (st : locals_t) (t2 : List route_t) (out : List payload_t) (st2 : locals_t)
    (hs : synthesize h t ip same st = some (t2, out, st2))
    (hnd : (t.map fun r => r.subnet).Nodup) : (t2.map fun r => r.subnet).Nodup := by
  unfold synthesize at hs
  split at hs
  · split at hs
    · simp only [Option.some.injEq, Prod.mk.injEq] at hs
      exact hs.1 ▸ hnd
    · split at hs
      · split at hs
        · cases hs
        · rename_i tbl1 happ
          simp only [Option.some.injEq, Prod.mk.injEq] at hs
          exact hs.1 ▸ append_nodup t tbl1 _ happ hnd
      · simp only [Option.some.injEq, Prod.mk.injEq] at hs
        exact hs.1 ▸ hnd
  · simp only [Option.some.injEq, Prod.mk.injEq] at hs
    exact hs.1 ▸ hnd

theorem update_nodup (h : host_t) (t : List route_t) (ip : Nat) (received : rip_entry_t)
    (same : Bool) (st : locals_t) (out : List payload_t) (t3 : List route_t)
    (out3 : List payload_t)
    (hu : update h t ip received same st out = some (t3, out3))
    (hnd : (t.map fun r => r.subnet).Nodup) : (t3.map fun r => r.subnet).Nodup := by
  unfold update at hu
  split at hu
  · split at hu
    · split at hu
      · split at hu
        · cases hu
        · rename_i tbl1 happ
          simp only [Option.some.injEq, Prod.mk.injEq] at hu
          exact hu.1 ▸ append_nodup t tbl1 _ happ hnd
      · simp only [Option.some.injEq, Prod.mk.injEq] at hu
        exact hu.1 ▸ hnd
    · cases hu
  · split at hu
    · split at hu
      · split at hu
        · rename_i hv hget
          split at hu
          · simp only [Option.some.injEq, Prod.mk.injEq] at hu
            rw [← hu.1, set_subnets t _ hv (relax ip received _ _ hv) hget rfl]
            exact hnd
          · simp only [Option.some.injEq, Prod.mk.injEq] at hu
            exact hu.1 ▸ hnd
        · cases hu
      · cases hu
    · simp only [Option.some.injEq, Prod.mk.injEq] at hu
      exact hu.1 ▸ hnd

theorem sweep_but_last_from_sublist (h : host_t) (c : route_t → Bool)
    (mark : route_t → route_t) (rest front : List route_t) (current : route_t) :
    (sweep_but_last_from h c mark (front ++ current :: rest) front.length current rest).1.Sublist
      (front ++ current :: rest) := by
  induction rest generalizing front current with
  | nil => simp [sweep_but_last_from]
  | cons n rest ih =>
    by_cases hc : c current = true
    · simp only [sweep_but_last_from, hc, if_true, remove_set_split]
      exact (ih front n).trans
        (List.Sublist.append (List.Sublist.refl _) (List.sublist_cons_self _ _))
    · have h1 := ih (front ++ [current]) n
      simp only [List.append_assoc, List.singleton_append, List.length_append,
        List.length_singleton] at h1
      simp only [sweep_but_last_from, hc]
      exact h1

theorem sweep_but_last_sublist (h : host_t) (c : route_t → Bool) (mark : route_t → route_t)
    (current : route_t) (rest : List route_t) :
    (sweep_but_last h c mark current rest).1.Sublist (current :: rest) :=
  sweep_but_last_from_sublist h c mark rest [] current

theorem nodup_of_sublist (t1 t : List route_t) (hs : t1.Sublist t)
    (hnd : (t.map fun r => r.subnet).Nodup) : (t1.map fun r => r.subnet).Nodup :=
  List.Nodup.sublist (List.Sublist.map _ hs) hnd

theorem handle_packet_nodup (h : host_t) (tbl : List route_t) (ip intf : Nat)
    (header : rip_header_t) (entry : rip_entry_t) (len : Nat) (tbl1 : List route_t)
    (out : List payload_t)
    (hp : safe_dr_handle_packet h tbl ip intf header entry len = some (tbl1, out))
    (hnd : (tbl.map fun r => r.subnet).Nodup) : (tbl1.map fun r => r.subnet).Nodup := by
  unfold safe_dr_handle_packet at hp
  simp only at hp
  split at hp
  · simp only [Option.some.injEq] at hp
    have h1 := congrArg Prod.fst hp
    simp only at h1
    rw [← h1, sweep_fst]
    exact nodup_of_sublist _ tbl (List.filter_sublist tbl) hnd
  · split at hp
    · rename_i t1 out1 hw
      simp only [Option.some.injEq, Prod.mk.injEq] at hp
      obtain ⟨front, r, back, h1, _, _, h4, _⟩ := walk_returned h ip _ _ tbl [] locals_init t1 out1 hw
      rw [h1] at hnd
      rw [← hp.1, h4]
      simp only [List.nil_append, List.map_append, map_refresh_subnets]
      simp only [List.map_append, List.map_cons] at hnd
      exact List.Nodup.sublist
        (List.Sublist.append (List.Sublist.refl _) (List.sublist_cons_self _ _)) hnd
    · rename_i t1 st hw
      have h1 := walk_done_tbl h ip _ _ tbl [] locals_init t1 st hw
      have hnd1 : (t1.map fun r => r.subnet).Nodup := by
        rw [h1, List.nil_append, map_refresh_subnets]; exact hnd
      split at hp
      · cases hp
      · rename_i t2 out2 st2 hs
        exact update_nodup h t2 ip _ _ st2 out2 tbl1 out hp
          (synthesize_nodup h t1 ip _ st t2 out2 st2 hs hnd1)

theorem overwrite_eq (x e : route_t) (hs : x.subnet = e.subnet) : overwrite x e = e := by
  cases x; cases e
  simp only [overwrite] at *
  simp [hs]

/-- A record of the table after `append` is an old record or the new record. -/
theorem mem_append (tbl tbl1 : List route_t) (e r : route_t)
    (ha : append tbl e = some tbl1) (hr : r ∈ tbl1) : r ∈ tbl ∨ r = e := by
  obtain ⟨c, rest, rfl, rfl⟩ := append_some_inv tbl tbl1 e ha
  rcases mem_append_from c e rest r hr with h1 | h1 | ⟨x, _, hs, h1⟩
  · exact Or.inl h1
  · exact Or.inr h1
  · exact Or.inr (h1.trans (overwrite_eq x e hs))

theorem append_ne_nil (tbl tbl1 : List route_t) (e : route_t)
    (ha : append tbl e = some tbl1) : tbl1 ≠ [] := by
  obtain ⟨c, rest, rfl, rfl⟩ := append_some_inv tbl tbl1 e ha
  cases rest with
  | nil => unfold append_from; split <;> simp
  | cons n rest => unfold append_from; split <;> simp

/-- The table `dr_init` builds from at least one interface: it exists, is not empty, has
pairwise different subnets, and each record is the record built for some interface. -/
theorem dr_init_range (h : host_t) (n : Nat) (hn : 0 < n) :
    ∃ t, (List.range n).foldl
          (fun head_rt i =>
            if i = 0 then some [new_entry_init h i]
            else head_rt.bind fun tbl => append tbl (new_entry_init h i))
          (some [h.uninit_route]) = some t
      ∧ t ≠ [] ∧ unique_subnets t ∧ ∀ r ∈ t, ∃ i, i < n ∧ r = new_entry_init h i := by
  induction n with
  | zero => omega
  | succ n ih =>
    rw [List.range_succ, List.foldl_append]
    simp only [List.foldl_cons, List.foldl_nil]
    by_cases h0 : n = 0
    · subst h0
      refine ⟨[new_entry_init h 0], by simp, by simp, by simp [unique_subnets], ?_⟩
      intro r hr
      exact ⟨0, by omega, List.mem_singleton.mp hr⟩
    · obtain ⟨t, h1, h2, h3, h4⟩ := ih (Nat.pos_of_ne_zero h0)
      rw [h1, if_neg h0]
      obtain ⟨c, rest, hc, happ⟩ := append_eq_some t (new_entry_init h n) h2
      refine ⟨append_from c (new_entry_init h n) rest, by simpa using happ, ?_, ?_, ?_⟩
      · exact append_ne_nil t _ _ happ
      · exact append_nodup t _ _ happ h3
      · intro r hr
        rcases mem_append t _ _ r happ hr with h5 | h5
        · obtain ⟨i, hi, h6⟩ := h4 r h5
          exact ⟨i, Nat.lt_succ_of_lt hi, h6⟩
        · exact ⟨n, Nat.lt_succ_self n, h5⟩

theorem dr_init_some (h : host_t) (hne : h.ifs ≠ []) :
    ∃ t, dr_init h = some t ∧ t ≠ [] ∧ unique_subnets t
      ∧ ∀ r ∈ t, ∃ i, i < h.ifs.length ∧ r = new_entry_init h i :=
  dr_init_range h h.ifs.length (List.length_pos.mpr hne)

/-- With no interface `dr_init` leaves the never-written record as the only record. -/
theorem dr_init_no_interface (h : host_t) (he : h.ifs = []) :
    dr_init h = some [h.uninit_route] := by
  unfold dr_init dr_interface_count
  rw [he]; rfl

theorem dr_init_inv (h : host_t) (tbl : List route_t) (hne : h.ifs ≠ [])
    (hi : dr_init h = some tbl) :
    tbl ≠ [] ∧ unique_subnets tbl
      ∧ ∀ r ∈ tbl, ∃ i, i < h.ifs.length ∧ r = new_entry_init h i := by
  obtain ⟨t, h1, h2, h3, h4⟩ := dr_init_some h hne
  rw [h1] at hi
  cases hi
  exact ⟨h2, h3, h4⟩

theorem dr_init_unique (h : host_t) (tbl : List route_t) (hi : dr_init h = some tbl) :
    unique_subnets tbl := by
  by_cases he : h.ifs = []
  · rw [dr_init_no_interface h he] at hi
    cases hi
    simp [unique_subnets]
  · exact (dr_init_inv h tbl he hi).2.1

theorem handle_periodic_nodup (h : host_t) (tbl : List route_t) (hnd : unique_subnets tbl) :
    unique_subnets (safe_dr_handle_periodic h tbl).1 := by
  unfold safe_dr_handle_periodic
  exact nodup_of_sublist _ tbl (sweep_sublist h _ _ _ tbl) hnd

theorem interface_changed_nodup (h : host_t) (tbl : List route_t) (intf : Nat)
    (state_changed cost_changed : Int) (tbl1 : List route_t) (out : List payload_t)
    (hc : safe_dr_interface_changed h tbl intf state_changed cost_changed = some (tbl1, out))
    (hnd : unique_subnets tbl) : unique_subnets tbl1 := by
  unfold safe_dr_interface_changed at hc
  split at hc
  · split at hc
    · split at hc
      · cases hc
      · rename_i t1 happ
        simp only [Option.some.injEq, Prod.mk.injEq] at hc
        exact hc.1 ▸ append_nodup tbl t1 _ happ hnd
    · split at hc
      · cases hc
      · rename_i current rest
        simp only [Option.some.injEq, Prod.mk.injEq] at hc
        rw [← hc.1]
        exact nodup_of_sublist _ _ (sweep_but_last_sublist h _ _ current rest) hnd
  · split at hc
    · split at hc
      · cases hc
      · rename_i t1 happ
        simp only [Option.some.injEq, Prod.mk.injEq] at hc
        rw [sweep_fst] at happ
        exact hc.1 ▸ append_nodup _ t1 _ happ
          (nodup_of_sublist _ tbl (List.filter_sublist tbl) hnd)
    · simp only [Option.some.injEq, Prod.mk.injEq] at hc
      exact hc.1 ▸ hnd

/-- C3: the table `dr_init` produces has no two records with the same subnet, and from a
table without duplicate subnets each of `handle_packet`, `handle_periodic` and
`interface_changed` yields, for every input and every host, a table without duplicate
subnets. -/
theorem uniqueness_invariant :
    (∀ (h : host_t) (tbl : List route_t), dr_init h = some tbl → unique_subnets tbl)
      ∧ (∀ (h : host_t) (tbl : List route_t) (ip intf : Nat) (header : rip_header_t)
          (entry : rip_entry_t) (len : Nat) (tbl1 : List route_t) (out : List payload_t),
          unique_subnets tbl →
          safe_dr_handle_packet h tbl ip intf header entry len = some (tbl1, out) →
          unique_subnets tbl1)
      ∧ (∀ (h : host_t) (tbl : List route_t),
          unique_subnets tbl → unique_subnets (safe_dr_handle_periodic h tbl).1)
      ∧ (∀ (h : host_t) (tbl : List route_t) (intf : Nat) (state_changed cost_changed : Int)
          (tbl1 : List route_t) (out : List payload_t),
          unique_subnets tbl →
          safe_dr_interface_changed h tbl intf state_changed cost_changed = some (tbl1, out) →
          unique_subnets tbl1) :=
  ⟨fun h tbl hi => dr_init_unique h tbl hi,
    fun h tbl ip intf header entry len tbl1 out hnd hp =>
      handle_packet_nodup h tbl ip intf header entry len tbl1 out hp hnd,
    fun h tbl hnd => handle_periodic_nodup h tbl hnd,
    fun h tbl intf sc cc tbl1 out hnd hc =>
      interface_changed_nodup h tbl intf sc cc tbl1 out hc hnd⟩

/-! ## Bounded metric -/

theorem refresh_cost (h : host_t) (ip v : Nat) (r : route_t) :
    (refresh h ip v r).cost = r.cost := by
  unfold refresh; split <;> rfl

theorem effective_metric_no_wrap (h : host_t) (e : rip_entry_t) (he : metric_no_wrap e) :
    effective_metric h e + 16 < UINT32 := by
  unfold effective_metric
  split
  · simp [INFINITY, UINT32]
  · exact he

theorem bounded_of_get (h : host_t) (i : Nat) (hh : host_costs_bounded h)
    (hi : i < h.ifs.length) :
    1 ≤ (dr_get_interface h i).cost ∧ (dr_get_interface h i).cost ≤ 16 :=
  hh _ (getD_mem_of_lt h i hi)

theorem synthesize_bounded (h : host_t) (t : List route_t) (ip : Nat) (same : Bool)
    (st : locals_t) (t2 : List route_t) (out : List payload_t) (st2 : locals_t)
    (hs : synthesize h t ip same st = some (t2, out, st2))
    (hh : host_costs_bounded h)
    (ht : ∀ r ∈ t, bounded_cost r)
    (hst : ∀ hu, st.here_u = some hu → bounded_cost hu) :
    (∀ r ∈ t2, bounded_cost r) ∧ (∀ hu, st2.here_u = some hu → bounded_cost hu) := by
  unfold synthesize at hs
  split at hs
  · split at hs
    · simp only [Option.some.injEq, Prod.mk.injEq] at hs
      obtain ⟨h1, _, h3⟩ := hs
      subst h1; subst h3
      exact ⟨ht, hst⟩
    · rename_i i hfind
      have hi : i < h.ifs.length := List.mem_range.mp (List.mem_of_find?_eq_some hfind)
      have hb : bounded_cost (new_here_u h ip i) := bounded_of_get h i hh hi
      split at hs
      · split at hs
        · cases hs
        · rename_i tbl1 happ
          simp only [Option.some.injEq, Prod.mk.injEq] at hs
          obtain ⟨h1, _, h3⟩ := hs
          subst h1; subst h3
          refine ⟨?_, ?_⟩
          · intro r hr
            rcases mem_append t _ _ r happ hr with h5 | h5
            · exact ht r h5
            · exact h5 ▸ hb
          · intro hu hhu
            simp only [Option.some.injEq] at hhu
            exact hhu ▸ hb
      · simp only [Option.some.injEq, Prod.mk.injEq] at hs
        obtain ⟨h1, _, h3⟩ := hs
        subst h1; subst h3
        refine ⟨ht, ?_⟩
        intro hu hhu
        simp only [Option.some.injEq] at hhu
        exact hhu ▸ hb
  · simp only [Option.some.injEq, Prod.mk.injEq] at hs
    obtain ⟨h1, _, h3⟩ := hs
    subst h1; subst h3
    exact ⟨ht, hst⟩

theorem update_bounded (h : host_t) (t : List route_t) (ip : Nat) (received : rip_entry_t)
    (same : Bool) (st : locals_t) (out : List payload_t) (t3 : List route_t)
    (out3 : List payload_t)
    (hu : update h t ip received same st out = some (t3, out3))
    (hm : received.metric + 16 < UINT32)
    (ht : ∀ r ∈ t, bounded_cost r)
    (hst : ∀ x, st.here_u = some x → bounded_cost x) :
    ∀ r ∈ t3, bounded_cost r := by
  have hsum : ∀ x : route_t, bounded_cost x →
      (x.cost + received.metric) % UINT32 = x.cost + received.metric ∧ 1 ≤ x.cost := by
    intro x hx
    unfold bounded_cost at hx
    refine ⟨Nat.mod_eq_of_lt ?_, hx.1⟩
    omega
  unfold update at hu
  split at hu
  · split at hu
    · rename_i here_u idx hhu _
      have hb := hsum here_u (hst here_u hhu)
      split at hu
      · rename_i hle
        split at hu
        · cases hu
        · rename_i tbl1 happ
          simp only [Option.some.injEq, Prod.mk.injEq] at hu
          rw [← hu.1]
          intro r hr
          rcases mem_append t _ _ r happ hr with h5 | h5
          · exact ht r h5
          · subst h5
            simp only [new_here_v, hb.1] at hle
            simp only [bounded_cost, new_here_v, hb.1]
            omega
      · simp only [Option.some.injEq, Prod.mk.injEq] at hu
        exact hu.1 ▸ ht
    · cases hu
  · split at hu
    · split at hu
      · rename_i here_u idx pos hhu _ _
        have hb := hsum here_u (hst here_u hhu)
        split at hu
        · rename_i hv hget
          have hvb : bounded_cost hv := ht hv (List.getElem?_mem hget)
          split at hu
          · rename_i hgt
            simp only [Option.some.injEq, Prod.mk.injEq] at hu
            rw [← hu.1]
            intro r hr
            rcases List.mem_or_eq_of_mem_set hr with h5 | h5
            · exact ht r h5
            · subst h5
              rw [hb.1] at hgt
              unfold bounded_cost at hvb
              simp only [bounded_cost, relax, hb.1]
              omega
          · simp only [Option.some.injEq, Prod.mk.injEq] at hu
            exact hu.1 ▸ ht
        · cases hu
      · cases hu
    · simp only [Option.some.injEq, Prod.mk.injEq] at hu
      exact hu.1 ▸ ht

theorem handle_packet_bounded (h : host_t) (tbl : List route_t) (ip intf : Nat)
    (header : rip_header_t) (entry : rip_entry_t) (len : Nat) (tbl1 : List route_t)
    (out : List payload_t)
    (hp : safe_dr_handle_packet h tbl ip intf header entry len = some (tbl1, out))
    (hh : host_costs_bounded h) (he : metric_no_wrap entry)
    (ht : ∀ r ∈ tbl, bounded_cost r) : ∀ r ∈ tbl1, bounded_cost r := by
  have hrefresh : ∀ l : List route_t, (∀ r ∈ l, bounded_cost r) →
      ∀ r ∈ l.map (refresh h ip (split_horizon h entry).ip), bounded_cost r := by
    intro l hl r hr
    obtain ⟨x, hx, rfl⟩ := List.mem_map.mp hr
    have := hl x hx
    unfold bounded_cost at *
    rw [refresh_cost]; exact this
  unfold safe_dr_handle_packet at hp
  simp only at hp
  split at hp
  · simp only [Option.some.injEq] at hp
    have h1 := congrArg Prod.fst hp
    simp only at h1
    rw [← h1, sweep_fst]
    intro r hr
    exact ht r (List.mem_filter.mp hr).1
  · split at hp
    · rename_i t1 out1 hw
      simp only [Option.some.injEq, Prod.mk.injEq] at hp
      obtain ⟨front, r, back, h1, _, _, h4, _⟩ :=
        walk_returned h ip _ _ tbl [] locals_init t1 out1 hw
      rw [← hp.1, h4]
      intro x hx
      simp only [List.nil_append, List.mem_append] at hx
      rcases hx with h5 | h5
      · exact hrefresh front (fun y hy => ht y (h1 ▸ List.mem_append_left _ hy)) x h5
      · exact ht x (h1 ▸ List.mem_append_right _ (List.mem_cons_of_mem _ h5))
    · rename_i t1 st hw
      have h1 := walk_done_tbl h ip _ _ tbl [] locals_init t1 st hw
      have hl := (walk_done_locals h ip _ _ tbl [] locals_init t1 st hw).1
      have ht1 : ∀ r ∈ t1, bounded_cost r := by
        rw [h1, List.nil_append]; exact hrefresh tbl ht
      have hst : ∀ x, st.here_u = some x → bounded_cost x := by
        intro x hx
        rw [hl] at hx
        cases hlr : last_route ip tbl with
        | none => rw [hlr] at hx; simp [locals_init] at hx
        | some y =>
          rw [hlr] at hx
          simp only [Option.some.injEq] at hx
          have hy := ht y (last_route_mem ip tbl y hlr).1
          subst hx
          exact hy
      split at hp
      · cases hp
      · rename_i t2 out2 st2 hs
        obtain ⟨ht2, hst2⟩ := synthesize_bounded h t1 ip _ st t2 out2 st2 hs hh ht1 hst
        refine update_bounded h t2 ip _ _ st2 out2 tbl1 out hp ?_ ht2 hst2
        rw [split_horizon_metric]
        exact effective_metric_no_wrap h entry he

theorem dr_init_bounded (h : host_t) (tbl : List route_t) (hi : dr_init h = some tbl)
    (hne : h.ifs ≠ []) (hh : host_costs_bounded h) : ∀ r ∈ tbl, bounded_cost r := by
  intro r hr
  obtain ⟨i, hlt, h1⟩ := (dr_init_inv h tbl hne hi).2.2 r hr
  rw [h1]
  exact bounded_of_get h i hh hlt

theorem handle_periodic_bounded (h : host_t) (tbl : List route_t)
    (ht : ∀ r ∈ tbl, bounded_cost r) : ∀ r ∈ (safe_dr_handle_periodic h tbl).1, bounded_cost r := by
  unfold safe_dr_handle_periodic
  intro r hr
  exact ht r ((sweep_sublist h _ _ _ tbl).subset hr)

theorem interface_changed_bounded (h : host_t) (tbl : List route_t) (intf : Nat)
    (state_changed cost_changed : Int) (tbl1 : List route_t) (out : List payload_t)
    (hc : safe_dr_interface_changed h tbl intf state_changed cost_changed = some (tbl1, out))
    (hh : host_costs_bounded h) (hi : intf_valid h intf)
    (ht : ∀ r ∈ tbl, bounded_cost r) : ∀ r ∈ tbl1, bounded_cost r := by
  have hb : bounded_cost (new_entry_of_intf h intf) := bounded_of_get h intf hh hi
  unfold safe_dr_interface_changed at hc
  split at hc
  · split at hc
    · split at hc
      · cases hc
      · rename_i t1 happ
        simp only [Option.some.injEq, Prod.mk.injEq] at hc
        rw [← hc.1]
        intro r hr
        rcases mem_append tbl _ _ r happ hr with h5 | h5
        · exact ht r h5
        · exact h5 ▸ hb
    · split at hc
      · cases hc
      · rename_i current rest
        simp only [Option.some.injEq, Prod.mk.injEq] at hc
        rw [← hc.1]
        intro r hr
        exact ht r ((sweep_but_last_sublist h _ _ current rest).subset hr)
  · split at hc
    · split at hc
      · cases hc
      · rename_i t1 happ
        simp only [Option.some.injEq, Prod.mk.injEq] at hc
        rw [sweep_fst] at happ
        rw [← hc.1]
        intro r hr
        rcases mem_append _ _ _ r happ hr with h5 | h5
        · exact ht r (List.mem_filter.mp h5).1
        · exact h5 ▸ hb
    · simp only [Option.some.injEq, Prod.mk.injEq] at hc
      exact hc.1 ▸ ht

theorem exists_out_of_map_fst (o : Option (List route_t × List payload_t)) (t : List route_t)
    (ho : o.map Prod.fst = some t) : ∃ out, o = some (t, out) := by
  cases o with
  | none => cases ho
  | some p =>
    simp only [Option.map_some', Option.some.injEq] at ho
    exact ⟨p.2, by rw [← ho]⟩

theorem host1_costs_bounded : host_costs_bounded host1 := by
  intro t ht
  simp only [host1, List.mem_singleton] at ht
  subst ht
  exact ⟨by decide, by decide⟩

/-- C4 as stated fails, in four ways. An interface of cost 0 gives a record of cost 0 at
`dr_init`, and one of cost 20 a record of cost 20; a received metric of `2^32 - 1` gives a
record of cost 0, the sum wrapping around; `interface_changed` for an index the host
does not have gives a record of cost 0; and on a host with no interface `dr_init` leaves the
never-written record, of cost 0 when the allocated memory is zero. Each happens with the
other inputs inside their bounds. -/
theorem bounded_metric_fails :
    (∃ tbl, reachable any_host any_host metric_no_wrap intf_valid tbl ∧ ∃ r ∈ tbl, r.cost = 0)
      ∧ (∃ tbl, reachable any_host any_host metric_no_wrap intf_valid tbl
          ∧ ∃ r ∈ tbl, r.cost = 20)
      ∧ (∃ tbl, reachable init_host_bounded host_costs_bounded any_entry intf_valid tbl
          ∧ ∃ r ∈ tbl, ¬ (1 ≤ r.cost ∧ r.cost ≤ 16))
      ∧ (∃ tbl, reachable init_host_bounded host_costs_bounded metric_no_wrap any_intf tbl
          ∧ ∃ r ∈ tbl, ¬ (1 ≤ r.cost ∧ r.cost ≤ 16))
      ∧ (∃ tbl, reachable host_costs_bounded host_costs_bounded metric_no_wrap intf_valid tbl
          ∧ ∃ r ∈ tbl, ¬ (1 ≤ r.cost ∧ r.cost ≤ 16)) := by
  have hb1 : host_costs_bounded host1 := host1_costs_bounded
  have hi1 : init_host_bounded host1 := ⟨by decide, host1_costs_bounded⟩
  have hinit : dr_init host1 = some [route_origin] := by decide
  refine ⟨?_, ?_, ?_, ?_, ?_⟩
  · refine ⟨[{ route_origin with cost := 0 }], ?_, _, List.mem_singleton.mpr rfl, rfl⟩
    exact reachable.init host_cost0 _ trivial (by decide)
  · refine ⟨[{ route_origin with cost := 20 }], ?_, _, List.mem_singleton.mpr rfl, rfl⟩
    exact reachable.init host_cost20 _ trivial (by decide)
  · refine ⟨[route_origin, route_neighbor, route_learned 0], ?_, route_learned 0,
      by simp, by decide⟩
    obtain ⟨out, hout⟩ := exists_out_of_map_fst
      (safe_dr_handle_packet host1 [route_origin] 0x0A000002 0 hdr0 adv_metric_max 28)
      [route_origin, route_neighbor, route_learned 0] (by decide)
    exact reachable.packet host1 [route_origin] 0x0A000002 0 hdr0 adv_metric_max 28 _ out
      (reachable.init host1 _ hi1 hinit) hb1 trivial hout
  · refine ⟨[route_origin, route_zero 5], ?_, route_zero 5, by simp, by decide⟩
    obtain ⟨out, hout⟩ := exists_out_of_map_fst
      (safe_dr_interface_changed host1 [route_origin] 5 0 1)
      [route_origin, route_zero 5] (by decide)
    exact reachable.changed host1 [route_origin] 5 0 1 _ out
      (reachable.init host1 _ hi1 hinit) hb1 trivial hout
  · refine ⟨[zero_route], ?_, zero_route, List.mem_singleton.mpr rfl, by decide⟩
    refine reachable.init host_none _ ?_ (by decide)
    intro t ht
    simp [host_none] at ht

/-- C4, amended: when the host has at least one interface at `dr_init`, every interface cost
the host reports lies in [1, 16], every received metric `m` satisfies `m + 16 < 2^32`, and
`interface_changed` is called for interface indices the host has, every record of every
table reachable from `dr_init` by calls of `handle_packet`, `handle_periodic` and
`interface_changed` has `1 ≤ cost ≤ 16`. -/
theorem bounded_metric_invariant (tbl : List route_t)
    (hr : reachable init_host_bounded host_costs_bounded metric_no_wrap intf_valid tbl) :
    ∀ r ∈ tbl, 1 ≤ r.cost ∧ r.cost ≤ 16 := by
  induction hr with
  | init h tbl hh hi => exact dr_init_bounded h tbl hi hh.1 hh.2
  | packet h tbl ip intf header entry len tbl1 out _ hh he hp ih =>
    exact handle_packet_bounded h tbl ip intf header entry len tbl1 out hp hh he ih
  | periodic h tbl _ _ ih => exact handle_periodic_bounded h tbl ih
  | changed h tbl intf sc cc tbl1 out _ hh hi hc ih =>
    exact interface_changed_bounded h tbl intf sc cc tbl1 out hc hh hi ih

/-- C4 amended, at the table reached from `dr_init` on a host with one interface of cost 1
by an advertisement with metric 1 from the neighbor 10.0.0.2. -/
theorem bounded_metric_invariant_witness :
    reachable init_host_bounded host_costs_bounded metric_no_wrap intf_valid
        [route_origin, route_neighbor, route_learned 2]
      ∧ ∀ r ∈ [route_origin, route_neighbor, route_learned 2], 1 ≤ r.cost ∧ r.cost ≤ 16 := by
  have hreach : reachable init_host_bounded host_costs_bounded metric_no_wrap intf_valid
      [route_origin, route_neighbor, route_learned 2] := by
    obtain ⟨out, hout⟩ := exists_out_of_map_fst
      (safe_dr_handle_packet host1 [route_origin] 0x0A000002 0 hdr0 adv_metric1 28)
      [route_origin, route_neighbor, route_learned 2] (by decide)
    exact reachable.packet host1 [route_origin] 0x0A000002 0 hdr0 adv_metric1 28 _ out
      (reachable.init host1 _ ⟨by decide, host1_costs_bounded⟩ (by decide))
      host1_costs_bounded (by decide) hout
  exact ⟨hreach, bounded_metric_invariant _ hreach⟩

/-- C3, at the table `dr_init` builds on a host with one interface and the advertisement of
10.0.2.0/24 by the neighbor 10.0.0.2, which inserts two records. -/
theorem uniqueness_invariant_witness :
    unique_subnets [route_origin]
      ∧ (safe_dr_handle_packet host1 [route_origin] 0x0A000002 0 hdr0 adv_metric1 28).map
          Prod.fst = some [route_origin, route_neighbor, route_learned 2]
      ∧ unique_subnets [route_origin, route_neighbor, route_learned 2] := by
  obtain ⟨out, hout⟩ := exists_out_of_map_fst
    (safe_dr_handle_packet host1 [route_origin] 0x0A000002 0 hdr0 adv_metric1 28)
    [route_origin, route_neighbor, route_learned 2] (by decide)
  exact ⟨by decide, by decide,
    uniqueness_invariant.2.1 host1 [route_origin] 0x0A000002 0 hdr0 adv_metric1 28 _ out
      (by decide) hout⟩

/-! ## The advertisement path of `safe_dr_handle_packet` in closed form -/

/-- A walk that meets no dead dependency refreshes the table and leaves `walk_locals`. -/
theorem walk_eq_done (h : host_t) (ip v m : Nat) (tbl : List route_t)
    (hno : ∀ r ∈ tbl, ¬ dead ip v m r) :
    walk h ip v m [] tbl locals_init
      = .done (tbl.map (refresh h ip v)) (walk_locals h ip v tbl) := by
  obtain ⟨st1, hw⟩ := walk_alive h ip v m tbl [] locals_init hno
  obtain ⟨h1, h2, h3, h4, h5⟩ := walk_done_locals h ip v m tbl [] locals_init _ st1 hw
  rw [hw, List.nil_append]
  congr 1
  cases st1
  simp only at h1 h2 h3 h4 h5
  simp only [walk_locals, locals_t.mk.injEq]
  refine ⟨?_, ?_, ?_, ?_, ?_⟩
  · rw [h2]; cases last_route ip tbl <;> rfl
  · rw [h4]; cases last_pos v tbl <;> rfl
  · rw [h3]; cases last_route ip tbl <;> rfl
  · rw [h1]; cases last_route ip tbl <;> rfl
  · rw [h5]; cases last_pos v tbl <;> simp [locals_init]

/-- The advertisement path: not a notice, and no record is a dead dependency. -/
theorem handle_packet_alive (h : host_t) (tbl : List route_t) (ip intf : Nat)
    (header : rip_header_t) (entry : rip_entry_t) (len : Nat)
    (hnotice : entry.ip ≠ entry.next_hop)
    (hno : ∀ r ∈ tbl, ¬ dead ip entry.ip (effective_metric h entry) r) :
    safe_dr_handle_packet h tbl ip intf header entry len
      = match synthesize h (tbl.map (refresh h ip entry.ip)) ip (v_same_as_here h entry.ip)
          (walk_locals h ip entry.ip tbl) with
        | none => none
        | some (tbl2, out, st1) =>
          update h tbl2 ip { entry with metric := effective_metric h entry }
            (v_same_as_here h entry.ip) st1 out := by
  unfold safe_dr_handle_packet
  simp only [split_horizon_ip, split_horizon_next_hop, if_neg hnotice, split_horizon_metric]
  rw [walk_eq_done h ip entry.ip (effective_metric h entry) tbl hno]
  simp only [split_horizon_eq]

theorem last_pos_none_of (s : Nat) (tbl : List route_t) (hno : ∀ r ∈ tbl, r.subnet ≠ s) :
    last_pos s tbl = none :=
  (last_pos_none s tbl).mpr ((last_route_none s tbl).mpr hno)

theorem v_same_as_here_false (h : host_t) (v : Nat) (hlocal : ∀ t ∈ h.ifs, t.ip ≠ v) :
    v_same_as_here h v = false := by
  cases hs : v_same_as_here h v with
  | false => rfl
  | true =>
    obtain ⟨t, ht, hp⟩ := (v_same_as_here_iff h v).mp hs
    exact absurd hp (hlocal t ht)

/-- The datagrams `broadcast_single_entry` sends for a record that is not marked garbage. -/
theorem broadcast_single_entry_eq (h : host_t) (r : route_t) (hg : r.is_garbage ≠ 1) :
    broadcast_single_entry h r
      = (enabled_intfs h).map fun i =>
          dr_send_payload h i
            { addr_family := 1, pad := 0, ip := r.subnet, subnet_mask := r.mask,
              next_hop := r.next_hop_ip, metric := r.cost, learned_from := r.learned_from } := by
  unfold broadcast_single_entry
  rw [broadcast_eq]
  simp [entry_of_route, hg, IPV4_ADDR_FAM]

/-! ## New destinations -/

/-- C7, amended: for an advertisement that is not a notice, for a destination `v` without a
record and not a local IP, from a sender with the record `here_u` (the last record with the
sender as subnet) and with `u_intf` the highest enabled interface on the subnet of the
sender, when `here_u.cost` plus the effective metric (the received metric, or 16 under
rule A) is at most 15, the call returns the table with the sender records refreshed and the
new record for `v` appended, and sends that record once on every enabled interface. -/
theorem new_destination_inserted (h : host_t) (tbl : List route_t) (ip intf : Nat)
    (header : rip_header_t) (entry : rip_entry_t) (len : Nat)
    (front back : List route_t) (here_u : route_t) (u_intf : Nat)
    (hnotice : entry.ip ≠ entry.next_hop)
    (hnov : ∀ r ∈ tbl, r.subnet ≠ entry.ip)
    (hlocal : ∀ t ∈ h.ifs, t.ip ≠ entry.ip)
    (htbl : tbl = front ++ here_u :: back) (hu : here_u.subnet = ip)
    (hback : ∀ r ∈ back, r.subnet ≠ ip)
    (hintf : u_intf < h.ifs.length) (hon : on_subnet h ip u_intf)
    (hlast : ∀ j, u_intf < j → j < h.ifs.length → ¬ on_subnet h ip j)
    (hsum : here_u.cost + effective_metric h entry ≤ 15) :
    safe_dr_handle_packet h tbl ip intf header entry len
      = some
          (tbl.map (refresh h ip entry.ip)
              ++ [{ subnet := entry.ip, mask := entry.subnet_mask, next_hop_ip := ip,
                    outgoing_intf := u_intf, cost := here_u.cost + effective_metric h entry,
                    learned_from := ip, last_updated := h.now, is_garbage := 0 }],
            (enabled_intfs h).map fun i =>
              dr_send_payload h i
                { addr_family := 1, pad := 0, ip := entry.ip, subnet_mask := entry.subnet_mask,
                  next_hop := ip, metric := here_u.cost + effective_metric h entry,
                  learned_from := ip }) := by
  have hno : ∀ r ∈ tbl, ¬ dead ip entry.ip (effective_metric h entry) r :=
    fun r hr hd => hnov r hr hd.1
  have hlr : last_route ip tbl = some here_u := by
    rw [htbl]; exact last_route_split ip front here_u back hu hback
  have hlp : last_pos entry.ip tbl = none := last_pos_none_of entry.ip tbl hnov
  have hsi : search_intf h ip none = some u_intf :=
    search_intf_last h ip none u_intf hon hintf hlast
  have hsame : v_same_as_here h entry.ip = false := v_same_as_here_false h entry.ip hlocal
  have hmod : (here_u.cost + effective_metric h entry) % UINT32
      = here_u.cost + effective_metric h entry := by
    apply Nat.mod_eq_of_lt
    unfold UINT32
    omega
  have hne : tbl.map (refresh h ip entry.ip) ≠ [] := by
    rw [htbl]; simp
  have hnew : ∀ x ∈ tbl.map (refresh h ip entry.ip), x.subnet ≠ entry.ip := by
    intro x hx
    obtain ⟨y, hy, rfl⟩ := List.mem_map.mp hx
    rw [refresh_subnet]
    exact hnov y hy
  rw [handle_packet_alive h tbl ip intf header entry len hnotice hno]
  simp only [walk_locals, hlr, hlp, hsi, hsame, synthesize, update, new_here_v, hmod,
    Option.isSome_some, Option.isSome_none, Option.map_some', if_true, Bool.not_eq_true,
    not_true_eq_false, false_and, if_false, Bool.false_eq_true, not_false_eq_true, ne_eq,
    reduceCtorEq, and_self, hsum]
  rw [append_of_new _ _ hne hnew]
  simp only [List.nil_append]
  rw [broadcast_single_entry_eq h _ (by simp)]

/-! ## Split horizon with poison reverse -/

theorem routes_to_append (v : Nat) (a b : List route_t) :
    routes_to v (a ++ b) = routes_to v a ++ routes_to v b := by
  simp [routes_to]

theorem routes_to_refresh (h : host_t) (ip v w : Nat) (l : List route_t) :
    routes_to w (l.map (refresh h ip v)) = routes_to w l := by
  induction l with
  | nil => rfl
  | cons r l ih =>
    have hu : untimed (refresh h ip v r) = untimed r := by
      rcases refresh_cases h ip v r with h1 | h1 <;> rw [h1]; rfl
    unfold routes_to at ih ⊢
    by_cases hr : r.subnet = w
    · simp only [List.map_cons, List.filter_cons, refresh_subnet, hr, decide_True, if_true, hu]
      rw [ih]
    · simp only [List.map_cons, List.filter_cons, refresh_subnet, hr, decide_False]
      exact ih

theorem routes_to_sublist (v : Nat) (a b : List route_t) (hs : a.Sublist b) :
    (routes_to v a).Sublist (routes_to v b) :=
  List.Sublist.map _ (List.Sublist.filter _ hs)

theorem routes_to_append_from (v : Nat) (c e : route_t) (rest : List route_t)
    (he : e.subnet ≠ v) :
    routes_to v (append_from c e rest) = routes_to v (c :: rest) := by
  induction rest generalizing c with
  | nil =>
    by_cases hc : c.subnet = e.subnet
    · have hcv : c.subnet ≠ v := hc ▸ he
      simp [append_from, hc, routes_to, overwrite, he]
    · simp [append_from, hc, routes_to, List.filter_cons, he]
  | cons n rest ih =>
    by_cases hc : c.subnet = e.subnet
    · have hcv : c.subnet ≠ v := hc ▸ he
      simp [append_from, hc, routes_to, overwrite, he]
    · have h1 := ih n
      unfold routes_to at h1 ⊢
      simp only [append_from, if_neg hc, List.filter_cons]
      split
      · simp only [List.map_cons, h1, List.filter_cons]
      · simp only [h1, List.filter_cons]

theorem routes_to_append_some (v : Nat) (tbl tbl1 : List route_t) (e : route_t)
    (ha : append tbl e = some tbl1) (he : e.subnet ≠ v) :
    routes_to v tbl1 = routes_to v tbl := by
  obtain ⟨c, rest, rfl, rfl⟩ := append_some_inv tbl tbl1 e ha
  exact routes_to_append_from v c e rest he

/-- With metric 16, no cost above 16 in the table, and no wrap of `here_u.cost + 16`, lines
356-388 change nothing and send nothing. -/
theorem update_poisoned (h : host_t) (t : List route_t) (ip : Nat) (received : rip_entry_t)
    (same : Bool) (st : locals_t) (out : List payload_t) (t3 : List route_t)
    (out3 : List payload_t)
    (hu : update h t ip received same st out = some (t3, out3))
    (hm : received.metric = 16)
    (ht : ∀ r ∈ t, r.cost ≤ 16)
    (hst : ∀ x, st.here_u = some x → x.cost + 16 < UINT32) :
    t3 = t ∧ out3 = out := by
  have hsum : ∀ x : route_t, x.cost + 16 < UINT32 →
      (x.cost + received.metric) % UINT32 = x.cost + 16 := by
    intro x hx
    rw [hm]
    exact Nat.mod_eq_of_lt hx
  unfold update at hu
  split at hu
  · split at hu
    · rename_i here_u idx hhu _
      have hb := hsum here_u (hst here_u hhu)
      split at hu
      · rename_i hle
        simp only [new_here_v, hb] at hle
        omega
      · simp only [Option.some.injEq, Prod.mk.injEq] at hu
        exact ⟨hu.1.symm, hu.2.symm⟩
    · cases hu
  · split at hu
    · split at hu
      · rename_i here_u idx pos hhu _ _
        have hb := hsum here_u (hst here_u hhu)
        split at hu
        · rename_i hv hget
          have hvb : hv.cost ≤ 16 := ht hv (List.getElem?_mem hget)
          split at hu
          · rename_i hgt
            rw [hb] at hgt
            omega
          · simp only [Option.some.injEq, Prod.mk.injEq] at hu
            exact ⟨hu.1.symm, hu.2.symm⟩
        · cases hu
      · cases hu
    · simp only [Option.some.injEq, Prod.mk.injEq] at hu
      exact ⟨hu.1.symm, hu.2.symm⟩

theorem synthesize_poisoned (h : host_t) (t : List route_t) (ip v : Nat) (same : Bool)
    (st : locals_t) (t2 : List route_t) (out : List payload_t) (st2 : locals_t)
    (hs : synthesize h t ip same st = some (t2, out, st2))
    (hne : ip ≠ v)
    (hifc : ∀ x ∈ h.ifs, x.cost + 16 < UINT32)
    (ht : ∀ r ∈ t, r.cost ≤ 16)
    (hst : ∀ x, st.here_u = some x → x.cost + 16 < UINT32) :
    routes_to v t2 = routes_to v t ∧ (∀ r ∈ t2, r.cost ≤ 16)
      ∧ (∀ x, st2.here_u = some x → x.cost + 16 < UINT32) := by
  unfold synthesize at hs
  split at hs
  · split at hs
    · simp only [Option.some.injEq, Prod.mk.injEq] at hs
      obtain ⟨h1, _, h3⟩ := hs
      subst h1; subst h3
      exact ⟨rfl, ht, hst⟩
    · rename_i i hfind
      have hi : i < h.ifs.length := List.mem_range.mp (List.mem_of_find?_eq_some hfind)
      have hb : (new_here_u h ip i).cost + 16 < UINT32 := hifc _ (getD_mem_of_lt h i hi)
      split at hs
      · rename_i hle
        split at hs
        · cases hs
        · rename_i tbl1 happ
          simp only [Option.some.injEq, Prod.mk.injEq] at hs
          obtain ⟨h1, _, h3⟩ := hs
          subst h1; subst h3
          refine ⟨routes_to_append_some v t _ _ happ hne, ?_, ?_⟩
          · intro r hr
            rcases mem_append t _ _ r happ hr with h5 | h5
            · exact ht r h5
            · subst h5; omega
          · intro x hx
            simp only [Option.some.injEq] at hx
            exact hx ▸ hb
      · simp only [Option.some.injEq, Prod.mk.injEq] at hs
        obtain ⟨h1, _, h3⟩ := hs
        subst h1; subst h3
        refine ⟨rfl, ht, ?_⟩
        intro x hx
        simp only [Option.some.injEq] at hx
        exact hx ▸ hb
  · simp only [Option.some.injEq, Prod.mk.injEq] at hs
    obtain ⟨h1, _, h3⟩ := hs
    subst h1; subst h3
    exact ⟨rfl, ht, hst⟩

theorem effective_metric_local (h : host_t) (e : rip_entry_t)
    (hl : ∃ t ∈ h.ifs, t.ip = e.learned_from) : effective_metric h e = 16 := by
  unfold effective_metric
  rw [if_pos hl]; rfl

/-- C5, amended: for a table with costs in [1, 16] and a datagram whose `learned_from` is
the IP of a local interface, sent by another address than `entry.ip`, on a host whose
interface costs `c` satisfy `c + 16 < 2^32`, the records for `entry.ip` after `handle_packet`
are, timestamps set aside, records for `entry.ip` of the table before, in the same order:
none is inserted and none has another cost, next hop, interface, mask or `learned_from`. -/
theorem poison_reverse (h : host_t) (tbl : List route_t) (ip intf : Nat)
    (header : rip_header_t) (entry : rip_entry_t) (len : Nat) (tbl1 : List route_t)
    (out : List payload_t)
    (hcost : ∀ r ∈ tbl, 1 ≤ r.cost ∧ r.cost ≤ 16)
    (hfrom : ∃ t ∈ h.ifs, t.ip = entry.learned_from)
    (hne : ip ≠ entry.ip)
    (hifc : ∀ t ∈ h.ifs, t.cost + 16 < UINT32)
    (hp : safe_dr_handle_packet h tbl ip intf header entry len = some (tbl1, out)) :
    (routes_to entry.ip tbl1).Sublist (routes_to entry.ip tbl) := by
  have hle : ∀ r ∈ tbl, r.cost ≤ 16 := fun r hr => (hcost r hr).2
  unfold safe_dr_handle_packet at hp
  simp only [split_horizon_ip] at hp
  split at hp
  · simp only [Option.some.injEq] at hp
    have h1 := congrArg Prod.fst hp
    simp only at h1
    rw [← h1, sweep_fst]
    exact routes_to_sublist _ _ _ (List.filter_sublist tbl)
  · split at hp
    · rename_i t1 out1 hw
      simp only [Option.some.injEq, Prod.mk.injEq] at hp
      obtain ⟨front, r, back, h1, _, _, h4, _⟩ :=
        walk_returned h ip _ _ tbl [] locals_init t1 out1 hw
      rw [← hp.1, h4, h1, List.nil_append, routes_to_append, routes_to_append,
        routes_to_refresh]
      exact List.Sublist.append (List.Sublist.refl _)
        (routes_to_sublist _ _ _ (List.sublist_cons_self r back))
    · rename_i t1 st hw
      have h1 := walk_done_tbl h ip _ _ tbl [] locals_init t1 st hw
      have hl := (walk_done_locals h ip _ _ tbl [] locals_init t1 st hw).1
      rw [List.nil_append] at h1
      have ht1 : ∀ r ∈ t1, r.cost ≤ 16 := by
        intro r hr
        rw [h1] at hr
        obtain ⟨x, hx, rfl⟩ := List.mem_map.mp hr
        rw [refresh_cost]; exact hle x hx
      have hst : ∀ x, st.here_u = some x → x.cost + 16 < UINT32 := by
        intro x hx
        rw [hl] at hx
        cases hlr : last_route ip tbl with
        | none => rw [hlr] at hx; simp [locals_init] at hx
        | some y =>
          rw [hlr] at hx
          simp only [Option.some.injEq] at hx
          have hy := hle y (last_route_mem ip tbl y hlr).1
          subst hx
          simp only [UINT32]
          omega
      split at hp
      · cases hp
      · rename_i t2 out2 st2 hs
        obtain ⟨hr2, ht2, hst2⟩ :=
          synthesize_poisoned h t1 ip entry.ip _ st t2 out2 st2 hs hne hifc ht1 hst
        have hm : (split_horizon h entry).metric = 16 := by
          rw [split_horizon_metric]; exact effective_metric_local h entry hfrom
        obtain ⟨h3, _⟩ := update_poisoned h t2 ip _ _ st2 out2 tbl1 out hp hm ht2 hst2
        rw [h3, hr2, h1, routes_to_refresh]

/-- C5 as stated fails, in two ways. When the sender announces its own address, the record
rule C builds for the sender is a new record for `entry.ip`; and with an interface of cost
`2^32 - 16` the sum `cost + 16` wraps to 0, so the poisoned route is inserted. -/
theorem poison_reverse_fails :
    ((∀ r ∈ [route_origin], 1 ≤ r.cost ∧ r.cost ≤ 16)
        ∧ (∃ t ∈ host1.ifs, t.ip = adv_poisoned_self.learned_from)
        ∧ (∀ r ∈ [route_origin], r.subnet ≠ adv_poisoned_self.ip)
        ∧ (safe_dr_handle_packet host1 [route_origin] 0x0A000002 0 hdr0
              adv_poisoned_self 28).map Prod.fst = some [route_origin, route_neighbor]
        ∧ route_neighbor.subnet = adv_poisoned_self.ip)
      ∧ ((∀ r ∈ [route_origin], 1 ≤ r.cost ∧ r.cost ≤ 16)
        ∧ (∃ t ∈ host_huge.ifs, t.ip = adv_poisoned.learned_from)
        ∧ (∀ r ∈ [route_origin], r.subnet ≠ adv_poisoned.ip)
        ∧ (safe_dr_handle_packet host_huge [route_origin] 0x0A000002 0 hdr0
              adv_poisoned 28).map Prod.fst = some [route_origin, route_learned 0]
        ∧ (route_learned 0).subnet = adv_poisoned.ip) := by
  decide

/-- C5 amended, at a table that holds a route to 10.0.2.0/24 via the sender and the
poisoned advertisement of that destination with metric 1: the route is removed, nothing is
inserted. -/
theorem poison_reverse_witness :
    (safe_dr_handle_packet host1 [route_origin, route_neighbor, route_learned 5] 0x0A000002 0
          hdr0 adv_poisoned 28).map Prod.fst = some [route_origin, route_neighbor]
      ∧ (routes_to adv_poisoned.ip [route_origin, route_neighbor]).Sublist
        (routes_to adv_poisoned.ip [route_origin, route_neighbor, route_learned 5]) := by
  obtain ⟨out, hout⟩ := exists_out_of_map_fst
    (safe_dr_handle_packet host1 [route_origin, route_neighbor, route_learned 5] 0x0A000002 0
      hdr0 adv_poisoned 28)
    [route_origin, route_neighbor] (by decide)
  exact ⟨by decide,
    poison_reverse host1 [route_origin, route_neighbor, route_learned 5] 0x0A000002 0 hdr0
      adv_poisoned 28 _ out (by decide) (by decide) (by decide) (by decide) hout⟩

/-- C7 as stated fails, in two ways. The advertisement carries metric 1 and the sender has
a record of cost 1, but `learned_from` is a local address, rule A makes the metric 16, and
no record for the destination is inserted. And on a host with two enabled interfaces on the
subnet of the sender, interface 0 matches, but the inserted record has interface 1. -/
theorem new_destination_poisoned :
    (adv_poisoned.ip ≠ adv_poisoned.next_hop
        ∧ (∀ r ∈ [route_origin, route_neighbor], r.subnet ≠ adv_poisoned.ip)
        ∧ (∀ t ∈ host1.ifs, t.ip ≠ adv_poisoned.ip)
        ∧ route_neighbor.subnet = 0x0A000002
        ∧ on_subnet host1 0x0A000002 0
        ∧ route_neighbor.cost + adv_poisoned.metric ≤ 15
        ∧ safe_dr_handle_packet host1 [route_origin, route_neighbor] 0x0A000002 0 hdr0
            adv_poisoned 28 = some ([route_origin, route_neighbor], []))
      ∧ (on_subnet host_two 0x0A000002 0
        ∧ route_neighbor.cost + adv_metric1.metric ≤ 15
        ∧ (safe_dr_handle_packet host_two [route_origin, route_neighbor] 0x0A000002 0 hdr0
              adv_metric1 28).map Prod.fst
          = some [route_origin, route_neighbor,
              { route_learned 2 with outgoing_intf := 1 }]) := by
  decide

/-- C7 amended, at the advertisement of 10.0.2.0/24 with metric 1 by the neighbor 10.0.0.2,
whose record has cost 1: the record with cost 2 is appended and sent on interface 0. -/
theorem new_destination_inserted_witness :
    safe_dr_handle_packet host1 [route_origin, route_neighbor] 0x0A000002 0 hdr0
        adv_metric1 28
      = some ([route_origin, route_neighbor, route_learned 2],
          [dr_send_payload host1 0
            { addr_family := 1, pad := 0, ip := 0x0A000200, subnet_mask := 0xFFFFFF00,
              next_hop := 0x0A000002, metric := 2, learned_from := 0x0A000002 }]) :=
  (new_destination_inserted host1 [route_origin, route_neighbor] 0x0A000002 0 hdr0
    adv_metric1 28 [route_origin] [] route_neighbor 0 (by decide) (by decide) (by decide)
    rfl rfl (by decide) (by decide) (by decide)
    (fun j h1 h2 => by simp [host1] at h2; omega) (by decide)).trans (by decide)

/-- C8 fails on the code: with a sender record of cost 1 and the received metric `2^32 - 1`
the integer sum exceeds 15, but the 32-bit sum is 0 and the destination is inserted with
cost 0. -/
theorem unreachable_total_wraps :
    15 < route_neighbor.cost + adv_metric_max.metric
      ∧ (∀ r ∈ [route_origin, route_neighbor], r.subnet ≠ adv_metric_max.ip)
      ∧ (safe_dr_handle_packet host1 [route_origin, route_neighbor] 0x0A000002 0 hdr0
            adv_metric_max 28).map Prod.fst
          = some [route_origin, route_neighbor, route_learned 0] := by
  decide

/-! ## Bellman-Ford relaxation -/

theorem getElem?_split (front : List route_t) (x : route_t) (back : List route_t) :
    (front ++ x :: back)[front.length]? = some x := by
  induction front with
  | nil => simp
  | cons a front ih => simpa using ih

theorem set_split (front : List route_t) (x y : route_t) (back : List route_t) :
    (front ++ x :: back).set front.length y = front ++ y :: back := by
  induction front with
  | nil => rfl
  | cons a front ih => simp [ih]

theorem refresh_of_subnet (h : host_t) (ip v : Nat) (r : route_t) (hr : r.subnet = v) :
    refresh h ip v r = { r with last_updated := h.now } := by
  unfold refresh
  rw [if_pos (Or.inr hr)]

/-- C6, amended: for an advertisement that is not a notice, for a destination `v` that is
not a local IP, with `here_u` the last record for the sender, `u_intf` the highest enabled
interface on the subnet of the sender, `here_v` the last record for `v`, no record for `v`
to which rule D applies, `metric` the effective metric (the received metric, or 16 under
rule A) and `here_u.cost + metric < 2^32`: when `here_v.cost > here_u.cost + metric` the
record `here_v` gets that sum as cost, next hop and `learned_from` the sender, interface
`u_intf` and the mask of `here_u`, and is broadcast; otherwise the table only has its
timestamps refreshed and nothing is sent. -/
theorem relaxation (h : host_t) (tbl : List route_t) (ip intf : Nat)
    (header : rip_header_t) (entry : rip_entry_t) (len : Nat)
    (fu bu fv bv : List route_t) (here_u here_v : route_t) (u_intf : Nat)
    (hnotice : entry.ip ≠ entry.next_hop)
    (hlocal : ∀ t ∈ h.ifs, t.ip ≠ entry.ip)
    (htu : tbl = fu ++ here_u :: bu) (hu : here_u.subnet = ip)
    (hbu : ∀ r ∈ bu, r.subnet ≠ ip)
    (htv : tbl = fv ++ here_v :: bv) (hv : here_v.subnet = entry.ip)
    (hbv : ∀ r ∈ bv, r.subnet ≠ entry.ip)
    (hintf : u_intf < h.ifs.length) (hon : on_subnet h ip u_intf)
    (hlast : ∀ j, u_intf < j → j < h.ifs.length → ¬ on_subnet h ip j)
    (hruleD : ∀ r ∈ tbl,
      ¬ (r.subnet = entry.ip ∧ r.next_hop_ip = ip ∧ effective_metric h entry > 15))
    (hnowrap : here_u.cost + effective_metric h entry < UINT32) :
    safe_dr_handle_packet h tbl ip intf header entry len
      = some
          (if here_v.cost > here_u.cost + effective_metric h entry then
            (fv.map (refresh h ip entry.ip)
                ++ { here_v with
                      cost := here_u.cost + effective_metric h entry
                      outgoing_intf := u_intf
                      next_hop_ip := ip
                      mask := here_u.mask
                      learned_from := ip
                      last_updated := h.now }
                  :: bv.map (refresh h ip entry.ip),
              broadcast_single_entry h
                { here_v with
                  cost := here_u.cost + effective_metric h entry
                  outgoing_intf := u_intf
                  next_hop_ip := ip
                  mask := here_u.mask
                  learned_from := ip
                  last_updated := h.now })
          else (tbl.map (refresh h ip entry.ip), [])) := by
  have hlr : last_route ip tbl = some here_u := by
    rw [htu]; exact last_route_split ip fu here_u bu hu hbu
  have hlp : last_pos entry.ip tbl = some fv.length := by
    rw [htv]; exact last_pos_split entry.ip fv here_v bv hv hbv
  have hsi : search_intf h ip none = some u_intf :=
    search_intf_last h ip none u_intf hon hintf hlast
  have hsame : v_same_as_here h entry.ip = false := v_same_as_here_false h entry.ip hlocal
  have hmod : (here_u.cost + effective_metric h entry) % UINT32
      = here_u.cost + effective_metric h entry := Nat.mod_eq_of_lt hnowrap
  have hget : (tbl.map (refresh h ip entry.ip))[fv.length]?
      = some { here_v with last_updated := h.now } := by
    rw [htv, List.map_append, List.map_cons, refresh_of_subnet h ip entry.ip here_v hv]
    have := getElem?_split (fv.map (refresh h ip entry.ip)) { here_v with last_updated := h.now }
      (bv.map (refresh h ip entry.ip))
    simpa using this
  have hset : ∀ y : route_t, (tbl.map (refresh h ip entry.ip)).set fv.length y
      = fv.map (refresh h ip entry.ip) ++ y :: bv.map (refresh h ip entry.ip) := by
    intro y
    rw [htv, List.map_append, List.map_cons]
    have := set_split (fv.map (refresh h ip entry.ip)) (refresh h ip entry.ip here_v) y
      (bv.map (refresh h ip entry.ip))
    simp only [List.length_map] at this
    exact this
  rw [handle_packet_alive h tbl ip intf header entry len hnotice hruleD]
  simp only [walk_locals, hlr, hlp, hsi, hsame, synthesize, update, hmod, hget, hset, hu,
    relax, Option.isSome_some, Option.map_some', if_true, Bool.not_eq_true,
    not_true_eq_false, false_and, if_false, Bool.false_eq_true, not_false_eq_true, ne_eq,
    reduceCtorEq, and_self, true_and, and_true, List.nil_append, gt_iff_lt]
  split <;> rfl

/-- C6 as stated fails, in two ways. With `learned_from` a local address the received
metric 1 is replaced by 16, and the record of cost 5 is not relaxed although 5 > 1 + 1; and
with the received metric `2^32 - 1` the 32-bit sum `1 + metric` is 0, and the record of
cost 5 is relaxed to cost 0 although 5 is not greater than the integer sum. -/
theorem relaxation_fails :
    (adv_poisoned.ip ≠ adv_poisoned.next_hop
        ∧ (∀ t ∈ host1.ifs, t.ip ≠ adv_poisoned.ip)
        ∧ on_subnet host1 0x0A000002 0
        ∧ ¬ (route_other5.next_hop_ip = 0x0A000002)
        ∧ route_other5.cost > route_neighbor.cost + adv_poisoned.metric
        ∧ safe_dr_handle_packet host1 [route_origin, route_neighbor, route_other5]
            0x0A000002 0 hdr0 adv_poisoned 28
          = some ([route_origin, route_neighbor, route_other5], []))
      ∧ (adv_metric_max.ip ≠ adv_metric_max.next_hop
        ∧ (∀ t ∈ host1.ifs, t.ip ≠ adv_metric_max.ip)
        ∧ ¬ (route_other5.cost > route_neighbor.cost + adv_metric_max.metric)
        ∧ (safe_dr_handle_packet host1 [route_origin, route_neighbor, route_other5]
              0x0A000002 0 hdr0 adv_metric_max 28).map Prod.fst
          = some [route_origin, route_neighbor, route_learned 0]) := by
  decide

/-- C6 amended, at a table with a route to 10.0.2.0/24 of cost 5 via 10.0.0.3 and the
advertisement of that destination with metric 1 by the neighbor 10.0.0.2, whose record has
cost 1: the route is replaced by one of cost 2 via 10.0.0.2. -/
theorem relaxation_witness :
    safe_dr_handle_packet host1 [route_origin, route_neighbor, route_other5] 0x0A000002 0
        hdr0 adv_metric1 28
      = some ([route_origin, route_neighbor, route_learned 2],
          [dr_send_payload host1 0
            { addr_family := 1, pad := 0, ip := 0x0A000200, subnet_mask := 0xFFFFFF00,
              next_hop := 0x0A000002, metric := 2, learned_from := 0x0A000002 }]) :=
  (relaxation host1 [route_origin, route_neighbor, route_other5] 0x0A000002 0 hdr0
    adv_metric1 28 [route_origin] [route_other5] [route_origin, route_neighbor] []
    route_neighbor route_other5 0 (by decide) (by decide) rfl rfl (by decide) rfl rfl
    (by decide) (by decide) (by decide)
    (fun j h1 h2 => by simp [host1] at h2; omega) (by decide) (by decide)).trans (by decide)

/-- The guard of line 367 without wrap: for an advertisement that is not a notice, for a
destination without a record, from a sender whose last record is `here_u`, when the sum of
`here_u.cost` and the effective metric exceeds 15 and stays below `2^32`, the table only has
the timestamps of the sender records refreshed and nothing is sent. -/
theorem unreachable_total_dropped (h : host_t) (tbl : List route_t) (ip intf : Nat)
    (header : rip_header_t) (entry : rip_entry_t) (len : Nat)
    (front back : List route_t) (here_u : route_t)
    (hnotice : entry.ip ≠ entry.next_hop)
    (hnov : ∀ r ∈ tbl, r.subnet ≠ entry.ip)
    (htbl : tbl = front ++ here_u :: back) (hu : here_u.subnet = ip)
    (hback : ∀ r ∈ back, r.subnet ≠ ip)
    (hsum : 15 < here_u.cost + effective_metric h entry)
    (hnowrap : here_u.cost + effective_metric h entry < UINT32) :
    safe_dr_handle_packet h tbl ip intf header entry len
      = some (tbl.map (refresh h ip entry.ip), []) := by
  have hno : ∀ r ∈ tbl, ¬ dead ip entry.ip (effective_metric h entry) r :=
    fun r hr hd => hnov r hr hd.1
  have hlr : last_route ip tbl = some here_u := by
    rw [htbl]; exact last_route_split ip front here_u back hu hback
  have hlp : last_pos entry.ip tbl = none := last_pos_none_of entry.ip tbl hnov
  have hmod : (here_u.cost + effective_metric h entry) % UINT32
      = here_u.cost + effective_metric h entry := Nat.mod_eq_of_lt hnowrap
  have hgt : ¬ (here_u.cost + effective_metric h entry ≤ 15) := by omega
  rw [handle_packet_alive h tbl ip intf header entry len hnotice hno]
  cases hsi : search_intf h ip none with
  | none =>
    simp only [walk_locals, hlr, hlp, hsi, synthesize, update, Option.isSome_some,
      Option.isSome_none, Option.map_some', if_true, Bool.not_eq_true, not_true_eq_false,
      false_and, if_false, Bool.false_eq_true, not_false_eq_true, ne_eq, and_false, and_self]
  | some idx =>
    cases hsame : v_same_as_here h entry.ip <;>
      simp only [walk_locals, hlr, hlp, hsi, hsame, synthesize, update, new_here_v, hmod, hgt,
        Option.isSome_some, Option.isSome_none, Option.map_some', if_true, Bool.not_eq_true,
        not_true_eq_false, false_and, if_false, Bool.false_eq_true, not_false_eq_true, ne_eq,
        reduceCtorEq, and_self, and_false, true_and, and_true]

/-! ## Dead dependencies -/

/-- The walk over a table split at its first dead dependency: the records before it are
refreshed, the record is removed and broadcast as garbage, the records behind it are left. -/
theorem walk_split_dead (h : host_t) (ip v m : Nat) (front : List route_t) (r : route_t)
    (back visited : List route_t) (st : locals_t)
    (hfront : ∀ x ∈ front, ¬ dead ip v m x) (hd : dead ip v m r) :
    walk h ip v m visited (front ++ r :: back) st
      = .returned (visited ++ front.map (refresh h ip v) ++ back)
          (broadcast_single_entry h { r with last_updated := h.now, is_garbage := 1 }) := by
  induction front generalizing visited st with
  | nil =>
    rw [List.nil_append, walk_cons_dead h ip v m visited back st r hd]
    simp
  | cons x front ih =>
    rw [List.cons_append,
      walk_cons_alive h ip v m visited _ st x (hfront x (List.mem_cons_self x front)),
      ih _ _ (fun y hy => hfront y (List.mem_cons_of_mem x hy))]
    simp

/-- The datagrams `broadcast_single_entry` sends for a record marked garbage. -/
theorem broadcast_garbage_eq (h : host_t) (r : route_t) (hg : r.is_garbage = 1) :
    broadcast_single_entry h r
      = (enabled_intfs h).map fun i =>
          dr_send_payload h i
            { addr_family := 1, pad := 0, ip := r.subnet, subnet_mask := r.mask,
              next_hop := r.next_hop_ip, metric := 16, learned_from := r.learned_from } := by
  unfold broadcast_single_entry
  rw [broadcast_eq]
  simp [entry_of_route, hg, IPV4_ADDR_FAM, INFINITY]

theorem untimed_refresh (h : host_t) (ip v : Nat) (r : route_t) :
    untimed (refresh h ip v r) = untimed r := by
  rcases refresh_cases h ip v r with h1 | h1 <;> rw [h1]; rfl

theorem map_untimed_refresh (h : host_t) (ip v : Nat) (l : List route_t) :
    (l.map (refresh h ip v)).map untimed = l.map untimed := by
  rw [List.map_map]
  exact List.map_congr_left (fun r _ => untimed_refresh h ip v r)

/-! ## Triggered updates -/

theorem enabled_intfs_ne_nil (h : host_t) (hen : ∃ t ∈ h.ifs, t.enabled ≠ 0) :
    enabled_intfs h ≠ [] := by
  obtain ⟨t, ht, he⟩ := hen
  obtain ⟨i, hi, hget⟩ := exists_index_of_mem h t ht
  have hmem : i ∈ enabled_intfs h := by
    unfold enabled_intfs dr_interface_count
    rw [List.mem_filter]
    exact ⟨List.mem_range.mpr hi, by rw [hget]; simpa using he⟩
  exact List.ne_nil_of_mem hmem

/-- With an enabled interface every broadcast sends at least one datagram. -/
theorem broadcast_ne_nil (h : host_t) (e : rip_entry_t) (hen : ∃ t ∈ h.ifs, t.enabled ≠ 0) :
    broadcast h e ≠ [] := by
  rw [broadcast_eq]
  intro hnil
  exact enabled_intfs_ne_nil h hen (List.map_eq_nil_iff.mp hnil)

/-! ## The result of a notice, and the dead dependency -/

/-- C10 as stated fails: on a host whose only interface is disabled, the notice for 10.0.0.2
removes the record whose next hop is 10.0.0.2, and no datagram is sent: neither the removed
record nor a notice. -/
theorem notice_sends_nothing :
    notice_u.ip = notice_u.next_hop
      ∧ safe_dr_handle_packet host_off [route_via_u, route_net24] 0x0A000002 0 hdr0 notice_u 28
        = some ([route_net24], []) := by
  decide

/-- C10, amended: on a host with at least one enabled interface, for a datagram with
`entry.ip == entry.next_hop == v` the call returns; the new table is the old one without the
records whose next hop or subnet is `v`, the others kept in order and unchanged; and the
datagrams sent are, for every removed record in table order, the record with metric 16 on
every enabled interface followed by the notice for `v` on every enabled interface, of which
there is at least one. The fields of a notice that the code never writes hold what the
memory allocated for that notice held. -/
theorem notice_result (h : host_t) (tbl : List route_t) (ip intf : Nat)
    (header : rip_header_t) (entry : rip_entry_t) (len : Nat)
    (hen : ∃ t ∈ h.ifs, t.enabled ≠ 0)
    (hnotice : entry.ip = entry.next_hop) :
    safe_dr_handle_packet h tbl ip intf header entry len
        = some
          (tbl.filter (fun r => decide (¬ (r.next_hop_ip = entry.ip ∨ r.subnet = entry.ip))),
            (tbl.enum.filter
                (fun p => decide (p.2.next_hop_ip = entry.ip ∨ p.2.subnet = entry.ip))).flatMap
              fun p =>
                ((enabled_intfs h).map fun i =>
                    dr_send_payload h i
                      { addr_family := 1, pad := 0, ip := p.2.subnet, subnet_mask := p.2.mask,
                        next_hop := p.2.next_hop_ip, metric := 16,
                        learned_from := p.2.learned_from })
                  ++ (enabled_intfs h).map fun i =>
                    dr_send_payload h i
                      { h.uninit p.1 with
                        addr_family := 1, pad := 0, ip := entry.ip, next_hop := entry.ip })
      ∧ enabled_intfs h ≠ [] := by
  refine ⟨?_, enabled_intfs_ne_nil h hen⟩
  rw [handle_packet_notice h tbl ip intf header entry len hnotice]
  have e1 := sweep_fst h (via_or_to entry.ip) (fun current => { current with cost := INFINITY })
    (fun k => broadcast_intf_down h k entry.ip) tbl
  have e2 := sweep_snd_keyed h (fun _ => via_or_to entry.ip)
    (fun current => { current with cost := INFINITY })
    (fun k => broadcast_intf_down h k entry.ip) tbl
  have e3 : ∀ r : route_t,
      broadcast_single_entry h { r with cost := INFINITY }
        = (enabled_intfs h).map fun i =>
            dr_send_payload h i
              { addr_family := 1, pad := 0, ip := r.subnet, subnet_mask := r.mask,
                next_hop := r.next_hop_ip, metric := 16, learned_from := r.learned_from } := by
    intro r
    unfold broadcast_single_entry
    rw [broadcast_eq]
    simp [entry_of_route, INFINITY, IPV4_ADDR_FAM]
  have e4 : ∀ k : Nat, broadcast_intf_down h k entry.ip
      = (enabled_intfs h).map fun i =>
          dr_send_payload h i
            { h.uninit k with
              addr_family := 1, pad := 0, ip := entry.ip, next_hop := entry.ip } := by
    intro k
    unfold broadcast_intf_down
    rw [broadcast_eq]
    rfl
  refine congrArg some (Prod.ext ?_ ?_)
  · rw [e1]
    apply List.filter_congr
    intro r _
    simp [via_or_to]
  · rw [e2]
    simp only [e3, e4]
    rfl

/-- C10 amended, at the notice for 10.0.0.2 and a table holding a route via 10.0.0.2 before
an unrelated route, on a host with one enabled interface: the first record is removed and
sent with metric 16, then the notice is sent, its never-written fields holding what the
memory allocated for it held, and the second record is kept. -/
theorem notice_result_witness :
    (∃ t ∈ host1.ifs, t.enabled ≠ 0)
      ∧ notice_u.ip = notice_u.next_hop
      ∧ safe_dr_handle_packet host1 [route_via_u, route_net24] 0x0A000009 0 hdr0 notice_u 28
        = some ([route_net24],
            [dr_send_payload host1 0
                { addr_family := 1, pad := 0, ip := 0x0A000200, subnet_mask := 0xFFFFFF00,
                  next_hop := 0x0A000002, metric := 16, learned_from := 0x0A000002 },
              dr_send_payload host1 0
                { host1.uninit 0 with
                  addr_family := 1, pad := 0, ip := 0x0A000002, next_hop := 0x0A000002 }]) :=
  ⟨by decide, rfl,
    (notice_result host1 [route_via_u, route_net24] 0x0A000009 0 hdr0 notice_u 28 (by decide)
      rfl).1.trans (by decide)⟩

/-- C11 as stated fails: on a host whose only interface is disabled, the advertisement of
10.0.2.0/24 with metric 16 by 10.0.0.2 removes the record for 10.0.2.0/24 whose next hop is
10.0.0.2, and the removed record is not sent. -/
theorem dead_dependency_sends_nothing :
    unique_subnets [route_origin, route_learned 5]
      ∧ adv_metric16.ip ≠ adv_metric16.next_hop
      ∧ effective_metric host_off adv_metric16 > 15
      ∧ safe_dr_handle_packet host_off [route_origin, route_learned 5] 0x0A000002 0 hdr0
          adv_metric16 28
        = some ([route_origin], []) := by
  decide

/-- C11, amended: on a host with at least one enabled interface, in a table without
duplicate subnets that holds a record `r` for `v` whose next hop is the sender, an
advertisement that is not a notice and whose effective metric exceeds 15 makes the call
return the table without `r`: no record for `v` is left, nothing is inserted, the other
records are the old ones in order, unchanged but for `last_updated`, and `r` is sent with
metric 16 once on every enabled interface, of which there is at least one. -/
theorem dead_dependency (h : host_t) (tbl : List route_t) (ip intf : Nat)
    (header : rip_header_t) (entry : rip_entry_t) (len : Nat)
    (front back : List route_t) (r : route_t)
    (hen : ∃ t ∈ h.ifs, t.enabled ≠ 0)
    (huniq : unique_subnets tbl)
    (hnotice : entry.ip ≠ entry.next_hop)
    (hm : effective_metric h entry > 15)
    (htbl : tbl = front ++ r :: back) (hv : r.subnet = entry.ip) (hn : r.next_hop_ip = ip) :
    safe_dr_handle_packet h tbl ip intf header entry len
        = some (front.map (refresh h ip entry.ip) ++ back,
            (enabled_intfs h).map fun i =>
              dr_send_payload h i
                { addr_family := 1, pad := 0, ip := r.subnet, subnet_mask := r.mask,
                  next_hop := r.next_hop_ip, metric := 16, learned_from := r.learned_from })
      ∧ (∀ x ∈ front.map (refresh h ip entry.ip) ++ back, x.subnet ≠ entry.ip)
      ∧ (front.map (refresh h ip entry.ip) ++ back).map untimed
          = (front ++ back).map untimed
      ∧ enabled_intfs h ≠ [] := by
  have hnd : (front.map (fun x => x.subnet) ++ r.subnet :: back.map (fun x => x.subnet)).Nodup := by
    have := huniq
    unfold unique_subnets at this
    rw [htbl] at this
    simpa using this
  have hparts := List.nodup_append.mp hnd
  have hnotfront : ∀ x ∈ front, x.subnet ≠ entry.ip := by
    intro x hx he
    have h1 : x.subnet ∈ front.map (fun x => x.subnet) := List.mem_map.mpr ⟨x, hx, rfl⟩
    have h2 : x.subnet ∈ r.subnet :: back.map (fun x => x.subnet) := by
      rw [he, hv]; exact List.mem_cons_self _ _
    exact hparts.2.2 h1 h2
  have hnotback : ∀ x ∈ back, x.subnet ≠ entry.ip := by
    intro x hx he
    have h1 := (List.nodup_cons.mp hparts.2.1).1
    apply h1
    rw [hv, ← he]
    exact List.mem_map.mpr ⟨x, hx, rfl⟩
  have hfront : ∀ x ∈ front, ¬ dead ip entry.ip (effective_metric h entry) x :=
    fun x hx hd => hnotfront x hx hd.1
  have hdead : dead ip entry.ip (effective_metric h entry) r := ⟨hv, hn, hm⟩
  refine ⟨?_, ?_, ?_, enabled_intfs_ne_nil h hen⟩
  · unfold safe_dr_handle_packet
    simp only [split_horizon_ip, split_horizon_next_hop, if_neg hnotice, split_horizon_metric]
    rw [htbl, walk_split_dead h ip entry.ip _ front r back [] locals_init hfront hdead]
    simp only [List.nil_append]
    rw [broadcast_garbage_eq h _ rfl]
  · intro x hx
    rcases List.mem_append.mp hx with h1 | h1
    · obtain ⟨y, hy, rfl⟩ := List.mem_map.mp h1
      rw [refresh_subnet]
      exact hnotfront y hy
    · exact hnotback x h1
  · rw [List.map_append, List.map_append, map_untimed_refresh]

/-- C11 amended, at a table with a route to 10.0.2.0/24 via the neighbor 10.0.0.2 and that
neighbor advertising the destination with metric 16: the route is removed and sent with
metric 16 on interface 0. -/
theorem dead_dependency_witness :
    (∃ t ∈ host1.ifs, t.enabled ≠ 0)
      ∧ safe_dr_handle_packet host1 [route_origin, route_neighbor, route_learned 5]
          0x0A000002 0 hdr0 adv_metric16 28
        = some ([route_origin, route_neighbor],
            [dr_send_payload host1 0
              { addr_family := 1, pad := 0, ip := 0x0A000200, subnet_mask := 0xFFFFFF00,
                next_hop := 0x0A000002, metric := 16, learned_from := 0x0A000002 }]) :=
  ⟨by decide,
    (dead_dependency host1 [route_origin, route_neighbor, route_learned 5] 0x0A000002 0 hdr0
      adv_metric16 28 [route_origin, route_neighbor] [] (route_learned 5) (by decide)
      (by decide) (by decide) (by decide) rfl rfl rfl).1.trans (by decide)⟩

theorem synthesize_silent (h : host_t) (t : List route_t) (ip : Nat) (same : Bool)
    (st : locals_t) (t2 : List route_t) (out : List payload_t) (st2 : locals_t)
    (hen : ∃ x ∈ h.ifs, x.enabled ≠ 0)
    (hs : synthesize h t ip same st = some (t2, out, st2)) (hout : out = []) : t2 = t := by
  unfold synthesize at hs
  split at hs
  · split at hs
    · simp only [Option.some.injEq, Prod.mk.injEq] at hs
      exact hs.1.symm
    · split at hs
      · split at hs
        · cases hs
        · simp only [Option.some.injEq, Prod.mk.injEq] at hs
          exact absurd (hs.2.1.trans hout) (broadcast_ne_nil h _ hen)
      · simp only [Option.some.injEq, Prod.mk.injEq] at hs
        exact hs.1.symm
  · simp only [Option.some.injEq, Prod.mk.injEq] at hs
    exact hs.1.symm

theorem update_silent (h : host_t) (t : List route_t) (ip : Nat) (received : rip_entry_t)
    (same : Bool) (st : locals_t) (out : List payload_t) (t3 : List route_t)
    (out3 : List payload_t)
    (hen : ∃ x ∈ h.ifs, x.enabled ≠ 0)
    (hu : update h t ip received same st out = some (t3, out3)) (hout : out3 = []) :
    t3 = t := by
  have hne : ∀ r : route_t, out ++ broadcast_single_entry h r ≠ [] := by
    intro r hnil
    exact broadcast_ne_nil h _ hen (List.append_eq_nil.mp hnil).2
  unfold update at hu
  split at hu
  · split at hu
    · split at hu
      · split at hu
        · cases hu
        · simp only [Option.some.injEq, Prod.mk.injEq] at hu
          exact absurd (hu.2.trans hout) (hne _)
      · simp only [Option.some.injEq, Prod.mk.injEq] at hu
        exact hu.1.symm
    · cases hu
  · split at hu
    · split at hu
      · split at hu
        · split at hu
          · simp only [Option.some.injEq, Prod.mk.injEq] at hu
            exact absurd (hu.2.trans hout) (hne _)
          · simp only [Option.some.injEq, Prod.mk.injEq] at hu
            exact hu.1.symm
        · cases hu
      · cases hu
    · simp only [Option.some.injEq, Prod.mk.injEq] at hu
      exact hu.1.symm

/-- With an enabled interface, a removing walk that sends nothing removes nothing. -/
theorem sweep_silent (h : host_t) (c : route_t → Bool) (mark : route_t → route_t)
    (extra : Nat → List payload_t) (tbl : List route_t)
    (hen : ∃ t ∈ h.ifs, t.enabled ≠ 0)
    (hout : (sweep h (fun _ => c) mark extra tbl).2 = []) :
    (sweep h (fun _ => c) mark extra tbl).1 = tbl := by
  rw [sweep_snd_keyed] at hout
  have hnone : tbl.enum.filter (fun p => c p.2) = [] := by
    cases hf : tbl.enum.filter (fun p => c p.2) with
    | nil => rfl
    | cons x rest =>
      rw [hf, List.flatMap_cons] at hout
      have h3 := (List.append_eq_nil.mp (List.append_eq_nil.mp hout).1).1
      exact absurd h3 (broadcast_ne_nil h _ hen)
  have hfil : tbl.filter c = [] := by
    rw [← enum_filter_snd c tbl, hnone]
    rfl
  rw [sweep_fst, List.filter_eq_self]
  intro a ha
  have := List.filter_eq_nil_iff.mp hfil a ha
  simpa using this

/-- C12 as stated fails: on a host whose only interface is disabled, a notice for 10.0.0.2
removes the route via 10.0.0.2 and no datagram is sent. -/
theorem triggered_update_fails :
    safe_dr_handle_packet host_off [route_via_u] 0x0A000009 0 hdr0 notice_u 28
        = some ([], [])
      ∧ ([] : List route_t).map untimed ≠ [route_via_u].map untimed := by
  decide

/-- C12, amended: on a host with at least one enabled interface, a call of `handle_packet`
that changes the table in anything other than `last_updated` sends at least one datagram. -/
theorem triggered_update (h : host_t) (tbl : List route_t) (ip intf : Nat)
    (header : rip_header_t) (entry : rip_entry_t) (len : Nat) (tbl1 : List route_t)
    (out : List payload_t)
    (hen : ∃ t ∈ h.ifs, t.enabled ≠ 0)
    (hp : safe_dr_handle_packet h tbl ip intf header entry len = some (tbl1, out))
    (hchg : tbl1.map untimed ≠ tbl.map untimed) :
    out ≠ [] := by
  intro hout
  apply hchg
  unfold safe_dr_handle_packet at hp
  simp only [split_horizon_ip] at hp
  split at hp
  · simp only [Option.some.injEq] at hp
    have h1 := congrArg Prod.fst hp
    have h2 := congrArg Prod.snd hp
    simp only at h1 h2
    rw [← h1, sweep_silent h _ _ _ tbl hen (h2.trans hout)]
  · split at hp
    · rename_i t1 out1 hw
      simp only [Option.some.injEq, Prod.mk.injEq] at hp
      obtain ⟨_, r, _, _, _, _, _, h5⟩ := walk_returned h ip _ _ tbl [] locals_init t1 out1 hw
      rw [hp.2, hout] at h5
      exact absurd h5.symm (broadcast_ne_nil h _ hen)
    · rename_i t1 st hw
      have h1 := walk_done_tbl h ip _ _ tbl [] locals_init t1 st hw
      rw [List.nil_append] at h1
      split at hp
      · cases hp
      · rename_i t2 out2 st2 hs
        have hout2 : out2 = [] := by
          have : ∃ rest, out = out2 ++ rest := by
            unfold update at hp
            split at hp
            · split at hp
              · split at hp
                · split at hp
                  · cases hp
                  · simp only [Option.some.injEq, Prod.mk.injEq] at hp
                    exact ⟨_, hp.2.symm⟩
                · simp only [Option.some.injEq, Prod.mk.injEq] at hp
                  exact ⟨[], by simp [hp.2]⟩
              · cases hp
            · split at hp
              · split at hp
                · split at hp
                  · split at hp
                    · simp only [Option.some.injEq, Prod.mk.injEq] at hp
                      exact ⟨_, hp.2.symm⟩
                    · simp only [Option.some.injEq, Prod.mk.injEq] at hp
                      exact ⟨[], by simp [hp.2]⟩
                  · cases hp
                · cases hp
              · simp only [Option.some.injEq, Prod.mk.injEq] at hp
                exact ⟨[], by simp [hp.2]⟩
          obtain ⟨rest, hr⟩ := this
          rw [hout] at hr
          exact (List.append_eq_nil.mp hr.symm).1
        have e2 := synthesize_silent h t1 ip _ st t2 out2 st2 hen hs hout2
        have e3 := update_silent h t2 ip _ _ st2 out2 tbl1 out hen hp hout
        rw [e3, e2, h1, map_untimed_refresh]

/-- C12 amended, at the advertisement of 10.0.2.0/24 by the neighbor 10.0.0.2 on a host
with one enabled interface: two records are inserted and datagrams are sent. -/
theorem triggered_update_witness :
    ∃ out,
      safe_dr_handle_packet host1 [route_origin] 0x0A000002 0 hdr0 adv_metric1 28
          = some ([route_origin, route_neighbor, route_learned 2], out)
        ∧ out ≠ [] := by
  obtain ⟨out, hout⟩ := exists_out_of_map_fst
    (safe_dr_handle_packet host1 [route_origin] 0x0A000002 0 hdr0 adv_metric1 28)
    [route_origin, route_neighbor, route_learned 2] (by decide)
  exact ⟨out, hout,
    triggered_update host1 [route_origin] 0x0A000002 0 hdr0 adv_metric1 28 _ out
      (by decide) hout (by decide)⟩

/-! ## The periodic sweep -/

theorem get_time_eq (t : timeval) (ht : clock_value t) : get_time t = ms_of t := by
  obtain ⟨h1, h2, h3, h4⟩ := ht
  unfold get_time wrap_long ms_of
  rw [Int.tdiv_eq_ediv h3 (by decide)]
  omega

theorem ms_of_range (t : timeval) (ht : clock_value t) :
    0 ≤ ms_of t ∧ ms_of t < 1125899906842625000 := by
  obtain ⟨h1, h2, h3, h4⟩ := ht
  unfold ms_of
  omega

/-- For values the clock delivers, the test of the sweep at the record number `k` is: the
reading of the clock for that record, in milliseconds, exceeds `last_updated`, in
milliseconds, by more than 20000. -/
theorem timed_out_eq (h : host_t) (k : Nat) (r : route_t) (hc : clock_value (h.clock k))
    (hr : clock_value r.last_updated) :
    timed_out h k r = decide (ms_of (h.clock k) - ms_of r.last_updated > 20000) := by
  unfold timed_out
  rw [get_time_eq _ hc, get_time_eq _ hr]
  have b1 := ms_of_range _ hc
  have b2 := ms_of_range _ hr
  have hw : wrap_long (ms_of (h.clock k) - ms_of r.last_updated)
      = ms_of (h.clock k) - ms_of r.last_updated := by
    unfold wrap_long
    omega
  have e : RIP_TIMEOUT_SEC * 1000 = 20000 := by decide
  rw [hw, e]

/-- The periodic sweep when the clock moves during the call: the record number `k` of the
table is kept exactly when the reading of the clock made for it is at most 20000 ms after
its `last_updated`, and is otherwise sent with metric 16 on every enabled interface. -/
theorem periodic_sweep_result (h : host_t) (tbl : List route_t)
    (hclock : ∀ k, clock_value (h.clock k))
    (htbl : ∀ r ∈ tbl, clock_value r.last_updated) :
    safe_dr_handle_periodic h tbl
      = ((tbl.enum.filter fun p =>
            decide (ms_of (h.clock p.1) - ms_of p.2.last_updated ≤ 20000)).map Prod.snd,
          advertise_routing_table h tbl
            ++ (tbl.enum.filter fun p =>
                  decide (ms_of (h.clock p.1) - ms_of p.2.last_updated > 20000)).flatMap
                fun p =>
                  (enabled_intfs h).map fun i =>
                    dr_send_payload h i
                      { addr_family := 1, pad := 0, ip := p.2.subnet, subnet_mask := p.2.mask,
                        next_hop := p.2.next_hop_ip, metric := 16,
                        learned_from := p.2.learned_from }) := by
  have hto : ∀ p ∈ tbl.enum,
      timed_out h p.1 p.2 = decide (ms_of (h.clock p.1) - ms_of p.2.last_updated > 20000) :=
    fun p hp => timed_out_eq h p.1 p.2 (hclock p.1) (htbl p.2 (List.snd_mem_of_mem_enum hp))
  unfold safe_dr_handle_periodic
  refine Prod.ext ?_ ?_
  · simp only [sweep_fst_keyed]
    congr 1
    apply List.filter_congr
    intro p hp
    rw [hto p hp]
    by_cases hc : ms_of (h.clock p.1) - ms_of p.2.last_updated ≤ 20000
    · have hn : ¬ (ms_of (h.clock p.1) - ms_of p.2.last_updated > 20000) := by omega
      simp only [hn, hc, decide_True, decide_False, Bool.not_false]
    · have hn : ms_of (h.clock p.1) - ms_of p.2.last_updated > 20000 := by omega
      simp only [hn, hc, decide_True, decide_False, Bool.not_true]
  · simp only [sweep_snd_keyed, List.append_nil]
    congr 1
    have hf : tbl.enum.filter (fun p => timed_out h p.1 p.2)
        = tbl.enum.filter fun p =>
            decide (ms_of (h.clock p.1) - ms_of p.2.last_updated > 20000) :=
      List.filter_congr hto
    rw [hf]
    congr 1
    funext p
    exact broadcast_garbage_eq h _ rfl

/-- C13 as stated fails: `get_time()` is called again for every record, and the clock can
move during the call. Here two records have the same `last_updated`, 100.000 s; the reading
made for the first is 120.000 s, that for the second 120.001 s. The first record is kept and
the second removed, which is the set of records with `now - last_updated ≤ 20000` for no
clock value `now`. -/
theorem staleness_moving_clock :
    (∀ k, clock_value (host_tick.clock k))
      ∧ (safe_dr_handle_periodic host_tick [route_aged 1 100 0, route_aged 2 100 0]).1
        = [route_aged 1 100 0]
      ∧ ∀ now : timeval,
          [route_aged 1 100 0, route_aged 2 100 0].filter
              (fun r => decide (ms_of now - ms_of r.last_updated ≤ 20000))
            ≠ [route_aged 1 100 0] := by
  refine ⟨?_, by decide, ?_⟩
  · intro k
    by_cases hk : k = 0
    · subst hk
      exact (by decide : clock_value { tv_sec := 120, tv_usec := 0 })
    · have e : host_tick.clock k = { tv_sec := 120, tv_usec := 1000 } := by
        simp [host_tick, hk]
      rw [e]
      decide
  · intro now hf
    by_cases hc : ms_of now - ms_of (route_aged 1 100 0).last_updated ≤ 20000
    · have hc2 : ms_of now - ms_of (route_aged 2 100 0).last_updated ≤ 20000 := hc
      simp only [List.filter_cons, List.filter_nil, hc, hc2, decide_True, if_true] at hf
      exact absurd hf (by decide)
    · have hc2 : ¬ ms_of now - ms_of (route_aged 2 100 0).last_updated ≤ 20000 := hc
      simp only [List.filter_cons, List.filter_nil, hc, hc2, decide_False, Bool.false_eq_true,
        if_false] at hf
      exact absurd hf (by decide)

/-- C13, amended: for a clock value `now` that the clock delivers and gives at every reading
of the call, and a table whose timestamps are values the clock delivers, `handle_periodic`
leaves
exactly the records of the table with `now - last_updated ≤ 20000` in milliseconds, in order
and unchanged; what it sends is the advertisement of the whole input table followed, for
every record with `now - last_updated > 20000`, in table order, by that record with metric
16 once on every enabled interface. -/
theorem staleness_eviction (h : host_t) (tbl : List route_t) (now : timeval)
    (hnow : ∀ k, h.clock k = now)
    (hvalue : clock_value now)
    (htbl : ∀ r ∈ tbl, clock_value r.last_updated) :
    safe_dr_handle_periodic h tbl
      = (tbl.filter fun r => decide (ms_of now - ms_of r.last_updated ≤ 20000),
          advertise_routing_table h tbl
            ++ (tbl.filter fun r =>
                  decide (ms_of now - ms_of r.last_updated > 20000)).flatMap
                fun r =>
                  (enabled_intfs h).map fun i =>
                    dr_send_payload h i
                      { addr_family := 1, pad := 0, ip := r.subnet, subnet_mask := r.mask,
                        next_hop := r.next_hop_ip, metric := 16,
                        learned_from := r.learned_from }) := by
  rw [periodic_sweep_result h tbl (fun k => by rw [hnow k]; exact hvalue) htbl]
  simp only [hnow]
  rw [enum_filter_snd (fun r => decide (ms_of now - ms_of r.last_updated ≤ 20000)) tbl,
    enum_filter_flatMap
      (fun r => decide (ms_of now - ms_of r.last_updated > 20000))
      (fun r => (enabled_intfs h).map fun i =>
        dr_send_payload h i
          { addr_family := 1, pad := 0, ip := r.subnet, subnet_mask := r.mask,
            next_hop := r.next_hop_ip, metric := 16, learned_from := r.learned_from })
      tbl]

/-- C13 amended, at the clock value 121.0005 s and a table whose records are 20001 ms, 71000 ms,
20000 ms, 0 ms and 21000 ms old: the two stale records at the head and the stale record at
the tail are removed, the record that is exactly 20000 ms old stays; the five records are
advertised with their cost, then the three stale ones are sent with metric 16. -/
theorem staleness_eviction_witness :
    (∀ k, host_late.clock k = t_late)
      ∧ clock_value t_late
      ∧ (∀ r ∈ table_aged, clock_value r.last_updated)
      ∧ safe_dr_handle_periodic host_late table_aged
        = ([route_aged 3 101 0, route_aged 4 121 0],
            (([1, 2, 3, 4, 5] : List Nat).map fun s =>
                dr_send_payload host_late 0
                  { addr_family := 1, pad := 0, ip := s, subnet_mask := 0xFFFFFF00,
                    next_hop := 0, metric := 1, learned_from := 0 })
              ++ ([1, 2, 5] : List Nat).map fun s =>
                dr_send_payload host_late 0
                  { addr_family := 1, pad := 0, ip := s, subnet_mask := 0xFFFFFF00,
                    next_hop := 0, metric := 16, learned_from := 0 }) :=
  ⟨fun _ => rfl, by decide, by decide,
    (staleness_eviction host_late table_aged t_late (fun _ => rfl) (by decide)
      (by decide)).trans (by decide)⟩

/-- The arithmetic of the sweep is that of a `long`: for a clock value whose milliseconds do
not fit 64 bits the product wraps to a negative number, and a record last updated at time 0
is kept. -/
theorem periodic_sweep_long_wraps :
    ms_of (host_far.clock 0) - ms_of (route_aged 1 0 0).last_updated > 20000
      ∧ (safe_dr_handle_periodic host_far [route_aged 1 0 0]).1 = [route_aged 1 0 0] := by
  decide

/-! ## Interface changes and initialisation -/

theorem sweep_but_last_from_pos (h : host_t) (c : route_t → Bool) (mark : route_t → route_t)
    (tbl : List route_t) (pos : Nat) (current n : route_t) (rest : List route_t)
    (hc : c current = true) :
    (sweep_but_last_from h c mark tbl pos current (n :: rest)).1
      = (sweep_but_last_from h c mark (remove (tbl.set pos (mark current)) pos) pos n rest).1 := by
  simp only [sweep_but_last_from, hc, if_true]

theorem sweep_but_last_from_neg (h : host_t) (c : route_t → Bool) (mark : route_t → route_t)
    (tbl : List route_t) (pos : Nat) (current n : route_t) (rest : List route_t)
    (hc : ¬ c current = true) :
    sweep_but_last_from h c mark tbl pos current (n :: rest)
      = sweep_but_last_from h c mark tbl (pos + 1) n rest := by
  simp only [sweep_but_last_from, hc, Bool.false_eq_true, if_false]

theorem sweep_but_last_from_fst (h : host_t) (c : route_t → Bool) (mark : route_t → route_t)
    (rest front : List route_t) (current last : route_t) :
    (sweep_but_last_from h c mark (front ++ current :: (rest ++ [last])) front.length current
        (rest ++ [last])).1
      = front ++ (current :: rest).filter (fun r => !c r) ++ [last] := by
  induction rest generalizing front current with
  | nil =>
    show (sweep_but_last_from h c mark (front ++ current :: [last]) front.length current
        [last]).1 = _
    by_cases hc : c current = true
    · rw [sweep_but_last_from_pos h c mark _ _ current last [] hc, remove_set_split]
      simp [sweep_but_last_from, List.filter_cons, hc]
    · rw [sweep_but_last_from_neg h c mark _ _ current last [] hc]
      simp [sweep_but_last_from, List.filter_cons, hc]
  | cons n rest ih =>
    show (sweep_but_last_from h c mark (front ++ current :: n :: (rest ++ [last]))
        front.length current (n :: (rest ++ [last]))).1 = _
    by_cases hc : c current = true
    · rw [sweep_but_last_from_pos h c mark _ _ current n _ hc, remove_set_split, ih front n]
      simp [List.filter_cons, hc]
    · have h1 := ih (front ++ [current]) n
      rw [List.length_append, List.length_singleton, List.append_assoc,
        List.singleton_append] at h1
      rw [sweep_but_last_from_neg h c mark _ _ current n _ hc, h1]
      simp [List.filter_cons, hc]

/-- The disable branch on a table with a last record `last`: the records before it that
use the interface are removed, `last` stays whatever its interface is. -/
theorem interface_down_table (h : host_t) (front : List route_t) (last : route_t)
    (intf : Nat) (state_changed cost_changed : Int) (hs : state_changed ≠ 0)
    (hoff : (dr_get_interface h intf).enabled = 0) :
    (safe_dr_interface_changed h (front ++ [last]) intf state_changed cost_changed).map
        Prod.fst
      = some (front.filter (fun r => decide (r.outgoing_intf ≠ intf)) ++ [last]) := by
  have hen : ¬ ((dr_get_interface h intf).enabled ≠ 0) := fun x => x hoff
  cases front with
  | nil =>
    simp only [safe_dr_interface_changed, if_pos hs, if_neg hen, List.nil_append,
      sweep_but_last, sweep_but_last_from, Option.map_some', List.filter_nil]
  | cons current rest =>
    have h1 := sweep_but_last_from_fst h (fun c => decide (c.outgoing_intf = intf))
      (fun c => { c with cost := INFINITY }) rest [] current last
    simp only [List.nil_append, List.length_nil] at h1
    simp only [safe_dr_interface_changed, if_pos hs, if_neg hen, List.cons_append,
      sweep_but_last, Option.map_some', h1]
    congr 2
    apply List.filter_congr
    intro r _
    simp

/-- C14 fails on the code: interface 0 is disabled, the table holds the route of
interface 1 and, in the last position, the route of interface 0; after
`interface_changed(0, 1, 0)` the table is unchanged and still holds the record with
`outgoing_intf == 0`. -/
theorem interface_down_keeps_last :
    (dr_get_interface host_down0 0).enabled = 0
      ∧ safe_dr_interface_changed host_down0 [route_origin1, route_origin] 0 1 0
        = some ([route_origin1, route_origin],
            [dr_send_payload host_down0 1
              { host_down0.uninit 0 with
                addr_family := 1, pad := 0, ip := 0x0A000001, next_hop := 0x0A000001 }])
      ∧ route_origin.outgoing_intf = 0 := by
  decide

/-- The cost-change branch crashes exactly when the purge empties the table, that is when
every record of the table, if any, uses the interface. -/
theorem cost_change_crash_iff (h : host_t) (tbl : List route_t) (intf : Nat)
    (cost_changed : Int) (hc : cost_changed ≠ 0) :
    safe_dr_interface_changed h tbl intf 0 cost_changed = none
      ↔ ∀ r ∈ tbl, r.outgoing_intf = intf := by
  have h0 : ¬ ((0 : Int) ≠ 0) := fun x => x rfl
  simp only [safe_dr_interface_changed, if_neg h0, if_pos hc]
  change (match append (sweep h (fun _ => fun c => decide (c.outgoing_intf = intf)) _
        (fun _ => []) tbl).1 (new_entry_of_intf h intf) with
    | none => none
    | some tbl1 => some (tbl1, (sweep h _ _ (fun _ => []) tbl).2
        ++ broadcast_single_entry h (new_entry_of_intf h intf))) = none ↔ _
  rw [sweep_fst]
  cases hf : tbl.filter (fun r => !decide (r.outgoing_intf = intf)) with
  | nil =>
    simp only [append, true_iff]
    intro r hr
    have := List.filter_eq_nil_iff.mp hf r hr
    simpa using this
  | cons x rest =>
    simp only [append, false_iff, reduceCtorEq]
    intro hall
    have hx : x ∈ tbl.filter (fun r => !decide (r.outgoing_intf = intf)) := by
      rw [hf]; exact List.mem_cons_self x rest
    have h1 := List.mem_filter.mp hx
    have h2 := hall x h1.1
    simp [h2] at h1

/-- C15 fails on the code: the only record of the table uses interface 0, the purge of
`interface_changed(0, 0, 1)` empties the table, and `append` then reads through the null
head: the call does not complete. -/
theorem cost_change_crashes :
    safe_dr_interface_changed host1 [route_origin] 0 0 1 = none
      ∧ safe_dr_interface_changed host1 [] 0 0 1 = none := by
  decide

/-- C16 fails on the code: interface 0 of the host is disabled, and the table `dr_init`
builds holds a record with `outgoing_intf == 0`. -/
theorem init_keeps_disabled :
    (dr_get_interface host_down0 0).enabled = 0
      ∧ dr_init host_down0 = some [route_origin, route_origin1]
      ∧ route_origin.outgoing_intf = 0 := by
  decide

/-! ## Malformed input -/

/-- C17 as stated fails: a datagram with version 1, address family 7 and length 3 is
processed like any other; here it inserts two records. -/
theorem malformed_is_processed :
    hdr_bad.version ≠ 2 ∧ adv_bad_family.addr_family ≠ 1 ∧ 3 < PAYLOAD_LEN
      ∧ (safe_dr_handle_packet host1 [route_origin] 0x0A000002 0 hdr_bad adv_bad_family 3).map
          Prod.fst
        = some [route_origin, route_neighbor, route_learned 2] := by
  decide

/-- C17, amended: `handle_packet` reads neither the length, nor the header, nor the arrival
interface, nor the address family and pad of the entry: for every table and datagram the
new table and the datagrams sent are the same whatever these values are. -/
theorem no_validation (h : host_t) (tbl : List route_t) (ip intf intf1 : Nat)
    (header header1 : rip_header_t) (entry : rip_entry_t) (len len1 family pad : Nat) :
    safe_dr_handle_packet h tbl ip intf header entry len
      = safe_dr_handle_packet h tbl ip intf1 header1
          { entry with addr_family := family, pad := pad } len1 := by
  have he : effective_metric h { entry with addr_family := family, pad := pad }
      = effective_metric h entry := rfl
  have hu : ∀ (t : List route_t) (same : Bool) (st : locals_t) (out : List payload_t),
      update h t ip { entry with metric := effective_metric h entry } same st out
        = update h t ip
            { entry with
              addr_family := family, pad := pad, metric := effective_metric h entry }
            same st out := by
    intro t same st out
    simp only [update, new_here_v, relax]
  unfold safe_dr_handle_packet
  simp only [split_horizon_eq, he, hu]

/-! ## The codec -/

/-- C18: for a header and an entry whose fields are in the range of their C types, the
buffer built the way `broadcast_single_entry` builds it has 28 bytes, and copying the header
and the entry out of it the way `handle_packet` does gives back every field, on a
little-endian and on a big-endian host alike. -/
theorem codec_round_trip (big : Bool) (header : rip_header_t) (entry : rip_entry_t)
    (hh : header_in_range header) (he : entry_in_range entry) :
    (encode big header entry).length = PAYLOAD_LEN
      ∧ decode big (encode big header entry) = (header, entry) := by
  obtain ⟨h1, h2, h3⟩ := hh
  obtain ⟨e1, e2, e3, e4, e5, e6, e7⟩ := he
  cases header
  cases entry
  simp only at h1 h2 h3 e1 e2 e3 e4 e5 e6 e7
  cases big
  · refine ⟨by simp [encode, u16_bytes, u32_bytes, PAYLOAD_LEN], ?_⟩
    simp only [encode, u16_bytes, u32_bytes, decode, u16_of, u32_of, List.cons_append,
      List.nil_append, Bool.false_eq_true, if_false, Prod.mk.injEq, rip_header_t.mk.injEq,
      rip_entry_t.mk.injEq]
    refine ⟨⟨?_, ?_, ?_⟩, ?_, ?_, ?_, ?_, ?_, ?_, ?_⟩ <;> omega
  · refine ⟨by simp [encode, u16_bytes, u32_bytes, PAYLOAD_LEN], ?_⟩
    simp only [encode, u16_bytes, u32_bytes, decode, u16_of, u32_of, List.cons_append,
      List.nil_append, if_true, Prod.mk.injEq, rip_header_t.mk.injEq, rip_entry_t.mk.injEq]
    refine ⟨⟨?_, ?_, ?_⟩, ?_, ?_, ?_, ?_, ?_, ?_, ?_⟩ <;> omega

/-- C18, at the header the engine sends and the advertisement of 10.0.2.0/24 with metric 1,
on a little-endian host. -/
theorem codec_round_trip_witness :
    header_in_range hdr0 ∧ entry_in_range adv_metric1
      ∧ (encode false hdr0 adv_metric1).length = PAYLOAD_LEN
      ∧ decode false (encode false hdr0 adv_metric1) = (hdr0, adv_metric1) :=
  ⟨by decide, by decide, codec_round_trip false hdr0 adv_metric1 (by decide) (by decide)⟩

/-! ## Origin consistency -/

theorem refresh_origin (h : host_t) (ip v : Nat) (r : route_t) (hr : origin_ok r) :
    origin_ok (refresh h ip v r) := by
  rcases refresh_cases h ip v r with h1 | h1 <;> rw [h1] <;> exact hr

theorem synthesize_origin (h : host_t) (t : List route_t) (ip : Nat) (same : Bool)
    (st : locals_t) (t2 : List route_t) (out : List payload_t) (st2 : locals_t)
    (hs : synthesize h t ip same st = some (t2, out, st2))
    (ht : ∀ r ∈ t, origin_ok r)
    (hst : ∀ x, st.here_u = some x → x.subnet = ip) :
    (∀ r ∈ t2, origin_ok r) ∧ (∀ x, st2.here_u = some x → x.subnet = ip) := by
  unfold synthesize at hs
  split at hs
  · split at hs
    · simp only [Option.some.injEq, Prod.mk.injEq] at hs
      obtain ⟨h1, _, h3⟩ := hs
      subst h1; subst h3
      exact ⟨ht, hst⟩
    · rename_i i _
      have hb : origin_ok (new_here_u h ip i) := fun _ => rfl
      split at hs
      · split at hs
        · cases hs
        · rename_i tbl1 happ
          simp only [Option.some.injEq, Prod.mk.injEq] at hs
          obtain ⟨h1, _, h3⟩ := hs
          subst h1; subst h3
          refine ⟨?_, ?_⟩
          · intro r hr
            rcases mem_append t _ _ r happ hr with h5 | h5
            · exact ht r h5
            · exact h5 ▸ hb
          · intro x hx
            simp only [Option.some.injEq] at hx
            exact hx ▸ rfl
      · simp only [Option.some.injEq, Prod.mk.injEq] at hs
        obtain ⟨h1, _, h3⟩ := hs
        subst h1; subst h3
        refine ⟨ht, ?_⟩
        intro x hx
        simp only [Option.some.injEq] at hx
        exact hx ▸ rfl
  · simp only [Option.some.injEq, Prod.mk.injEq] at hs
    obtain ⟨h1, _, h3⟩ := hs
    subst h1; subst h3
    exact ⟨ht, hst⟩

theorem update_origin (h : host_t) (t : List route_t) (ip : Nat) (received : rip_entry_t)
    (same : Bool) (st : locals_t) (out : List payload_t) (t3 : List route_t)
    (out3 : List payload_t)
    (hu : update h t ip received same st out = some (t3, out3))
    (ht : ∀ r ∈ t, origin_ok r)
    (hst : ∀ x, st.here_u = some x → x.subnet = ip) :
    ∀ r ∈ t3, origin_ok r := by
  unfold update at hu
  split at hu
  · split at hu
    · split at hu
      · split at hu
        · cases hu
        · rename_i tbl1 happ
          simp only [Option.some.injEq, Prod.mk.injEq] at hu
          rw [← hu.1]
          intro r hr
          rcases mem_append t _ _ r happ hr with h5 | h5
          · exact ht r h5
          · subst h5
            intro hl
            exact hl
      · simp only [Option.some.injEq, Prod.mk.injEq] at hu
        exact hu.1 ▸ ht
    · cases hu
  · split at hu
    · split at hu
      · rename_i here_u idx pos hhu _ _
        have hsub : here_u.subnet = ip := hst here_u hhu
        split at hu
        · split at hu
          · simp only [Option.some.injEq, Prod.mk.injEq] at hu
            rw [← hu.1]
            intro r hr
            rcases List.mem_or_eq_of_mem_set hr with h5 | h5
            · exact ht r h5
            · subst h5
              intro hl
              simp only [relax] at hl ⊢
              rw [hsub]; exact hl
          · simp only [Option.some.injEq, Prod.mk.injEq] at hu
            exact hu.1 ▸ ht
        · cases hu
      · cases hu
    · simp only [Option.some.injEq, Prod.mk.injEq] at hu
      exact hu.1 ▸ ht

theorem handle_packet_origin (h : host_t) (tbl : List route_t) (ip intf : Nat)
    (header : rip_header_t) (entry : rip_entry_t) (len : Nat) (tbl1 : List route_t)
    (out : List payload_t)
    (hp : safe_dr_handle_packet h tbl ip intf header entry len = some (tbl1, out))
    (ht : ∀ r ∈ tbl, origin_ok r) : ∀ r ∈ tbl1, origin_ok r := by
  have hrefresh : ∀ l : List route_t, (∀ r ∈ l, origin_ok r) →
      ∀ r ∈ l.map (refresh h ip (split_horizon h entry).ip), origin_ok r := by
    intro l hl r hr
    obtain ⟨x, hx, rfl⟩ := List.mem_map.mp hr
    exact refresh_origin h ip _ x (hl x hx)
  unfold safe_dr_handle_packet at hp
  simp only at hp
  split at hp
  · simp only [Option.some.injEq] at hp
    have h1 := congrArg Prod.fst hp
    simp only at h1
    rw [← h1, sweep_fst]
    intro r hr
    exact ht r (List.mem_filter.mp hr).1
  · split at hp
    · rename_i t1 out1 hw
      simp only [Option.some.injEq, Prod.mk.injEq] at hp
      obtain ⟨front, r, back, h1, _, _, h4, _⟩ :=
        walk_returned h ip _ _ tbl [] locals_init t1 out1 hw
      rw [← hp.1, h4]
      intro x hx
      simp only [List.nil_append, List.mem_append] at hx
      rcases hx with h5 | h5
      · exact hrefresh front (fun y hy => ht y (h1 ▸ List.mem_append_left _ hy)) x h5
      · exact ht x (h1 ▸ List.mem_append_right _ (List.mem_cons_of_mem _ h5))
    · rename_i t1 st hw
      have h1 := walk_done_tbl h ip _ _ tbl [] locals_init t1 st hw
      have hl := (walk_done_locals h ip _ _ tbl [] locals_init t1 st hw).1
      have ht1 : ∀ r ∈ t1, origin_ok r := by
        rw [h1, List.nil_append]; exact hrefresh tbl ht
      have hst : ∀ x, st.here_u = some x → x.subnet = ip := by
        intro x hx
        rw [hl] at hx
        cases hlr : last_route ip tbl with
        | none => rw [hlr] at hx; simp [locals_init] at hx
        | some y =>
          rw [hlr] at hx
          simp only [Option.some.injEq] at hx
          have hy := (last_route_mem ip tbl y hlr).2
          subst hx
          exact hy
      split at hp
      · cases hp
      · rename_i t2 out2 st2 hs
        obtain ⟨ht2, hst2⟩ := synthesize_origin h t1 ip _ st t2 out2 st2 hs ht1 hst
        exact update_origin h t2 ip _ _ st2 out2 tbl1 out hp ht2 hst2

theorem interface_changed_origin (h : host_t) (tbl : List route_t) (intf : Nat)
    (state_changed cost_changed : Int) (tbl1 : List route_t) (out : List payload_t)
    (hc : safe_dr_interface_changed h tbl intf state_changed cost_changed = some (tbl1, out))
    (ht : ∀ r ∈ tbl, origin_ok r) : ∀ r ∈ tbl1, origin_ok r := by
  have hb : origin_ok (new_entry_of_intf h intf) := fun _ => rfl
  unfold safe_dr_interface_changed at hc
  split at hc
  · split at hc
    · split at hc
      · cases hc
      · rename_i t1 happ
        simp only [Option.some.injEq, Prod.mk.injEq] at hc
        rw [← hc.1]
        intro r hr
        rcases mem_append tbl _ _ r happ hr with h5 | h5
        · exact ht r h5
        · exact h5 ▸ hb
    · split at hc
      · cases hc
      · rename_i current rest
        simp only [Option.some.injEq, Prod.mk.injEq] at hc
        rw [← hc.1]
        intro r hr
        exact ht r ((sweep_but_last_sublist h _ _ current rest).subset hr)
  · split at hc
    · split at hc
      · cases hc
      · rename_i t1 happ
        simp only [Option.some.injEq, Prod.mk.injEq] at hc
        rw [sweep_fst] at happ
        rw [← hc.1]
        intro r hr
        rcases mem_append _ _ _ r happ hr with h5 | h5
        · exact ht r (List.mem_filter.mp h5).1
        · exact h5 ▸ hb
    · simp only [Option.some.injEq, Prod.mk.injEq] at hc
      exact hc.1 ▸ ht

theorem untimed_untimed (r : route_t) : untimed (untimed r) = untimed r := rfl

theorem refresh_untimed (h : host_t) (ip v : Nat) (r : route_t) :
    refresh (at_time h time_zero) ip v (untimed r) = untimed (refresh h ip v r) := by
  unfold refresh
  by_cases hc : r.subnet = ip ∨ r.subnet = v
  · have hc1 : (untimed r).subnet = ip ∨ (untimed r).subnet = v := hc
    rw [if_pos hc, if_pos hc1]; rfl
  · have hc1 : ¬ ((untimed r).subnet = ip ∨ (untimed r).subnet = v) := hc
    rw [if_neg hc, if_neg hc1]

theorem visit_untimed (h : host_t) (ip v pos : Nat) (st : locals_t) (r : route_t) :
    visit (at_time h time_zero) ip v pos (untimed_locals st) (untimed r)
      = untimed_locals (visit h ip v pos st r) := by
  unfold visit
  by_cases hv : r.subnet = v <;> by_cases hu : r.subnet = ip
  · have hv1 : (untimed r).subnet = v := hv
    have hu1 : (untimed r).subnet = ip := hu
    rw [if_pos hv, if_pos hv1, if_pos hu, if_pos hu1]; rfl
  · have hv1 : (untimed r).subnet = v := hv
    have hu1 : ¬ (untimed r).subnet = ip := hu
    rw [if_pos hv, if_pos hv1, if_neg hu, if_neg hu1]; rfl
  · have hv1 : ¬ (untimed r).subnet = v := hv
    have hu1 : (untimed r).subnet = ip := hu
    rw [if_neg hv, if_neg hv1, if_pos hu, if_pos hu1]; rfl
  · have hv1 : ¬ (untimed r).subnet = v := hv
    have hu1 : ¬ (untimed r).subnet = ip := hu
    rw [if_neg hv, if_neg hv1, if_neg hu, if_neg hu1]

/-- The table walk commutes with setting the timestamps aside. -/
theorem walk_untimed (h : host_t) (ip v m : Nat) (rest visited : List route_t)
    (st : locals_t) :
    walk (at_time h time_zero) ip v m (visited.map untimed) (rest.map untimed)
        (untimed_locals st)
      = untimed_walk (walk h ip v m visited rest st) := by
  induction rest generalizing visited st with
  | nil => simp [walk, untimed_walk]
  | cons r rest ih =>
    by_cases hd : dead ip v m r
    · have hd1 : dead ip v m (untimed r) := hd
      rw [List.map_cons, walk_cons_dead _ ip v m _ _ _ _ hd1,
        walk_cons_dead h ip v m visited rest st r hd]
      simp only [untimed_walk, List.map_append]
      rfl
    · have hd1 : ¬ dead ip v m (untimed r) := hd
      rw [List.map_cons, walk_cons_alive _ ip v m _ _ _ _ hd1,
        walk_cons_alive h ip v m visited rest st r hd, refresh_untimed, List.length_map,
        visit_untimed]
      have := ih (visited ++ [refresh h ip v r]) (visit h ip v visited.length st r)
      simp only [List.map_append, List.map_cons, List.map_nil] at this
      exact this

theorem overwrite_untimed (c e : route_t) :
    overwrite (untimed c) (untimed e) = untimed (overwrite c e) := rfl

theorem append_from_untimed (c e : route_t) (rest : List route_t) :
    append_from (untimed c) (untimed e) (rest.map untimed)
      = (append_from c e rest).map untimed := by
  induction rest generalizing c with
  | nil =>
    by_cases hc : c.subnet = e.subnet
    · have hc1 : (untimed c).subnet = (untimed e).subnet := hc
      simp only [List.map_nil, append_from, if_pos hc, if_pos hc1, List.map_cons]
      rfl
    · have hc1 : ¬ (untimed c).subnet = (untimed e).subnet := hc
      simp only [List.map_nil, append_from, if_neg hc, if_neg hc1, List.map_cons]
  | cons n rest ih =>
    by_cases hc : c.subnet = e.subnet
    · have hc1 : (untimed c).subnet = (untimed e).subnet := hc
      simp only [List.map_cons, append_from, if_pos hc, if_pos hc1]
      rfl
    · have hc1 : ¬ (untimed c).subnet = (untimed e).subnet := hc
      simp only [List.map_cons, append_from, if_neg hc, if_neg hc1, ih n]

/-- The function `append` commutes with setting the timestamps aside. -/
theorem append_untimed (t : List route_t) (e : route_t) :
    append (t.map untimed) (untimed e) = (append t e).map (List.map untimed) := by
  cases t with
  | nil => rfl
  | cons c rest =>
    simp only [List.map_cons, append, Option.map_some', append_from_untimed]

theorem find_at_time (h : host_t) (n : timeval) (ip : Nat) :
    (List.range (dr_interface_count (at_time h n))).find?
        (fun i => decide (on_subnet (at_time h n) ip i))
      = (List.range (dr_interface_count h)).find? (fun i => decide (on_subnet h ip i)) := rfl

theorem new_here_u_untimed (h : host_t) (ip i : Nat) :
    new_here_u (at_time h time_zero) ip i = untimed (new_here_u h ip i) := rfl

theorem broadcast_single_entry_untimed (h : host_t) (n : timeval) (r : route_t) :
    broadcast_single_entry (at_time h n) (untimed r) = broadcast_single_entry h r := rfl

/-- Rule C commutes with setting the timestamps aside. -/
theorem synthesize_untimed (h : host_t) (t : List route_t) (ip : Nat) (same : Bool)
    (st : locals_t) :
    synthesize (at_time h time_zero) (t.map untimed) ip same (untimed_locals st)
      = (synthesize h t ip same st).map
          (fun p => (p.1.map untimed, p.2.1, untimed_locals p.2.2)) := by
  unfold synthesize
  rw [find_at_time]
  by_cases hc : ¬ st.here_u_exists = true ∧ ¬ same = true
  · have hc1 : ¬ (untimed_locals st).here_u_exists = true ∧ ¬ same = true := hc
    rw [if_pos hc, if_pos hc1]
    cases hf : (List.range (dr_interface_count h)).find? (fun i => decide (on_subnet h ip i)) with
    | none => rfl
    | some i =>
      simp only [new_here_u_untimed]
      by_cases hle : (new_here_u h ip i).cost ≤ 15
      · have hle1 : (untimed (new_here_u h ip i)).cost ≤ 15 := hle
        rw [if_pos hle, if_pos hle1, append_untimed]
        cases append t (new_here_u h ip i) with
        | none => rfl
        | some tbl1 => rfl
      · have hle1 : ¬ (untimed (new_here_u h ip i)).cost ≤ 15 := hle
        rw [if_neg hle, if_neg hle1]
        rfl
  · have hc1 : ¬ (¬ (untimed_locals st).here_u_exists = true ∧ ¬ same = true) := hc
    rw [if_neg hc, if_neg hc1]
    rfl

theorem new_here_v_untimed (h : host_t) (ip : Nat) (received : rip_entry_t) (hu : route_t)
    (idx : Nat) :
    new_here_v (at_time h time_zero) ip received (untimed hu) idx
      = untimed (new_here_v h ip received hu idx) := rfl

theorem relax_untimed (ip : Nat) (received : rip_entry_t) (hu : route_t) (idx : Nat)
    (hv : route_t) :
    relax ip received (untimed hu) idx (untimed hv) = untimed (relax ip received hu idx hv) :=
  rfl

/-- Rules E and F commute with setting the timestamps aside. -/
theorem update_untimed (h : host_t) (t : List route_t) (ip : Nat) (received : rip_entry_t)
    (same : Bool) (st : locals_t) (out : List payload_t) :
    update (at_time h time_zero) (t.map untimed) ip received same (untimed_locals st) out
      = (update h t ip received same st out).map untimed_result := by
  obtain ⟨ue, ve, idx, hu, hv⟩ := st
  unfold update
  simp only [untimed_locals]
  by_cases hc : ¬ ve = true ∧ ¬ same = true ∧ idx ≠ none
  · rw [if_pos hc, if_pos hc]
    cases hu with
    | none => rfl
    | some x =>
      cases idx with
      | none => rfl
      | some i =>
        simp only [Option.map_some', new_here_v_untimed]
        by_cases hle : (new_here_v h ip received x i).cost ≤ 15
        · have hle1 : (untimed (new_here_v h ip received x i)).cost ≤ 15 := hle
          rw [if_pos hle, if_pos hle1, append_untimed]
          cases append t (new_here_v h ip received x i) with
          | none => rfl
          | some tbl1 => rfl
        · have hle1 : ¬ (untimed (new_here_v h ip received x i)).cost ≤ 15 := hle
          rw [if_neg hle, if_neg hle1]
          rfl
  · rw [if_neg hc, if_neg hc]
    by_cases hc2 : ¬ same = true ∧ idx ≠ none ∧ ue = true
    · rw [if_pos hc2, if_pos hc2]
      cases hu with
      | none => rfl
      | some x =>
        cases idx with
        | none => rfl
        | some i =>
          cases hv with
          | none => rfl
          | some pos =>
            simp only [Option.map_some', List.getElem?_map]
            cases hget : t[pos]? with
            | none => rfl
            | some y =>
              simp only [Option.map_some', relax_untimed]
              by_cases hgt : y.cost > (x.cost + received.metric) % UINT32
              · have hgt1 : (untimed y).cost > ((untimed x).cost + received.metric) % UINT32 :=
                  hgt
                rw [if_pos hgt, if_pos hgt1]
                simp only [Option.map_some', untimed_result, List.map_set]
                rfl
              · have hgt1 :
                    ¬ (untimed y).cost > ((untimed x).cost + received.metric) % UINT32 := hgt
                rw [if_neg hgt, if_neg hgt1]
                rfl
    · rw [if_neg hc2, if_neg hc2]
      rfl

theorem split_horizon_at_time (h : host_t) (n : timeval) (e : rip_entry_t) :
    split_horizon (at_time h n) e = split_horizon h e := rfl

theorem v_same_as_here_at_time (h : host_t) (n : timeval) (v : Nat) :
    v_same_as_here (at_time h n) v = v_same_as_here h v := rfl

theorem broadcast_intf_down_at_time (h : host_t) (n : timeval) (k v : Nat) :
    broadcast_intf_down (at_time h n) k v = broadcast_intf_down h k v := rfl

theorem filter_map_untimed (c : route_t → Bool) (hc : ∀ r, c (untimed r) = c r)
    (l : List route_t) : (l.map untimed).filter c = (l.filter c).map untimed := by
  induction l with
  | nil => rfl
  | cons r l ih =>
    simp only [List.map_cons, List.filter_cons, hc r, ih]
    split <;> rfl

theorem flatMap_filter_untimed (c : route_t → Bool) (hc : ∀ r, c (untimed r) = c r)
    (g0 g : Nat → route_t → List payload_t) (hg : ∀ k r, g0 k (untimed r) = g k r)
    (l : List route_t) (k : Nat) :
    (((l.map untimed).enumFrom k).filter fun p => c p.2).flatMap (fun p => g0 p.1 p.2)
      = ((l.enumFrom k).filter fun p => c p.2).flatMap (fun p => g p.1 p.2) := by
  induction l generalizing k with
  | nil => rfl
  | cons r l ih =>
    simp only [List.map_cons, List.enumFrom_cons, List.filter_cons, hc r]
    split
    · simp only [List.flatMap_cons, hg k r, ih]
    · exact ih (k + 1)

/-- A removing walk whose selection and datagrams do not read the timestamp commutes with
setting the timestamps aside. -/
theorem sweep_untimed (h : host_t) (n : timeval) (c : route_t → Bool)
    (mark : route_t → route_t) (extra : Nat → List payload_t) (tbl : List route_t)
    (hc : ∀ r, c (untimed r) = c r)
    (hm : ∀ r, entry_of_route (mark (untimed r)) = entry_of_route (mark r)) :
    sweep (at_time h n) (fun _ => c) mark extra (tbl.map untimed)
      = untimed_result (sweep h (fun _ => c) mark extra tbl) := by
  refine Prod.ext ?_ ?_
  · simp only [untimed_result, sweep_fst]
    exact filter_map_untimed (fun r => !c r) (fun r => by simp only [hc r]) tbl
  · simp only [untimed_result, sweep_snd_keyed]
    exact flatMap_filter_untimed c hc
      (fun k r => broadcast_single_entry (at_time h n) (mark r) ++ extra k)
      (fun k r => broadcast_single_entry h (mark r) ++ extra k)
      (fun k r => by
        show broadcast h (entry_of_route (mark (untimed r))) ++ extra k
          = broadcast h (entry_of_route (mark r)) ++ extra k
        rw [hm r]) tbl 0

/-- The function `safe_dr_handle_packet` never reads a timestamp: run at clock value zero on
the table with its timestamps set aside, it gives the result of the original run with the
timestamps set aside, and sends the same datagrams. -/
theorem handle_packet_untimed (h : host_t) (tbl : List route_t) (ip intf : Nat)
    (header : rip_header_t) (entry : rip_entry_t) (len : Nat) :
    safe_dr_handle_packet (at_time h time_zero) (tbl.map untimed) ip intf header entry len
      = (safe_dr_handle_packet h tbl ip intf header entry len).map untimed_result := by
  unfold safe_dr_handle_packet
  simp only [split_horizon_at_time, v_same_as_here_at_time, broadcast_intf_down_at_time]
  by_cases hn : (split_horizon h entry).ip = (split_horizon h entry).next_hop
  · rw [if_pos hn, if_pos hn, Option.map_some']
    congr 1
    exact sweep_untimed h time_zero
      (fun current => decide (current.next_hop_ip = (split_horizon h entry).ip
        ∨ current.subnet = (split_horizon h entry).ip))
      _ _ tbl (fun r => rfl) (fun r => rfl)
  · rw [if_neg hn, if_neg hn]
    have hw := walk_untimed h ip (split_horizon h entry).ip (split_horizon h entry).metric
      tbl [] locals_init
    rw [show ([] : List route_t).map untimed = [] from rfl,
      show untimed_locals locals_init = locals_init from rfl] at hw
    rw [hw]
    cases walk h ip (split_horizon h entry).ip (split_horizon h entry).metric [] tbl
        locals_init with
    | returned t o => rfl
    | done t st =>
      simp only [untimed_walk]
      rw [synthesize_untimed]
      cases synthesize h t ip (v_same_as_here h (split_horizon h entry).ip) st with
      | none => rfl
      | some p =>
        obtain ⟨t2, out2, st2⟩ := p
        simp only [Option.map_some']
        exact update_untimed h t2 ip _ _ st2 out2

/-- C19: when `handle_packet` on the table `tbl` returns a table that differs from `tbl` in
`last_updated` at most, the same datagram applied to that table at any clock value `n`
returns as well, again with a table that differs in `last_updated` at most, and sends the
same datagrams as the first application: none when the first application sent none. -/
theorem idempotent_when_unchanged (h : host_t) (tbl : List route_t) (ip intf : Nat)
    (header : rip_header_t) (entry : rip_entry_t) (len : Nat) (tbl1 : List route_t)
    (out : List payload_t) (n : timeval)
    (hp : safe_dr_handle_packet h tbl ip intf header entry len = some (tbl1, out))
    (hsame : tbl1.map untimed = tbl.map untimed) :
    ∃ tbl2,
      safe_dr_handle_packet (at_time h n) tbl1 ip intf header entry len = some (tbl2, out)
        ∧ tbl2.map untimed = tbl1.map untimed := by
  have h1 := handle_packet_untimed h tbl ip intf header entry len
  have h2 := handle_packet_untimed (at_time h n) tbl1 ip intf header entry len
  rw [show at_time (at_time h n) time_zero = at_time h time_zero from rfl, hsame, h1, hp,
    Option.map_some'] at h2
  cases hsecond : safe_dr_handle_packet (at_time h n) tbl1 ip intf header entry len with
  | none => rw [hsecond] at h2; cases h2
  | some p =>
    obtain ⟨tbl2, out2⟩ := p
    rw [hsecond, Option.map_some', Option.some.injEq] at h2
    simp only [untimed_result, Prod.mk.injEq] at h2
    exact ⟨tbl2, by rw [h2.2], h2.1.symm⟩

/-- C19, at a table that already holds the route of cost 2 to 10.0.2.0/24 via 10.0.0.2, and
the advertisement of that destination with metric 1 by 10.0.0.2: the first application sends
nothing and changes nothing, and so does the second, a hundred seconds later. -/
theorem idempotent_when_unchanged_witness :
    safe_dr_handle_packet host1 [route_origin, route_neighbor, route_learned 2] 0x0A000002 0
        hdr0 adv_metric1 28
      = some ([route_origin, route_neighbor, route_learned 2], [])
      ∧ ∃ tbl2,
        safe_dr_handle_packet (at_time host1 { tv_sec := 200, tv_usec := 0 })
            [route_origin, route_neighbor, route_learned 2] 0x0A000002 0 hdr0 adv_metric1 28
          = some (tbl2, [])
        ∧ tbl2.map untimed = [route_origin, route_neighbor, route_learned 2].map untimed :=
  ⟨by decide,
    idempotent_when_unchanged host1 [route_origin, route_neighbor, route_learned 2]
      0x0A000002 0 hdr0 adv_metric1 28 _ [] { tv_sec := 200, tv_usec := 0 } (by decide) rfl⟩

/-! ## The periodic advertisement -/

theorem flatMap_ite_perm {α β : Type} (p : α → Prop) [DecidablePred p] (a b : α → List β)
    (l : List α) :
    (l.flatMap fun i => if p i then a i else b i).Perm
      ((l.filter fun i => decide (p i)).flatMap a
        ++ (l.filter fun i => decide (¬ p i)).flatMap b) := by
  induction l with
  | nil => simp
  | cons x l ih =>
    by_cases hx : p x
    · simp only [List.flatMap_cons, if_pos hx, List.filter_cons, hx, decide_True,
        not_true_eq_false, decide_False, if_true, Bool.false_eq_true, if_false,
        List.append_assoc]
      exact List.Perm.append_left _ ih
    · simp only [List.flatMap_cons, if_neg hx, List.filter_cons, hx, decide_False,
        not_false_eq_true, decide_True, if_true, Bool.false_eq_true, if_false]
      refine (List.Perm.append_left _ ih).trans ?_
      exact List.perm_append_comm_assoc _ _ _

theorem length_flatMap_const {α β : Type} (f : α → List β) (k : Nat) (l : List α)
    (hk : ∀ x ∈ l, (f x).length = k) : (l.flatMap f).length = l.length * k := by
  induction l with
  | nil => simp
  | cons x l ih =>
    rw [List.flatMap_cons, List.length_append, hk x (List.mem_cons_self x l),
      ih (fun y hy => hk y (List.mem_cons_of_mem x hy)), List.length_cons]
    ring

theorem mem_enabled_intfs (h : host_t) (i : Nat) :
    i ∈ enabled_intfs h ↔ i < h.ifs.length ∧ (dr_get_interface h i).enabled ≠ 0 := by
  unfold enabled_intfs dr_interface_count
  rw [List.mem_filter, List.mem_range]
  simp

theorem advertise_perm (h : host_t) (tbl : List route_t) :
    (advertise_routing_table h tbl).Perm
      (((enabled_intfs h).flatMap fun i =>
          tbl.map fun current => dr_send_payload h i (entry_of_route current))
        ++ (disabled_intfs h).flatMap fun d =>
          broadcast_intf_down h d (dr_get_interface h d).ip) := by
  unfold advertise_routing_table enabled_intfs disabled_intfs
  have hp := flatMap_ite_perm (fun i => (dr_get_interface h i).enabled ≠ 0)
    (fun i => tbl.map fun current => dr_send_payload h i (entry_of_route current))
    (fun i => broadcast_intf_down h i (dr_get_interface h i).ip)
    (List.range (dr_interface_count h))
  simpa using hp

/-- The destination `RIP_IP` is, in the memory of the host, the four bytes 224, 0, 0, 9,
whatever the byte order of the host. -/
theorem rip_ip_bytes (big : Bool) : u32_bytes big (RIP_IP big) = [224, 0, 0, 9] := by
  cases big <;> decide

theorem route_fields_send (h : host_t) (i : Nat) (r : route_t) :
    route_fields h (dr_send_payload h i (entry_of_route r)) = route_datagram_spec i r := by
  simp only [route_fields, dr_send_payload, rip_ip_bytes, route_datagram_spec, entry_of_route,
    INFINITY]

theorem notice_fields_send (h : host_t) (k d i : Nat) :
    notice_fields h (dr_send_payload h i (entry_of_intf_down h k (dr_get_interface h d).ip))
      = notice_datagram_spec h d i := by
  simp only [notice_fields, dr_send_payload, rip_ip_bytes, notice_datagram_spec,
    entry_of_intf_down]

/-- C21: the advertise step is the first thing `handle_periodic` sends, on the table as the
call found it. Its datagrams are, up to order, `routes` followed by `notices`, where `routes`
holds one route datagram per pair of an enabled interface `i` and a record `r` (sent on `i`
to destination and next hop 224.0.0.9, carrying subnet, mask, next hop, `learned_from`, and
the metric 16 for a garbage record, the cost otherwise), so `E * N` of them, and `notices`
holds one notice per pair of a disabled and an enabled interface, so `D * E` of them; every
datagram is sent on an enabled interface. -/
theorem periodic_advertisement (h : host_t) (tbl : List route_t) :
    (safe_dr_handle_periodic h tbl).2
        = advertise_routing_table h tbl
          ++ (sweep h (timed_out h) (fun current => { current with is_garbage := 1 })
              (fun _ => []) tbl).2
      ∧ ∃ routes notices : List payload_t,
          (advertise_routing_table h tbl).Perm (routes ++ notices)
          ∧ routes.map (route_fields h)
              = (enabled_intfs h).flatMap (fun i => tbl.map fun r => route_datagram_spec i r)
          ∧ notices.map (notice_fields h)
              = (disabled_intfs h).flatMap
                  (fun d => (enabled_intfs h).map fun i => notice_datagram_spec h d i)
          ∧ routes.length = (enabled_intfs h).length * tbl.length
          ∧ notices.length = (disabled_intfs h).length * (enabled_intfs h).length
          ∧ (enabled_intfs h).length + (disabled_intfs h).length = h.ifs.length
          ∧ ∀ p ∈ advertise_routing_table h tbl,
              p.outgoing_intf < h.ifs.length
                ∧ (dr_get_interface h p.outgoing_intf).enabled ≠ 0 := by
  refine ⟨rfl, _, _, advertise_perm h tbl, ?_, ?_, ?_, ?_, ?_, ?_⟩
  · simp only [List.map_flatMap, List.map_map, Function.comp_def, route_fields_send]
  · simp only [List.map_flatMap, broadcast_intf_down, broadcast_eq, List.map_map,
      Function.comp_def, notice_fields_send]
  · exact length_flatMap_const _ _ _ (fun i _ => List.length_map _ _)
  · refine length_flatMap_const _ _ _ (fun d _ => ?_)
    rw [broadcast_intf_down, broadcast_eq, List.length_map]
  · unfold enabled_intfs disabled_intfs dr_interface_count
    have hl := @List.length_eq_length_filter_add _ (List.range h.ifs.length)
      (fun i => decide ((dr_get_interface h i).enabled ≠ 0))
    rw [List.length_range] at hl
    have heq : (List.range h.ifs.length).filter
          (fun x => !decide ((dr_get_interface h x).enabled ≠ 0))
        = (List.range h.ifs.length).filter
          (fun i => decide ((dr_get_interface h i).enabled = 0)) := by
      apply List.filter_congr
      intro i _
      simp
    rw [heq] at hl
    exact hl.symm
  · intro p hp
    have hp2 := (advertise_perm h tbl).mem_iff.mp hp
    rw [List.mem_append, List.mem_flatMap, List.mem_flatMap] at hp2
    rcases hp2 with ⟨i, hi, hpi⟩ | ⟨d, _, hpd⟩
    · obtain ⟨r, _, hr⟩ := List.mem_map.mp hpi
      rw [← hr]
      exact (mem_enabled_intfs h i).mp hi
    · rw [broadcast_intf_down, broadcast_eq] at hpd
      obtain ⟨i, hi, hr⟩ := List.mem_map.mp hpd
      rw [← hr]
      exact (mem_enabled_intfs h i).mp hi

/-- A run of the advertise step on a little-endian host: with interface 0 disabled and
interface 1 enabled, a table of two records gives one notice for the IP of interface 0 and
two route datagrams, all on interface 1 and to the `uint32_t` value `0x090000E0`, which is
224.0.0.9 in the memory of the host; the record marked garbage is sent with metric 16. -/
theorem periodic_advertisement_run :
    advertise_routing_table host_down0 table_two
        = [{ dst_ip := 0x090000E0, next_hop_ip := 0x090000E0, outgoing_intf := 1,
             header := { command := 2, version := 2, pad := 0 },
             entry := { host_down0.uninit 0 with
                        addr_family := 1, pad := 0, ip := 0x0A000001, next_hop := 0x0A000001 },
             len := 28 },
           { dst_ip := 0x090000E0, next_hop_ip := 0x090000E0, outgoing_intf := 1,
             header := { command := 2, version := 2, pad := 0 },
             entry := { addr_family := 1, pad := 0, ip := 0x0A000100, subnet_mask := 0xFFFFFF00,
                        next_hop := 0, metric := 1, learned_from := 0 },
             len := 28 },
           { dst_ip := 0x090000E0, next_hop_ip := 0x090000E0, outgoing_intf := 1,
             header := { command := 2, version := 2, pad := 0 },
             entry := { addr_family := 1, pad := 0, ip := 0x0A000200, subnet_mask := 0xFFFFFF00,
                        next_hop := 0x0A000002, metric := 16, learned_from := 0x0A000002 },
             len := 28 }]
      ∧ (advertise_routing_table host_down0 table_two).map
          (fun p => u32_bytes host_down0.big_endian p.dst_ip)
        = [[224, 0, 0, 9], [224, 0, 0, 9], [224, 0, 0, 9]] := by
  decide

/-! ## Outbound framing -/

theorem encode_length (big : Bool) (header : rip_header_t) (packet : rip_entry_t) :
    (encode big header packet).length = PAYLOAD_LEN := by
  cases big <;> simp [encode, u16_bytes, u32_bytes, PAYLOAD_LEN]

theorem mem_broadcast (h : host_t) (e : rip_entry_t) (p : payload_t) (hp : p ∈ broadcast h e) :
    ∃ i, p = dr_send_payload h i e := by
  rw [broadcast_eq] at hp
  obtain ⟨i, _, hi⟩ := List.mem_map.mp hp
  exact ⟨i, hi.symm⟩

theorem mem_advertise (h : host_t) (tbl : List route_t) (p : payload_t)
    (hp : p ∈ advertise_routing_table h tbl) :
    ∃ i e, p = dr_send_payload h i e ∧ e.addr_family = IPV4_ADDR_FAM ∧ e.pad = 0 := by
  have hp2 := (advertise_perm h tbl).mem_iff.mp hp
  rw [List.mem_append, List.mem_flatMap, List.mem_flatMap] at hp2
  rcases hp2 with ⟨i, _, hpi⟩ | ⟨d, _, hpd⟩
  · obtain ⟨r, _, hr⟩ := List.mem_map.mp hpi
    exact ⟨i, entry_of_route r, hr.symm, rfl, rfl⟩
  · obtain ⟨i, hi⟩ := mem_broadcast h _ p hpd
    exact ⟨i, _, hi, rfl, rfl⟩

/-- C22 (counterexample): the datagram `broadcast_single_entry` sends for the origin record
of `host1` has the length 28, not 24: behind the header of 4 bytes the buffer holds an entry
of 24 bytes, not 20. -/
theorem framing_not_24_bytes :
    ∃ p ∈ broadcast_single_entry host1 route_origin,
      p.len = 28 ∧ p.len ≠ SPEC_PAYLOAD_LEN
        ∧ (encode false p.header p.entry).length = 28
        ∧ ((encode false p.header p.entry).drop 4).length = 24
        ∧ ((encode false p.header p.entry).drop 4).length ≠ 20 := by
  decide

/-- C22, amended: every datagram that `broadcast_single_entry`, `broadcast_intf_down` and
`advertise_routing_table` pass to `send_payload` has a header with command 2, version 2 and
pad 0 and one entry with address family 1 and pad 0; its buffer is the 4 header bytes
`2, 2, 0, 0` followed by the 24 bytes of that entry, which begin with the address family and
the pad, and the length passed is 28. -/
theorem outbound_framing (h : host_t) (tbl : List route_t) (to_broadcast : route_t)
    (k intf_ip : Nat) (big : Bool) (p : payload_t)
    (hp : p ∈ broadcast_single_entry h to_broadcast ∨ p ∈ broadcast_intf_down h k intf_ip
      ∨ p ∈ advertise_routing_table h tbl) :
    p.header.command = 2 ∧ p.header.version = 2 ∧ p.header.pad = 0
      ∧ p.entry.addr_family = 1 ∧ p.entry.pad = 0
      ∧ p.len = 28
      ∧ (encode big p.header p.entry).length = p.len
      ∧ ∃ entry_bytes : List Nat,
          encode big p.header p.entry = [2, 2, 0, 0] ++ entry_bytes
            ∧ entry_bytes.length = 24
            ∧ entry_bytes.take 4 = u16_bytes big 1 ++ [0, 0] := by
  have hform : ∃ i e, p = dr_send_payload h i e ∧ e.addr_family = IPV4_ADDR_FAM ∧ e.pad = 0 := by
    rcases hp with hp | hp | hp
    · obtain ⟨i, hi⟩ := mem_broadcast h _ p hp
      exact ⟨i, _, hi, rfl, rfl⟩
    · obtain ⟨i, hi⟩ := mem_broadcast h _ p hp
      exact ⟨i, _, hi, rfl, rfl⟩
    · exact mem_advertise h tbl p hp
  obtain ⟨i, e, hpe, hfam, hpad⟩ := hform
  subst hpe
  cases e with
  | mk af pd ip sm nh m lf =>
    simp only at hfam hpad
    subst hfam hpad
    refine ⟨rfl, rfl, rfl, rfl, rfl, rfl, ?_,
      u16_bytes big 1 ++ u16_bytes big 0 ++ u32_bytes big ip ++ u32_bytes big sm
        ++ u32_bytes big nh ++ u32_bytes big m ++ u32_bytes big lf, ?_, ?_, ?_⟩
    · rw [encode_length]; rfl
    · cases big <;>
        simp [encode, u16_bytes, u32_bytes, dr_send_payload, response_header,
          RIP_COMMAND_RESPONSE, RIP_VERSION, IPV4_ADDR_FAM]
    · cases big <;> simp [u16_bytes, u32_bytes]
    · cases big <;> simp [u16_bytes, u32_bytes]

theorem outbound_framing_witness :
    (dr_send_payload host1 0 (entry_of_route route_origin)
        ∈ broadcast_single_entry host1 route_origin
      ∨ dr_send_payload host1 0 (entry_of_route route_origin) ∈ broadcast_intf_down host1 0 0
      ∨ dr_send_payload host1 0 (entry_of_route route_origin)
        ∈ advertise_routing_table host1 [route_origin])
    ∧ (dr_send_payload host1 0 (entry_of_route route_origin)).len = 28
    ∧ (encode true (dr_send_payload host1 0 (entry_of_route route_origin)).header
        (dr_send_payload host1 0 (entry_of_route route_origin)).entry).length = 28 := by
  have hmem : dr_send_payload host1 0 (entry_of_route route_origin)
        ∈ broadcast_single_entry host1 route_origin
      ∨ dr_send_payload host1 0 (entry_of_route route_origin) ∈ broadcast_intf_down host1 0 0
      ∨ dr_send_payload host1 0 (entry_of_route route_origin)
        ∈ advertise_routing_table host1 [route_origin] := Or.inl (by decide)
  have hfr := outbound_framing host1 [route_origin] route_origin 0 0 true _ hmem
  exact ⟨hmem, hfr.2.2.2.2.2.1, hfr.2.2.2.2.2.2.1.trans hfr.2.2.2.2.2.1⟩

/-! ## A sender on no enabled interface -/

theorem unknown_sender_no_intf (h : host_t) (u : Nat) (hunknown : unknown_sender h u) :
    ∀ j, j < h.ifs.length → ¬ on_subnet h u j := by
  intro j hj hon
  exact hunknown (dr_get_interface h j) (getD_mem_of_lt h j hj) hon.2 hon.1

theorem walk_locals_unknown (h : host_t) (ip v : Nat) (tbl : List route_t)
    (hunknown : unknown_sender h ip) :
    (walk_locals h ip v tbl).u_interface_index = none := by
  unfold walk_locals
  simp only
  rw [search_intf_none h ip none (unknown_sender_no_intf h ip hunknown)]
  split <;> rfl

theorem synthesize_unknown (h : host_t) (tbl : List route_t) (ip : Nat) (same : Bool)
    (st : locals_t) (hunknown : unknown_sender h ip) :
    synthesize h tbl ip same st = some (tbl, [], st) := by
  have hfind : (List.range (dr_interface_count h)).find? (fun i => decide (on_subnet h ip i))
      = none := by
    rw [List.find?_eq_none]
    intro i hi
    have hlt : i < h.ifs.length := List.mem_range.mp hi
    simpa using unknown_sender_no_intf h ip hunknown i hlt
  unfold synthesize
  rw [hfind]
  split <;> rfl

theorem update_unknown (h : host_t) (tbl : List route_t) (ip : Nat) (received : rip_entry_t)
    (same : Bool) (st : locals_t) (out : List payload_t)
    (hst : st.u_interface_index = none) :
    update h tbl ip received same st out = some (tbl, out) := by
  unfold update
  rw [if_neg (fun hc => hc.2.2 hst), if_neg (fun hc => hc.2.1 hst)]

/-- C23 as stated fails: on a host whose interface 10.0.0.1/24 is disabled and whose only
enabled interface is 10.0.1.1/24, an advertisement of metric 16 for 10.0.2.0/24 from the
sender 10.0.0.2, which is on the subnet of no enabled interface, removes the record for
10.0.2.0/24 whose next hop is the sender, and sends it with metric 16 on interface 1. -/
theorem unknown_sender_not_ignored :
    unknown_sender host_down0 0x0A000002
      ∧ adv_metric16.ip ≠ adv_metric16.next_hop
      ∧ safe_dr_handle_packet host_down0 [route_origin1, route_learned 2] 0x0A000002 0 hdr0
          adv_metric16 28
        = some ([route_origin1],
            [dr_send_payload host_down0 1
              { addr_family := 1, pad := 0, ip := 0x0A000200, subnet_mask := 0xFFFFFF00,
                next_hop := 0x0A000002, metric := 16, learned_from := 0x0A000002 }])
      ∧ [route_origin1].map untimed ≠ [route_origin1, route_learned 2].map untimed := by
  decide

/-- C23, amended: for a sender `u` on the subnet of no enabled interface, an advertisement
that is not an interface-down notice (`ip != next_hop`) and to which the dead-dependency rule
does not apply (no record for `v` has the sender as next hop while the effective metric
exceeds 15) is ignored: the call returns the table with `last_updated` refreshed in the
records for `u` and for `v` and nothing else changed, no record inserted, removed or relaxed,
and no datagram is sent. -/
theorem unknown_sender_ignored (h : host_t) (tbl : List route_t) (ip intf : Nat)
    (header : rip_header_t) (entry : rip_entry_t) (len : Nat)
    (hunknown : unknown_sender h ip)
    (hnotice : entry.ip ≠ entry.next_hop)
    (halive : ∀ r ∈ tbl, ¬ dead ip entry.ip (effective_metric h entry) r) :
    safe_dr_handle_packet h tbl ip intf header entry len
        = some (tbl.map (refresh h ip entry.ip), [])
      ∧ (tbl.map (refresh h ip entry.ip)).map untimed = tbl.map untimed := by
  refine ⟨?_, map_untimed_refresh h ip entry.ip tbl⟩
  rw [handle_packet_alive h tbl ip intf header entry len hnotice halive,
    synthesize_unknown h _ ip _ _ hunknown]
  exact update_unknown h _ ip _ _ _ _ (walk_locals_unknown h ip entry.ip tbl hunknown)

theorem unknown_sender_ignored_witness :
    unknown_sender (at_time host_down0 t1) 0x0A000002
      ∧ safe_dr_handle_packet (at_time host_down0 t1) [route_origin1, route_learned 2]
          0x0A000002 0 hdr0 adv_metric1 28
        = some ([route_origin1, { route_learned 2 with last_updated := t1 }], []) :=
  ⟨by decide,
    (unknown_sender_ignored (at_time host_down0 t1) [route_origin1, route_learned 2]
      0x0A000002 0 hdr0 adv_metric1 28 (by decide) (by decide) (by decide)).1.trans
      (by decide)⟩

/-- The interface-down notice is not subject to the condition on the sender either: on the
same host a notice for 10.0.0.2 from the sender 10.0.0.2 removes the record whose next hop
is 10.0.0.2 and sends two datagrams on interface 1. -/
theorem unknown_sender_notice_applies :
    unknown_sender host_down0 0x0A000002
      ∧ (safe_dr_handle_packet host_down0 [route_origin1, route_via_u] 0x0A000002 0 hdr0
          notice_u 28).map Prod.fst = some [route_origin1]
      ∧ (safe_dr_handle_packet host_down0 [route_origin1, route_via_u] 0x0A000002 0 hdr0
          notice_u 28).map (fun p => p.2.map fun d => (d.outgoing_intf, d.entry.ip,
            d.entry.next_hop))
        = some [(1, 0x0A000200, 0x0A000002), (1, 0x0A000002, 0x0A000002)] := by
  decide

end RIP
